import Mathlib

/-!
# DeepLog: a shallow embedding of the transaction log of `cpp/deeplog/deeplog.cpp`

The log keeps, per branch, numbered commit files
`/_deeplake_log/<branch>/<20 digits>.json`, an optional checkpoint table
`<20 digits>.checkpoint.parquet` and a pointer file `_last_checkpoint.json`.
`get_actions` rebuilds the action list of a branch from these files.

Conventions of the embedding

* `unsigned long` values are `Nat`; where the C++ arithmetic can wrap the
  reduction `% 2 ^ 64` is written out.  `long` values are `Int`.
* A function that can throw returns `Except String _`, the string being the
  message of the C++ exception where the source gives one.
* Stateful methods take the storage and return the new storage; `create` returns the
  storage also for a call that throws.
* File contents are kept in decoded form (`bytes`): the JSON and Parquet codecs
  are external libraries and are taken to round-trip.  A commit file keeps, next to
  its objects, the text `commit` wrote.
-/

namespace deeplog

/-! ## Actions -/

/-- The `protocol` action: minimum reader and writer versions. -/
structure protocol_action where
  min_reader_version : Nat
  min_writer_version : Nat
deriving DecidableEq, Repr

/-- The `metadata` action: identity and description of the dataset. -/
structure metadata_action where
  id : String
  name : Option String
  description : Option String
  created_time : Int
deriving DecidableEq, Repr

/-- The `branch` action: declares a branch, optionally forked from another one. -/
structure create_branch_action where
  id : String
  name : String
  from_branch : Option String
  from_version : Option Nat
deriving DecidableEq, Repr

/-- The `add` action: records a data file of a branch. -/
structure add_file_action where
  path : String
  type : String
  size : Nat
  modification_time : Int
  data_file : Bool
  num_samples : Nat
deriving DecidableEq, Repr

/-- A link of a tensor, `actions/tensor_link.hpp`. -/
structure tensor_link where
  extend : String
  flatten_sequence : Option Bool
  update : String
deriving DecidableEq, Repr

/-- The `tensor` action: declares the schema of a tensor. -/
structure create_tensor_action where
  id : String
  name : String
  dtype : String
  htype : String
  length : Nat
  is_link : Bool
  is_sequence : Bool
  hidden : Bool
  chunk_compression : Option String
  sample_compression : Option String
  links : List (String × tensor_link)
  max_chunk_size : Nat
  min_shape : List Nat
  max_shape : List Nat
  dtype_meta : Option String
  typestr : Option String
  verify : Bool
  version : String
deriving DecidableEq, Repr

/-- The closed set of action variants, one constructor per column of
`deeplog::arrow_schema` other than `version`. -/
inductive action where
  | protocol (a : protocol_action)
  | metadata (a : metadata_action)
  | add (a : add_file_action)
  | branch (a : create_branch_action)
  | tensor (a : create_tensor_action)
deriving DecidableEq, Repr

/-- The tag of an action, `action::action_name()`: the JSON key of the action and
the name of its column. -/
def action.action_name : action → String
  | .protocol _ => "protocol"
  | .metadata _ => "metadata"
  | .add _ => "add"
  | .branch _ => "branch"
  | .tensor _ => "tensor"

/-- The interface `replace_action`: the two virtual methods that `get_actions`
calls on an action that `dynamic_pointer_cast<replace_action>` accepts. -/
structure replace_action where
  replaces : action → Bool
  replace : action → Option action

/-- Modelled from the spec: the classes `protocol_action` and `metadata_action`
(headers and bodies are not part of the sources at hand).  Spec 3.2: "metadata and
protocol are replace actions (subject: singleton per branch; new fully supersedes
prior)"; spec 4.2: `replaces(prior)` is true iff `prior` has the same tag;
"branch, add, tensor are append-only", so the cast yields nothing for them. -/
def as_replace_action : action → Option replace_action
  | .protocol p =>
      some { replaces := fun a => match a with
                                  | .protocol _ => true
                                  | _ => false,
             replace := fun _ => some (.protocol p) }
  | .metadata m =>
      some { replaces := fun a => match a with
                                  | .metadata _ => true
                                  | _ => false,
             replace := fun _ => some (.metadata m) }
  | .add _ => none
  | .branch _ => none
  | .tensor _ => none

/-! ## The unified table -/

/-- One row of a table with schema `deeplog::arrow_schema`: the five nullable action
columns and the nullable `version` column, in schema order. -/
structure Row where
  protocol : Option protocol_action
  metadata : Option metadata_action
  add : Option add_file_action
  branch : Option create_branch_action
  tensor : Option create_tensor_action
  version : Option Nat
deriving DecidableEq, Repr

/-- A table is the list of its rows. -/
abbrev Table := List Row

/-- The row with every column null. -/
def Row.null : Row :=
  { protocol := none, metadata := none, add := none, branch := none, tensor := none,
    version := none }

/-- The row of one action: the column named by the tag holds the action, every other
column is null.  This is what `json_parser::parse` appends for the JSON object
`{tag: fields}` and what the first loop of `write_checkpoint` appends per action. -/
def action_row : action → Row
  | .protocol a => { Row.null with protocol := some a }
  | .metadata a => { Row.null with metadata := some a }
  | .add a => { Row.null with add := some a }
  | .branch a => { Row.null with branch := some a }
  | .tensor a => { Row.null with tensor := some a }

/-- The version row: all action columns null, `version` set. -/
def version_row (v : Nat) : Row := { Row.null with version := some v }

/-- A non-null cell met by the decoding loop of `get_actions`. -/
inductive cell where
  | action (a : action)
  | version (v : Nat)
deriving DecidableEq, Repr

/-- The non-null cells of a row in the order of the schema fields
(`protocol, metadata, add, branch, tensor, version`). -/
def Row.cells (r : Row) : List cell :=
  (r.protocol.map (fun a => cell.action (.protocol a))).toList ++
  (r.metadata.map (fun a => cell.action (.metadata a))).toList ++
  (r.add.map (fun a => cell.action (.add a))).toList ++
  (r.branch.map (fun a => cell.action (.branch a))).toList ++
  (r.tensor.map (fun a => cell.action (.tensor a))).toList ++
  (r.version.map cell.version).toList

/-! ## Storage -/

/-- Modelled from the spec: the content of a stored file, in decoded form (the codecs
`nlohmann::json`, `json_parser` and Parquet are not part of the sources at hand).
Spec 6.1: a commit artifact is "a byte stream of JSON objects concatenated without
separators; each object has exactly one key (the action tag)": `text` is the byte
stream and `objs` are the actions of the objects `json_parser::parse` reads from it;
the pointer is `{"version": <u64>, "size": <u64>}`; the checkpoint body is a Parquet
table of the unified schema.  Any other content is `raw`. -/
inductive bytes where
  | json_objects (text : String) (objs : List action)
  | last_checkpoint (version : Nat) (size : Nat)
  | parquet (table : Table)
  | raw (text : String)
deriving DecidableEq, Repr

/-- Modelled from the spec: the storage adapter of spec 4.1 (`storage.hpp` and
`local_storage.hpp` are not part of the sources at hand), a finite set of named
files listed in some order. -/
structure storage where
  files : List (String × bytes)
deriving DecidableEq, Repr

/-- The storage with no file. -/
def storage.empty : storage := { files := [] }

/-- Modelled from the spec: `get_bytes(path)`, "full read; fails with NotFound". -/
def storage.get_bytes (s : storage) (path : String) : Option bytes :=
  (s.files.find? (fun f => f.1 = path)).map Prod.snd

/-- Modelled from the spec: `set_bytes(path, bytes)`, "atomic publish of a new file
(overwrite permitted)".  An existing file keeps its place in the listing. -/
def storage.set_bytes (s : storage) (path : String) (b : bytes) : storage :=
  if s.files.any (fun f => f.1 = path) then
    { files := s.files.map (fun f => if f.1 = path then (path, b) else f) }
  else
    { files := s.files ++ [(path, b)] }

/-- The path names a file directly inside directory `dir`: it is `dir`, a slash and a
name without slash. -/
def is_child (dir path : String) : Bool :=
  (dir.data ++ ['/']).isPrefixOf path.data &&
    !(path.data.drop (dir.data.length + 1)).contains '/'

/-- Modelled from the spec: `file(path).exists()`.  A path exists when it names a
stored file or a directory that holds one. -/
def storage.file_exists (s : storage) (path : String) : Bool :=
  s.files.any (fun f => f.1 = path || (path.data ++ ['/']).isPrefixOf f.1.data)

/-- Modelled from the spec: `list_files(dir_path)`, "non-recursive listing; ordering
unspecified".  The listing follows the order of `files`. -/
def storage.list_files (s : storage) (dir_path : String) : List String :=
  (s.files.filter (fun f => is_child dir_path f.1)).map Prod.fst

/-! ## File names -/

/-- The string ends with the given suffix, `std::string::ends_with`. -/
def ends_with (s suffix : String) : Bool :=
  suffix.data.isSuffixOf s.data

/-- The character of a decimal digit. -/
def digit_char (d : Nat) : Char := Char.ofNat (48 + d)

/-- The decimal digits of a number, most significant first, as `operator<<` prints
an `unsigned long`; `fuel` bounds the number of digits. -/
def to_decimal : Nat → Nat → List Char
  | 0, _ => []
  | fuel + 1, v =>
      if v < 10 then [digit_char v]
      else to_decimal fuel (v / 10) ++ [digit_char (v % 10)]

/-- The function `zero_pad`: the decimal digits of an `unsigned long` (at most 20
digits), filled on the left with `'0'` to width 20 (`setw(20)`, `setfill('0')`). -/
def zero_pad (version : Nat) : String :=
  let digits := to_decimal 20 version
  ⟨List.replicate (20 - digits.length) '0' ++ digits⟩

/-- The last component of a path, `std::filesystem::path::filename`. -/
def filename (path : String) : List Char :=
  (path.data.reverse.takeWhile (fun c => c != '/')).reverse

/-- White space as skipped by `strtol`. -/
def is_space (c : Char) : Bool :=
  c = ' ' || c = '\t' || c = '\n' || c = Char.ofNat 11 || c = Char.ofNat 12 || c = '\r'

/-- The value of a run of decimal digits. -/
def digits_value (ds : List Char) : Nat :=
  ds.foldl (fun acc c => acc * 10 + (c.toNat - 48)) 0

/-- The function `std::stol` in base 10: skip white space, read an optional sign and
the longest run of digits; throw `invalid_argument` when there is no digit and
`out_of_range` when the value does not fit a `long`. -/
def stol (text : List Char) : Except String Int :=
  let body := text.dropWhile is_space
  let negative : Bool := body.head? = some '-'
  let unsigned_part :=
    if body.head? = some '-' ∨ body.head? = some '+' then body.tail else body
  let ds := unsigned_part.takeWhile Char.isDigit
  if ds.isEmpty then .error "stol: invalid_argument"
  else
    let magnitude : Int := digits_value ds
    let value : Int := if negative then - magnitude else magnitude
    if value < -(2 ^ 63) ∨ 2 ^ 63 - 1 < value then .error "stol: out_of_range"
    else .ok value

/-- The method `deeplog::file_version`: the file name without its last five
characters, read by `std::stol`.  (`substr(0, n - 5)` with `n < 5` wraps around and
keeps the whole name.) -/
def file_version (path : String) : Except String Int :=
  let name := filename path
  stol (if name.length < 5 then name else name.take (name.length - 5))

/-- The conversion of a `long` to `unsigned long`. -/
def to_unsigned (v : Int) : Nat := (v % 2 ^ 64).toNat

/-- The conversion of an `unsigned long`, a number below `2 ^ 64`, to `long`: the
numbers from `2 ^ 63` on become negative. -/
def to_long (v : Nat) : Int := if v < 2 ^ 63 then (v : Int) else (v : Int) - 2 ^ 64

/-- The order of `std::string`: lexicographic on the characters. -/
def path_lt : List Char → List Char → Bool
  | [], [] => false
  | [], _ :: _ => true
  | _ :: _, [] => false
  | a :: as, b :: bs => a.toNat < b.toNat || (a = b && path_lt as bs)

/-- Insertion into a `std::set` of paths, kept in ascending order without
duplicates. -/
def set_insert (p : String) : List String → List String
  | [] => [p]
  | q :: rest =>
      if path_lt p.data q.data then p :: q :: rest
      else if p = q then q :: rest
      else q :: set_insert p rest

/-! ## The text of an action -/

/-- The character of a hexadecimal digit, in lower case. -/
def hex_digit (d : Nat) : Char := if d < 10 then Char.ofNat (48 + d) else Char.ofNat (87 + d)

/-- The characters `nlohmann::json` prints for one character of a string: the
quotation mark and the reverse solidus are escaped, the control characters are printed
as `\b`, `\f`, `\n`, `\r`, `\t` or `\u00xx`, every other character is printed as it
is. -/
def json_escape (c : Char) : List Char :=
  if c = Char.ofNat 34 then [Char.ofNat 92, Char.ofNat 34]
  else if c = Char.ofNat 92 then [Char.ofNat 92, Char.ofNat 92]
  else if c = Char.ofNat 8 then [Char.ofNat 92, 'b']
  else if c = Char.ofNat 12 then [Char.ofNat 92, 'f']
  else if c = Char.ofNat 10 then [Char.ofNat 92, 'n']
  else if c = Char.ofNat 13 then [Char.ofNat 92, 'r']
  else if c = Char.ofNat 9 then [Char.ofNat 92, 't']
  else if c.toNat < 32 then
    [Char.ofNat 92, 'u', '0', '0', hex_digit (c.toNat / 16), hex_digit (c.toNat % 16)]
  else [c]

/-- The text `nlohmann::json` prints for a string: its characters between quotation
marks. -/
def json_string (s : String) : String :=
  ⟨[Char.ofNat 34] ++ s.data.flatMap json_escape ++ [Char.ofNat 34]⟩

/-- The text `nlohmann::json` prints for an unsigned number: its decimal digits. -/
def json_nat (v : Nat) : String := ⟨to_decimal (v + 1) v⟩

/-- The text `nlohmann::json` prints for a signed number: a minus sign if it is
negative, and the decimal digits. -/
def json_int (v : Int) : String :=
  if v < 0 then "-" ++ json_nat v.natAbs else json_nat v.natAbs

/-- The text `nlohmann::json` prints for a boolean. -/
def json_bool (b : Bool) : String := if b then "true" else "false"

/-- Modelled from the spec: the text of an optional field; spec 4.2: implementers
"SHOULD emit `null` on write". -/
def json_optional {α : Type} (print : α → String) : Option α → String
  | none => "null"
  | some a => print a

/-- The texts of the list, with a comma between two of them. -/
def json_members : List String → String
  | [] => ""
  | [m] => m
  | m :: n :: rest => m ++ "," ++ json_members (n :: rest)

/-- The text `operator<<` of `nlohmann::json` prints for an array, the values being
given by their texts: compact, without white space. -/
def json_array (items : List String) : String := "[" ++ json_members items ++ "]"

/-- The assignment `json[key] = value` on the members of a JSON object, which
`nlohmann::json` keeps in a `std::map`, ordered by key: the member goes to its place in
the order of the keys, and takes the place of a member with the same key. -/
def insert_member (m : String × String) : List (String × String) → List (String × String)
  | [] => [m]
  | n :: rest =>
      if path_lt m.1.data n.1.data then m :: n :: rest
      else if m.1 = n.1 then m :: rest
      else n :: insert_member m rest

/-- The text `operator<<` of `nlohmann::json` prints for an object built from the
given members, each a key and the text of its value: compact, without white space, the
members in the order of their keys. -/
def json_object (members : List (String × String)) : String :=
  let ordered := members.foldl (fun object m => insert_member m object) []
  "\x7b" ++ json_members (ordered.map (fun m => json_string m.1 ++ ":" ++ m.2)) ++ "\x7d"

/-- Modelled from the spec: `tensor_link::to_json` (declared in
`actions/tensor_link.hpp`, the body is not part of the sources at hand), the fields of
`TensorLink` of spec 3.2. -/
def tensor_link.to_json (l : tensor_link) : String :=
  json_object [("extend", json_string l.extend),
    ("flatten_sequence", json_optional json_bool l.flatten_sequence),
    ("update", json_string l.update)]

/-- Modelled from the spec: `action::to_json` of the five action classes (the classes
are not part of the sources at hand), given as the text of the JSON value; spec 4.2:
the text encoding of an action is the JSON object of its fields, the fields being
those of spec 3.2, an optional field without value being `null`. -/
def action.to_json : action → String
  | .protocol a =>
      json_object [("min_reader_version", json_nat a.min_reader_version),
        ("min_writer_version", json_nat a.min_writer_version)]
  | .metadata a =>
      json_object [("id", json_string a.id),
        ("name", json_optional json_string a.name),
        ("description", json_optional json_string a.description),
        ("created_time", json_int a.created_time)]
  | .add a =>
      json_object [("path", json_string a.path),
        ("type", json_string a.type),
        ("size", json_nat a.size),
        ("modification_time", json_int a.modification_time),
        ("data_file", json_bool a.data_file),
        ("num_samples", json_nat a.num_samples)]
  | .branch a =>
      json_object [("id", json_string a.id),
        ("name", json_string a.name),
        ("from_branch", json_optional json_string a.from_branch),
        ("from_version", json_optional json_nat a.from_version)]
  | .tensor a =>
      json_object [("id", json_string a.id),
        ("name", json_string a.name),
        ("dtype", json_string a.dtype),
        ("htype", json_string a.htype),
        ("length", json_nat a.length),
        ("is_link", json_bool a.is_link),
        ("is_sequence", json_bool a.is_sequence),
        ("hidden", json_bool a.hidden),
        ("chunk_compression", json_optional json_string a.chunk_compression),
        ("sample_compression", json_optional json_string a.sample_compression),
        ("links", json_object (a.links.map (fun l => (l.1, l.2.to_json)))),
        ("max_chunk_size", json_nat a.max_chunk_size),
        ("min_shape", json_array (a.min_shape.map json_nat)),
        ("max_shape", json_array (a.max_shape.map json_nat)),
        ("dtype_meta", json_optional json_string a.dtype_meta),
        ("typestr", json_optional json_string a.typestr),
        ("verify", json_bool a.verify),
        ("version", json_string a.version)]

/-! ## The log -/

deriving instance DecidableEq for Except

/-- Modelled from the spec: the constant `META_BRANCH_ID` (declared in a header that
is not part of the sources at hand); spec 3.1: "stable literal `"_meta"`". -/
def META_BRANCH_ID : String := "_meta"

/-- How an operation of the reader fails: by a C++ exception or by an
`arrow::Status` that is not ok. -/
inductive failure where
  | thrown (what : String)
  | status (message : String)
deriving DecidableEq, Repr

/-- The path of the commit file of a version. -/
def commit_path (branch_id : String) (version : Nat) : String :=
  "/_deeplake_log/" ++ branch_id ++ "/" ++ zero_pad version ++ ".json"

/-- The path of the checkpoint pointer of a branch. -/
def last_checkpoint_path (branch_id : String) : String :=
  "/_deeplake_log/" ++ branch_id ++ "/_last_checkpoint.json"

/-- The loop of `deeplog::commit` that fills the buffer: for every action, in order,
the JSON object with the one key `action_name()` and the value `to_json()` is printed
to the buffer (`buffer << json`). -/
def commit_buffer (actions : List action) : String :=
  actions.foldl (fun buffer a => buffer ++ json_object [(a.action_name, a.to_json)]) ""

/-- The method `deeplog::commit`: the text of the buffer is written to the file of
version `base_version + 1` (an `unsigned long` sum) with `set_bytes`; the objects of
this text are those of the actions.  The method tests nothing and has no failing
path. -/
def commit (s : storage) (branch_id : String) (base_version : Nat)
    (actions : List action) : storage :=
  let log_dir := "/_deeplake_log/" ++ branch_id ++ "/"
  let operationFilePath := log_dir ++ zero_pad ((base_version + 1) % 2 ^ 64) ++ ".json"
  let buffer := commit_buffer actions
  s.set_bytes operationFilePath (.json_objects buffer actions)

/-- The method `deeplog::read_checkpoint`: the Parquet table stored for the version. -/
def read_checkpoint (s : storage) (dir_path : String) (version : Nat) :
    Except failure Table :=
  match s.get_bytes (dir_path ++ "/" ++ zero_pad version ++ ".checkpoint.parquet") with
  | none => .error (.thrown "file not found")
  | some (.parquet table) => .ok table
  | some _ => .error (.status "not a parquet file")

/-- The body of the listing loop of `action_data` for one listed file: `state` is
`(highest_version, sorted_paths)`. -/
def scan_file (to_version next_from : Option Nat) (state : Nat × List String) (path : String) :
    Except failure (Nat × List String) :=
  if ends_with path ".json" && !ends_with path "_last_checkpoint.json" then
    match file_version path with
    | .error what => .error (.thrown what)
    | .ok found_version =>
        let found := to_unsigned found_version
        if to_version.any (fun t => decide (t < found)) then .ok state
        else
          let highest_version := if state.1 < found then found else state.1
          let sorted_paths :=
            if next_from.all (fun f => decide (f ≤ found)) then set_insert path state.2
            else state.2
          .ok (highest_version, sorted_paths)
  else .ok state

/-- The listing loop of `action_data` over the listed files. -/
def scan_files (to_version next_from : Option Nat) :
    Nat × List String → List String → Except failure (Nat × List String)
  | state, [] => .ok state
  | state, path :: rest =>
      match scan_file to_version next_from state path with
      | .error e => .error e
      | .ok state1 => scan_files to_version next_from state1 rest

/-- The parsing loop of `action_data`: every selected commit file, in the order of
the set, is parsed and its objects are appended as rows. -/
def parse_files (s : storage) : List String → Except failure Table
  | [] => .ok []
  | json_path :: rest =>
      match s.get_bytes json_path with
      | some (.json_objects _ objs) =>
          match parse_files s rest with
          | .error e => .error e
          | .ok rows => .ok (objs.map action_row ++ rows)
      | some _ => .error (.status "JSON parse error")
      | none => .error (.thrown "file not found")

/-- The first part of `action_data`: when the pointer file exists, the table of the
checkpoint it names and the version of that checkpoint.  The field
`last_checkpoint::version` is an `unsigned long`: the number of the pointer is taken
modulo `2 ^ 64`. -/
def load_checkpoint (s : storage) (branch_id : String) :
    Except failure (List Table × Nat) :=
  let dir_path := "/_deeplake_log/" ++ branch_id
  if s.file_exists (last_checkpoint_path branch_id) then
    match s.get_bytes (last_checkpoint_path branch_id) with
    | some (.last_checkpoint version _) =>
        let checkpoint_version := version % 2 ^ 64
        match read_checkpoint s dir_path checkpoint_version with
        | .error e => .error e
        | .ok table => .ok ([table], checkpoint_version)
    | some _ => .error (.thrown "json parse_error")
    | none => .error (.thrown "file not found")
  else .ok ([], 0)

/-- The method `deeplog::action_data`: the table of the checkpoint, if a pointer
exists, then the rows of the selected commit files, then the version row. -/
def action_data (s : storage) (branch_id : String) (from_version : Nat)
    (to_version : Option Nat) : Except failure Table :=
  let dir_path := "/_deeplake_log/" ++ branch_id
  match load_checkpoint s branch_id with
  | .error e => .error e
  | .ok (all_tables, checkpoint_version) =>
      let next_from : Option Nat := some from_version
      let listed := if s.file_exists dir_path then s.list_files dir_path else []
      match scan_files to_version next_from (checkpoint_version, []) listed with
      | .error e => .error e
      | .ok (highest_version, sorted_paths) =>
          match parse_files s sorted_paths with
          | .error e => .error e
          | .ok json_table =>
              .ok ((all_tables ++ [json_table] ++ [[version_row highest_version]]).flatten)

/-- The replace step of `get_actions` for one decoded action: an action that is not
a replace action is appended; a replace action looks for the first action it
replaces (`std::find_if`) and is appended when there is none, otherwise that action
is erased or overwritten by the replacement. -/
def apply_action (cast : action → Option replace_action) (return_actions : List action)
    (a : action) : List action :=
  match cast a with
  | none => return_actions ++ [a]
  | some replace_action =>
      match return_actions.findIdx? replace_action.replaces with
      | none => return_actions ++ [a]
      | some index =>
          match return_actions.get? index with
          | none => return_actions
          | some matched =>
              match replace_action.replace matched with
              | none => return_actions.eraseIdx index
              | some replacement => return_actions.set index replacement

/-- The inner loop of `get_actions` for one non-null cell. -/
def apply_cell (cast : action → Option replace_action) (state : List action × Nat) :
    cell → List action × Nat
  | .version v => (state.1, v)
  | .action a => (apply_action cast state.1 a, state.2)

/-- The decoding loop of `get_actions` over the rows of a table, from the empty list
and version 0. -/
def decode_table (cast : action → Option replace_action) (table : Table) :
    List action × Nat :=
  (table.flatMap Row.cells).foldl (apply_cell cast) ([], 0)

/-- The method `deeplog::get_actions`: the action list and the version the decoding
loop ends with.  The loop keeps the version in an `unsigned long`; the method returns
it as the `long` of its result type. -/
def get_actions (s : storage) (branch_id : String) (to_version : Option Nat) :
    Except String (List action × Int) :=
  match action_data s branch_id 0 to_version with
  | .error (.thrown what) => .error what
  | .error (.status message) => .error ("Error reading action data: " ++ message)
  | .ok all_operations =>
      let decoded := decode_table as_replace_action all_operations
      .ok (decoded.1, to_long decoded.2)

/-- The method `deeplog::version`: the second component of `get_actions`, a `long`,
returned as `unsigned long`. -/
def version (s : storage) (branch_id : String) : Except String Nat :=
  match get_actions s branch_id none with
  | .error e => .error e
  | .ok result => .ok (to_unsigned result.2)

/-- The method `deeplog::write_checkpoint`: one row per action of the branch at the
version, then the version row, stored as the Parquet file of the version. -/
def write_checkpoint (s : storage) (branch_id : String) (version : Nat) :
    Except String storage :=
  match get_actions s branch_id (some version) with
  | .error e => .error e
  | .ok (actions, _) =>
      let table : Table := actions.map action_row ++ [version_row version]
      .ok (s.set_bytes
        ("/_deeplake_log/" ++ branch_id ++ "/" ++ zero_pad version ++ ".checkpoint.parquet")
        (.parquet table))

/-- The method `deeplog::checkpoint`. -/
def checkpoint (s : storage) (branch_id : String) : Except String storage :=
  match version s branch_id with
  | .error e => .error e
  | .ok version_to_checkpoint =>
      match write_checkpoint s branch_id version_to_checkpoint with
      | .error e => .error e
      | .ok s1 =>
          .ok (s1.set_bytes (last_checkpoint_path branch_id)
            (.last_checkpoint version_to_checkpoint 3013))

/-- The class of the log a call of `create` or `open` returns. -/
inductive log_class where
  | deeplog
  | deeplog_v3
deriving DecidableEq, Repr

/-- The initial actions of `deeplog::create`; the two generated ids and the current
time are inputs. -/
def initial_actions (metadata_id branch_id : String) (now : Int) : List action :=
  [ .protocol { min_reader_version := 4, min_writer_version := 4 },
    .metadata { id := metadata_id, name := none, description := none, created_time := now },
    .branch { id := branch_id, name := "main", from_branch := none, from_version := none } ]

/-- The method `deeplog::create` on a storage; `metadata_id`, `branch_id` and `now` are
the results of the two calls of `generate_id()` and of `current_timestamp()`.  The
result is the outcome of the call, the returned log or the exception thrown, and the
storage as the call leaves it: the storage is shared with the caller, so it is
there after a call that throws as well. -/
def create (s : storage) (log_version : Int) (metadata_id branch_id : String)
    (now : Int) : Except String log_class × storage :=
  if log_version < 3 then
    (.error ("Log version " ++ toString log_version ++ " is not supported"), s)
  else if log_version = 3 then (.ok .deeplog_v3, s)
  else if s.file_exists ("/_deeplake_log/" ++ META_BRANCH_ID ++ "/" ++ zero_pad 1 ++ ".json")
      || s.file_exists ("/_deeplake_log/" ++ META_BRANCH_ID ++ "/_last_checkpoint.json") then
    (.error "DeepLake config already exists", s)
  else
    (.ok .deeplog, commit s META_BRANCH_ID 0 (initial_actions metadata_id branch_id now))

/-- The method `deeplog::open` on a storage. -/
def open_log (s : storage) : Except String log_class :=
  if !(s.file_exists ("/_deeplake_log/" ++ META_BRANCH_ID ++ "/" ++ zero_pad 1 ++ ".json")
      || s.file_exists ("/_deeplake_log/" ++ META_BRANCH_ID ++ "/_last_checkpoint.json")) then
    if s.file_exists "/dataset_meta.json" then .ok .deeplog_v3
    else .error "Cannot determine log format"
  else .ok .deeplog

/-! ## Notions used to state the properties -/

/-- A character that is a decimal digit. -/
def is_digit_char (c : Char) : Prop := ∃ d, d < 10 ∧ c = digit_char d

/-- The paths of the stored files, in listing order. -/
def storage.paths (s : storage) : List String := s.files.map Prod.fst

/-- The test of the listing loop of `action_data` on a file name: it ends with `.json`
and is not the checkpoint pointer. -/
def is_commit_name (path : String) : Bool :=
  ends_with path ".json" && !ends_with path "_last_checkpoint.json"

/-- The commit files of a branch: the files listed in its directory whose name passes
the test of the listing loop. -/
def commit_files (s : storage) (branch_id : String) : List String :=
  (s.list_files ("/_deeplake_log/" ++ branch_id)).filter is_commit_name

/-- The order of the set of selected paths, as a relation on strings. -/
def strings_lt (p q : String) : Prop := path_lt p.data q.data = true

/-- The decimal digits of a number in a fixed width, most significant first. -/
def fixed_digits : Nat → Nat → List Char
  | 0, _ => []
  | w + 1, v => fixed_digits w (v / 10) ++ [digit_char (v % 10)]

/-- The version passes the bound `to` of a read: the listing loop does not skip it. -/
def within_bound (to_version : Option Nat) (v : Nat) : Bool :=
  to_version.all (fun t => decide (v ≤ t))

/-- Every file of the list that passes the name test is the commit file of a version
below `2 ^ 63` of the branch. -/
def canonical_names (branch_id : String) (l : List String) : Prop :=
  ∀ p ∈ l, is_commit_name p = true → ∃ v, v < 2 ^ 63 ∧ p = commit_path branch_id v

/-- The path of the checkpoint table of a version. -/
def checkpoint_path (branch_id : String) (version : Nat) : String :=
  "/_deeplake_log/" ++ branch_id ++ "/" ++ zero_pad version ++ ".checkpoint.parquet"

/-- The content of a branch on storage: the checkpoint the pointer file names, if
there is a pointer, with its table, and the commits as pairs of version and actions. -/
structure branch_state where
  checkpoint : Option (Nat × Table)
  commits : List (Nat × List action)

/-- The storage holds the branch in the given state: the pointer and the table are
as stated, the version of the pointer being an `unsigned long` (below `2 ^ 64`); the
commits are listed by ascending version; every commit version is below `2 ^ 63`, the
range in which `file_version` reads a file name; and the commit files of the branch
are exactly the files of these versions, each holding the actions of its commit. -/
def represents (s : storage) (branch_id : String) (st : branch_state) : Prop :=
  (match st.checkpoint with
   | none => s.file_exists (last_checkpoint_path branch_id) = false
   | some (k, table) =>
       k < 2 ^ 64 ∧
       (∃ size, s.get_bytes (last_checkpoint_path branch_id) = some (.last_checkpoint k size)) ∧
       s.get_bytes (checkpoint_path branch_id k) = some (.parquet table)) ∧
  st.commits.Pairwise (fun c d => c.1 < d.1) ∧
  (∀ c ∈ st.commits, c.1 < 2 ^ 63) ∧
  (∀ p, p ∈ commit_files s branch_id ↔ ∃ c ∈ st.commits, p = commit_path branch_id c.1) ∧
  (∀ c ∈ st.commits, ∃ text,
    s.get_bytes (commit_path branch_id c.1) = some (.json_objects text c.2))

/-- The commits a read with bound `to` selects. -/
def selected_commits (to_version : Option Nat) (commits : List (Nat × List action)) :
    List (Nat × List action) :=
  commits.filter (fun c => within_bound to_version c.1)

/-- The rows of the actions of a list of commits, in order. -/
def commit_rows (commits : List (Nat × List action)) : Table :=
  commits.flatMap (fun c => c.2.map action_row)

/-- The greatest of a start value and the versions of a list of commits. -/
def max_version (start : Nat) (commits : List (Nat × List action)) : Nat :=
  commits.foldl (fun h c => max h c.1) start

/-- The rows of the checkpoint table of a branch state. -/
def branch_state.checkpoint_rows (st : branch_state) : Table :=
  match st.checkpoint with
  | none => []
  | some (_, table) => table

/-- The version of the checkpoint of a branch state, 0 without checkpoint. -/
def branch_state.checkpoint_version (st : branch_state) : Nat :=
  match st.checkpoint with
  | none => 0
  | some (k, _) => k

/-- The table `action_data` builds for a branch in a given state. -/
def branch_state.table (st : branch_state) (to_version : Option Nat) : Table :=
  st.checkpoint_rows ++ commit_rows (selected_commits to_version st.commits) ++
    [version_row (max_version st.checkpoint_version (selected_commits to_version st.commits))]

/-- The replace steps of `get_actions` over a list of decoded actions. -/
def fold_actions (cast : action → Option replace_action) (start : List action)
    (actions : List action) : List action :=
  actions.foldl (apply_action cast) start

/-- The action of a cell, if the cell is not a version cell. -/
def cell.action_of : cell → Option deeplog.action
  | .action a => some a
  | .version _ => none

/-- The actions of the cells of a table, in decoding order. -/
def table_actions (table : Table) : List action :=
  (table.flatMap Row.cells).filterMap cell.action_of

/-- The metadata of an action, if it is a metadata action. -/
def action.metadata_of : action → Option metadata_action
  | .metadata m => some m
  | _ => none

/-- The action is a metadata action. -/
def action.is_metadata (a : action) : Bool := a.metadata_of.isSome

/-- The protocol of an action, if it is a protocol action. -/
def action.protocol_of : action → Option protocol_action
  | .protocol p => some p
  | _ => none

/-- The metadata actions of a list of actions, in order. -/
def metas (l : List action) : List metadata_action := l.filterMap action.metadata_of

/-- The protocol actions of a list of actions, in order. -/
def protocols (l : List action) : List protocol_action := l.filterMap action.protocol_of

/-- The commit files of the branch are exactly the files of the versions `1..n`. -/
def contiguous (s : storage) (branch_id : String) (n : Nat) : Prop :=
  ∀ p, p ∈ commit_files s branch_id ↔ ∃ v, 1 ≤ v ∧ v ≤ n ∧ p = commit_path branch_id v

/-- The storage states reached from `create` on an empty storage by commits whose
base version is the version `version` reports for the branch at that moment. -/
inductive tip_reachable : storage → Prop where
  | created (metadata_id branch_id : String) (now : Int) (s : storage) :
      create storage.empty 4 metadata_id branch_id now = (.ok .deeplog, s) → tip_reachable s
  | committed (s : storage) (branch_id : String) (base_version : Nat) (actions : List action) :
      tip_reachable s → version s branch_id = .ok base_version →
      tip_reachable (commit s branch_id base_version actions)

/-- Every stored file is a commit file of some branch with a version up to `2 ^ 63`
and holds a stream of JSON objects. -/
def only_commits (s : storage) : Prop :=
  ∀ f ∈ s.files, ∃ branch_id v text objs,
    v ≤ 2 ^ 63 ∧ f = (commit_path branch_id v, .json_objects text objs)

/-! ## Example storages -/

/-- The storage after `create` on the empty storage, with ids `"ds"` and `"br"` and
time 7. -/
def created_storage : storage :=
  commit storage.empty META_BRANCH_ID 0 (initial_actions "ds" "br" 7)

/-- The branch action of the test `commit_create_branch`. -/
def branch1 : action :=
  .branch { id := "123", name := "branch1", from_branch := some "_meta", from_version := some 0 }

/-- The storage `created_storage` after a second commit on `_meta`, which declares a
branch. -/
def two_commits_storage : storage :=
  commit created_storage META_BRANCH_ID 1 [branch1]

/-- A metadata action named `"first"`. -/
def metadata_first : metadata_action :=
  { id := "ds", name := some "first", description := none, created_time := 7 }

/-- A metadata action named `"final"`. -/
def metadata_final : metadata_action :=
  { id := "ds", name := some "final", description := none, created_time := 7 }

/-- The storage `created_storage` after two metadata commits on `_meta`. -/
def metadata_commits_storage : storage :=
  commit (commit created_storage META_BRANCH_ID 1 [.metadata metadata_first])
    META_BRANCH_ID 2 [.metadata metadata_final]

/-- The add action of the test `commit_add_file`. -/
def add_my_path : action :=
  .add { path := "my/path", type := "chunk", size := 3, modification_time := 45,
         data_file := true, num_samples := 3 }

/-- A storage with the commits 1, 2 and 3 on branch `"b"`, each adding a file. -/
def three_commits_storage : storage :=
  commit (commit (commit storage.empty "b" 0 [add_my_path]) "b" 1 [add_my_path]) "b" 2
    [add_my_path]

/-- The protocol action of the test `commit_protocol`. -/
def protocol_5_6 : action :=
  .protocol { min_reader_version := 5, min_writer_version := 6 }

/-! ## Snapshots and deletion -/

/-- The add action of an action, if it is one. -/
def action.add_of : action → Option add_file_action
  | .add a => some a
  | _ => none

/-- Modelled from the spec: `base_snapshot::find_actions<add_file_action>` (the class
`base_snapshot` is not part of the sources at hand); spec 4.7: a snapshot "obtains
`(actions, version)` and exposes typed filters", `data_files()` being "all add
actions" of the action list. -/
def find_add_file_actions (actions : List action) : List add_file_action :=
  actions.filterMap action.add_of

/-- A snapshot of a branch: the arguments of the constructors of `snapshot.cpp`,
the version being absent for the constructor without version. -/
structure snapshot where
  branch_id : String
  version : Option Nat

/-- The method `snapshot::data_files` of a snapshot on a log over the storage `s`;
the action list is the one `get_actions(branch_id, version)` returns (spec 4.7). -/
def snapshot.data_files (snap : snapshot) (s : storage) : Except String (List add_file_action) :=
  match get_actions s snap.branch_id snap.version with
  | .error e => .error e
  | .ok result => .ok (find_add_file_actions result.1)

/-- The deletion of files from a storage: the files whose path satisfies `doomed` are
dropped, the other files stay as they are. -/
def storage.remove_files (s : storage) (doomed : String → Bool) : storage :=
  { files := s.files.filter (fun f => !doomed f.1) }

/-- The deletion loop of the test `checkpoint`: of the files in the directory of the
branch, every file whose name ends with `.json` and is not `_last_checkpoint.json`
is removed. -/
def delete_json_files (s : storage) (branch_id : String) : storage :=
  s.remove_files (fun p =>
    is_child ("/_deeplake_log/" ++ branch_id) p &&
      (decide (filename p ≠ "_last_checkpoint.json".data) && ends_with p ".json"))

/-- Commits in a row on one branch, the first with base version `base_version`, each
next one with the base version one higher, as the tests do with
`commit(branch, version(branch), actions)`. -/
def commit_each (s : storage) (branch_id : String) (base_version : Nat) :
    List (List action) → storage
  | [] => s
  | actions :: rest =>
      commit_each (commit s branch_id base_version actions) branch_id (base_version + 1) rest

/-- The metadata cells of a table that are not null, in row order. -/
def metadata_cells (table : Table) : List metadata_action :=
  table.filterMap Row.metadata

/-- The commits of a list of action batches, numbered from `first`. -/
def number_commits (first : Nat) : List (List action) → List (Nat × List action)
  | [] => []
  | actions :: rest => (first, actions) :: number_commits (first + 1) rest

/-- The storage `created_storage` after `checkpoint("_meta")`. -/
def checkpointed_storage : storage :=
  { files := created_storage.files ++
      [(checkpoint_path "_meta" 1,
         .parquet ((initial_actions "ds" "br" 7).map action_row ++ [version_row 1])),
       (last_checkpoint_path "_meta", .last_checkpoint 1 3013)] }

/-- The storage after `create` and the commit of the test `commit_add_file` on the
main branch `"br"`. -/
def add_file_storage : storage :=
  commit created_storage "br" 0 [add_my_path]

/-! ## The table of a checkpoint -/

/-- The names of the fields of `deeplog::arrow_schema`, in order. -/
def schema_fields : List String :=
  ["protocol", "metadata", "add", "branch", "tensor", "version"]

/-- The branch action of an action, if it is one. -/
def action.branch_of : action → Option create_branch_action
  | .branch a => some a
  | _ => none

/-- The tensor action of an action, if it is one. -/
def action.tensor_of : action → Option create_tensor_action
  | .tensor a => some a
  | _ => none

/-- The row the first loop of `write_checkpoint` appends for one action: for every
field of the schema, the struct of the action when the name of the field is
`action_name()`, null otherwise.  No action is named `version`, so that column gets
null. -/
def checkpoint_row (a : action) : Row :=
  { protocol := if "protocol" = a.action_name then a.protocol_of else none,
    metadata := if "metadata" = a.action_name then a.metadata_of else none,
    add := if "add" = a.action_name then a.add_of else none,
    branch := if "branch" = a.action_name then a.branch_of else none,
    tensor := if "tensor" = a.action_name then a.tensor_of else none,
    version := none }

/-- The table `write_checkpoint` assembles: the rows of the actions, then the row the
second loop appends, with the version in the field `version` and null elsewhere. -/
def checkpoint_table (actions : List action) (version : Nat) : Table :=
  actions.map checkpoint_row ++ [version_row version]

/-- The cell of a row in the field of the given name is not null. -/
def Row.is_set (r : Row) (field : String) : Bool :=
  if field = "protocol" then r.protocol.isSome
  else if field = "metadata" then r.metadata.isSome
  else if field = "add" then r.add.isSome
  else if field = "branch" then r.branch.isSome
  else if field = "tensor" then r.tensor.isSome
  else if field = "version" then r.version.isSome
  else false

/-- The number of actions of a list with the given tag. -/
def count_tag (tag : String) (l : List action) : Nat :=
  (l.filter (fun a => decide (a.action_name = tag))).length

/-! ## Lemmas on the storage -/

theorem find_update_same (p : String) (b : bytes) (l : List (String × bytes))
    (h : ∃ f ∈ l, f.1 = p) :
    ((l.map (fun f => if f.1 = p then (p, b) else f)).find? (fun f => f.1 = p)) = some (p, b) := by
  induction l with
  | nil => simp at h
  | cons g rest ih =>
    simp only [List.map_cons, List.find?_cons]
    by_cases hg : g.1 = p
    · simp [hg]
    · obtain ⟨f, hf, hfp⟩ := h
      rcases List.mem_cons.1 hf with h1 | h1
      · exact absurd (h1 ▸ hfp) hg
      · simp only [hg, if_false, decide_False]
        exact ih ⟨f, h1, hfp⟩

theorem find_update_ne (p q : String) (b : bytes) (l : List (String × bytes)) (hne : q ≠ p) :
    ((l.map (fun f => if f.1 = p then (p, b) else f)).find? (fun f => f.1 = q)) =
      l.find? (fun f => f.1 = q) := by
  induction l with
  | nil => rfl
  | cons g rest ih =>
    simp only [List.map_cons, List.find?_cons]
    by_cases hg : g.1 = p
    · have h1 : ¬ (g.1 = q) := fun h => hne (h ▸ hg)
      have h2 : ¬ (p = q) := fun h => hne h.symm
      simp only [hg, if_true, h2, decide_False]
      exact ih
    · simp only [hg, if_false]
      by_cases hq : g.1 = q
      · simp [hq]
      · simp only [hq, decide_False]
        exact ih

theorem get_bytes_set_bytes_same (s : storage) (p : String) (b : bytes) :
    (s.set_bytes p b).get_bytes p = some b := by
  unfold storage.set_bytes storage.get_bytes
  split
  · rename_i h
    simp only [List.any_eq_true, decide_eq_true_eq] at h
    simp only [find_update_same p b s.files h, Option.map_some']
  · rename_i h
    simp only [List.any_eq_true, decide_eq_true_eq, not_exists, not_and] at h
    rw [List.find?_append]
    have : s.files.find? (fun f => decide (f.1 = p)) = none := by
      rw [List.find?_eq_none]; intro x hx; simpa using h x hx
    simp [this]

theorem get_bytes_set_bytes_ne (s : storage) (p q : String) (b : bytes) (hne : q ≠ p) :
    (s.set_bytes p b).get_bytes q = s.get_bytes q := by
  unfold storage.set_bytes storage.get_bytes
  split
  · simp only [find_update_ne p q b s.files hne]
  · rw [List.find?_append]
    have : ¬ (p = q) := fun h => hne h.symm
    simp [this]

/-! ## Lemmas on file names -/

/-! ### Digits -/

theorem digit_char_isDigit : ∀ d, d < 10 → (digit_char d).isDigit = true := by decide

theorem digit_char_toNat : ∀ d, d < 10 → (digit_char d).toNat - 48 = d := by decide

theorem digit_char_ne_slash : ∀ d, d < 10 → digit_char d ≠ '/' := by decide

theorem digit_char_not_space : ∀ d, d < 10 → is_space (digit_char d) = false := by decide

theorem digit_char_ne_minus : ∀ d, d < 10 → digit_char d ≠ '-' := by decide
theorem digit_char_ne_plus : ∀ d, d < 10 → digit_char d ≠ '+' := by decide

theorem to_decimal_digits (fuel v : Nat) : ∀ c ∈ to_decimal fuel v, is_digit_char c := by
  induction fuel generalizing v with
  | zero => simp [to_decimal]
  | succ n ih =>
    intro c hc
    unfold to_decimal at hc
    split at hc
    · rename_i h
      simp only [List.mem_singleton] at hc
      exact ⟨v, h, hc⟩
    · rcases List.mem_append.1 hc with h1 | h1
      · exact ih _ c h1
      · simp only [List.mem_singleton] at h1
        exact ⟨v % 10, Nat.mod_lt _ (by norm_num), h1⟩

theorem to_decimal_length (fuel v : Nat) : (to_decimal fuel v).length ≤ fuel := by
  induction fuel generalizing v with
  | zero => simp [to_decimal]
  | succ n ih =>
    unfold to_decimal
    split
    · simp
    · simp only [List.length_append, List.length_singleton]
      have := ih (v / 10)
      omega

theorem digits_value_append (xs : List Char) (c : Char) :
    digits_value (xs ++ [c]) = digits_value xs * 10 + (c.toNat - 48) := by
  simp [digits_value, List.foldl_append]

theorem to_decimal_value (fuel v : Nat) (h : v < 10 ^ fuel) :
    digits_value (to_decimal fuel v) = v := by
  induction fuel generalizing v with
  | zero => simp at h; subst h; rfl
  | succ n ih =>
    unfold to_decimal
    split
    · rename_i h10
      simp [digits_value, digit_char_toNat v h10]
    · rw [digits_value_append, digit_char_toNat _ (Nat.mod_lt _ (by norm_num))]
      have hv : v / 10 < 10 ^ n := by
        rw [Nat.div_lt_iff_lt_mul (by norm_num)]
        rw [pow_succ] at h; exact h
      rw [ih _ hv]
      omega

theorem digits_value_zeros (k : Nat) (xs : List Char) :
    digits_value (List.replicate k '0' ++ xs) = digits_value xs := by
  induction k with
  | zero => simp
  | succ n ih =>
    simp only [List.replicate_succ, List.cons_append]
    unfold digits_value at *
    simp only [List.foldl_cons]
    exact ih

/-- The characters of `zero_pad`. -/
theorem zero_pad_length (v : Nat) : (zero_pad v).data.length = 20 := by
  simp only [zero_pad, List.length_append, List.length_replicate]
  have := to_decimal_length 20 v
  omega

theorem zero_pad_digits (v : Nat) : ∀ c ∈ (zero_pad v).data, is_digit_char c := by
  intro c hc
  simp only [zero_pad, List.mem_append, List.mem_replicate] at hc
  rcases hc with ⟨_, h⟩ | h
  · exact ⟨0, by norm_num, h⟩
  · exact to_decimal_digits _ _ c h

theorem zero_pad_value (v : Nat) (h : v < 10 ^ 20) : digits_value (zero_pad v).data = v := by
  simp only [zero_pad]
  rw [digits_value_zeros, to_decimal_value _ _ h]


theorem takeWhile_append_stop {α : Type} (p : α → Bool) (l r : List α) (x : α)
    (hl : ∀ a ∈ l, p a = true) (hx : p x = false) :
    (l ++ x :: r).takeWhile p = l := by
  induction l with
  | nil => simp [List.takeWhile, hx]
  | cons a t ih =>
    simp only [List.cons_append, List.takeWhile_cons, hl a (List.mem_cons_self _ _), if_true]
    rw [ih (fun b hb => hl b (List.mem_cons_of_mem _ hb))]

/-- The child of a directory with a given name. -/
theorem child_data (dir name : String) :
    (dir ++ "/" ++ name).data = dir.data ++ '/' :: name.data := by
  simp [String.data_append]

theorem filename_child (dir name : String) (h : '/' ∉ name.data) :
    filename (dir ++ "/" ++ name) = name.data := by
  unfold filename
  rw [child_data]
  have : (dir.data ++ '/' :: name.data).reverse = name.data.reverse ++ '/' :: dir.data.reverse := by
    simp
  rw [this, takeWhile_append_stop]
  · simp
  · intro a ha
    have : a ∈ name.data := List.mem_reverse.1 ha
    have hne : a ≠ '/' := fun e => h (e ▸ this)
    simpa using hne
  · simp

theorem is_child_child (dir name : String) (h : '/' ∉ name.data) :
    is_child dir (dir ++ "/" ++ name) = true := by
  unfold is_child
  rw [child_data]
  have h1 : (dir.data ++ ['/']).isPrefixOf (dir.data ++ '/' :: name.data) = true := by
    rw [List.isPrefixOf_iff_prefix]
    exact ⟨name.data, by simp⟩
  have h2 : (dir.data ++ '/' :: name.data).drop (dir.data.length + 1) = name.data := by
    have : dir.data ++ '/' :: name.data = (dir.data ++ ['/']) ++ name.data := by simp
    rw [this, List.drop_left' (by simp)]
  rw [h1, h2]
  simpa using h

theorem is_child_elim (dir path : String) (h : is_child dir path = true) :
    ∃ name : String, '/' ∉ name.data ∧ path = dir ++ "/" ++ name := by
  unfold is_child at h
  simp only [Bool.and_eq_true, Bool.not_eq_true', List.isPrefixOf_iff_prefix] at h
  obtain ⟨⟨t, ht⟩, h2⟩ := h
  refine ⟨⟨t⟩, ?_, ?_⟩
  · have : path.data.drop (dir.data.length + 1) = t := by
      rw [← ht, List.drop_left' (by simp)]
    rw [this] at h2
    simpa using h2
  · apply String.ext
    rw [child_data, ← ht]; simp

theorem filename_of_child (dir path : String) (h : is_child dir path = true) :
    path = dir ++ "/" ++ ⟨filename path⟩ ∧ '/' ∉ filename path := by
  obtain ⟨name, hn, rfl⟩ := is_child_elim dir path h
  rw [filename_child dir name hn]
  exact ⟨rfl, hn⟩

/-- A path is the child of at most one directory. -/
theorem is_child_unique (d1 d2 path : String) (h1 : is_child d1 path = true)
    (h2 : is_child d2 path = true) : d1 = d2 := by
  obtain ⟨e1, _⟩ := filename_of_child d1 path h1
  obtain ⟨e2, _⟩ := filename_of_child d2 path h2
  have : (d1 ++ "/" ++ (⟨filename path⟩ : String)).data =
      (d2 ++ "/" ++ (⟨filename path⟩ : String)).data := by rw [← e1, ← e2]
  simp only [String.data_append] at this
  have h3 := List.append_cancel_right this
  have h4 := List.append_cancel_right h3
  exact String.ext h4


/-! ### Commit paths -/

/-- The name of the commit file of a version. -/
theorem commit_path_child (branch_id : String) (v : Nat) :
    commit_path branch_id v = ("/_deeplake_log/" ++ branch_id) ++ "/" ++ (zero_pad v ++ ".json") := by
  simp only [commit_path, String.append_assoc]

theorem digit_ne_slash (c : Char) (h : is_digit_char c) : c ≠ '/' := by
  obtain ⟨d, hd, rfl⟩ := h
  exact digit_char_ne_slash d hd

theorem commit_name_no_slash (v : Nat) : '/' ∉ (zero_pad v ++ ".json").data := by
  simp only [String.data_append, List.mem_append, not_or]
  refine ⟨fun h => digit_ne_slash _ (zero_pad_digits v _ h) rfl, by decide⟩

theorem is_child_commit_path (branch_id : String) (v : Nat) :
    is_child ("/_deeplake_log/" ++ branch_id) (commit_path branch_id v) = true := by
  rw [commit_path_child]
  exact is_child_child _ _ (commit_name_no_slash v)

theorem ends_with_json_commit_path (branch_id : String) (v : Nat) :
    ends_with (commit_path branch_id v) ".json" = true := by
  simp only [ends_with, commit_path, List.isSuffixOf_iff_suffix, String.data_append]
  exact List.suffix_append _ _

theorem zero_pad_snoc (v : Nat) :
    ∃ init d, d < 10 ∧ (zero_pad v).data = init ++ [digit_char d] := by
  have hl := zero_pad_length v
  have hne : (zero_pad v).data ≠ [] := by
    intro h; rw [h] at hl; simp at hl
  obtain ⟨d, hd, hc⟩ := zero_pad_digits v _ (List.getLast_mem hne)
  exact ⟨(zero_pad v).data.dropLast, d, hd, by
    rw [← hc]; exact (List.dropLast_append_getLast hne).symm⟩

theorem digit_char_ne_t : ∀ d, d < 10 → digit_char d ≠ 't' := by decide

theorem snoc_inj_right {α : Type} {a b : List α} {x y : α} (h : a ++ [x] = b ++ [y]) : x = y := by
  have := List.append_inj_right' h rfl
  simpa using this

theorem not_ends_with_pointer_commit_path (branch_id : String) (v : Nat) :
    ends_with (commit_path branch_id v) "_last_checkpoint.json" = false := by
  rw [Bool.eq_false_iff]
  intro h
  simp only [ends_with, commit_path, List.isSuffixOf_iff_suffix, String.data_append] at h
  obtain ⟨t, ht⟩ := h
  obtain ⟨init, d, hd, hz⟩ := zero_pad_snoc v
  rw [hz] at ht
  have h4 : (t ++ ['_', 'l', 'a', 's', 't', '_', 'c', 'h', 'e', 'c', 'k', 'p', 'o', 'i', 'n']) ++ ['t'] =
      (['/', '_', 'd', 'e', 'e', 'p', 'l', 'a', 'k', 'e', '_', 'l', 'o', 'g', '/'] ++ branch_id.data ++
        ['/'] ++ init) ++ [digit_char d] := by
    refine List.append_cancel_right (?_ : _ ++ ['.', 'j', 's', 'o', 'n'] = _ ++ ['.', 'j', 's', 'o', 'n'])
    simpa using ht
  exact digit_char_ne_t d hd (snoc_inj_right h4).symm

theorem stol_digits (ds : List Char) (hne : ds ≠ []) (hd : ∀ c ∈ ds, is_digit_char c)
    (hv : digits_value ds < 2 ^ 63) : stol ds = .ok (digits_value ds : Int) := by
  obtain ⟨c, rest, rfl⟩ := List.exists_cons_of_ne_nil hne
  obtain ⟨d, hd10, hc⟩ := hd c (List.mem_cons_self _ _)
  have hsp : is_space c = false := hc ▸ digit_char_not_space d hd10
  have hm : c ≠ '-' := hc ▸ digit_char_ne_minus d hd10
  have hp : c ≠ '+' := hc ▸ digit_char_ne_plus d hd10
  have hall : (c :: rest).takeWhile Char.isDigit = c :: rest := by
    rw [List.takeWhile_eq_self_iff]
    intro x hx
    obtain ⟨e, he, rfl⟩ := hd x hx
    exact digit_char_isDigit e he
  unfold stol
  simp only [List.dropWhile_cons, hsp, Bool.false_eq_true, if_false, List.head?_cons,
    Option.some.injEq, hm, hp, or_self, hall, List.isEmpty_cons, decide_False]
  have h1 : ¬ ((digits_value (c :: rest) : Int) < -(2 ^ 63) ∨ 2 ^ 63 - 1 < (digits_value (c :: rest) : Int)) := by
    omega
  simp only [h1, if_false]

theorem file_version_commit_path (branch_id : String) (v : Nat) (hv : v < 2 ^ 63) :
    file_version (commit_path branch_id v) = .ok (v : Int) := by
  unfold file_version
  rw [commit_path_child, filename_child _ _ (commit_name_no_slash v)]
  have hlen : (zero_pad v ++ ".json").data.length = 25 := by
    rw [String.data_append, List.length_append, zero_pad_length]; rfl
  have htake : (zero_pad v ++ ".json").data.take 20 = (zero_pad v).data := by
    rw [String.data_append, List.take_left' (zero_pad_length v)]
  simp only [hlen, show ¬ (25 < 5) by norm_num, if_false, show 25 - 5 = 20 by norm_num, htake]
  have h20 : v < 10 ^ 20 := lt_of_lt_of_le hv (by norm_num)
  have hval := zero_pad_value v h20
  have hne : (zero_pad v).data ≠ [] := by
    intro h; have := zero_pad_length v; rw [h] at this; simp at this
  rw [stol_digits _ hne (zero_pad_digits v) (by rw [hval]; exact hv), hval]

theorem to_unsigned_natCast (v : Nat) (hv : v < 2 ^ 64) : to_unsigned (v : Int) = v := by
  unfold to_unsigned
  have : ((v : Int) % 2 ^ 64) = (v : Int) := by
    apply Int.emod_eq_of_lt <;> omega
  rw [this]; simp

/-! ## Listing and existence after a write -/

theorem mem_paths_iff (s : storage) (p : String) :
    p ∈ s.paths ↔ s.files.any (fun f => f.1 = p) = true := by
  simp [storage.paths]

theorem paths_set_bytes (s : storage) (p : String) (b : bytes) :
    (s.set_bytes p b).paths = if p ∈ s.paths then s.paths else s.paths ++ [p] := by
  unfold storage.set_bytes
  by_cases h : s.files.any (fun f => f.1 = p) = true
  · rw [if_pos h, if_pos ((mem_paths_iff s p).2 h)]
    simp only [storage.paths, List.map_map]
    apply List.map_congr_left
    intro f _
    by_cases hf : f.1 = p <;> simp [hf]
  · rw [if_neg h, if_neg (fun hp => h ((mem_paths_iff s p).1 hp))]
    simp [storage.paths]

theorem list_files_eq (s : storage) (dir : String) :
    s.list_files dir = s.paths.filter (fun p => is_child dir p) := by
  simp only [storage.list_files, storage.paths, List.filter_map]
  rfl

theorem mem_list_files (s : storage) (dir p : String) :
    p ∈ s.list_files dir ↔ p ∈ s.paths ∧ is_child dir p = true := by
  rw [list_files_eq]; simp

theorem list_files_set_bytes (s : storage) (p dir : String) (b : bytes) :
    (s.set_bytes p b).list_files dir =
      if is_child dir p = true ∧ p ∉ s.paths then s.list_files dir ++ [p]
      else s.list_files dir := by
  rw [list_files_eq, list_files_eq, paths_set_bytes]
  by_cases hp : p ∈ s.paths
  · simp [hp]
  · by_cases hc : is_child dir p = true
    · simp [hp, hc, List.filter_append]
    · simp [hp, hc, List.filter_append]

theorem file_exists_iff (s : storage) (q : String) :
    s.file_exists q = true ↔
      ∃ p ∈ s.paths, p = q ∨ (q.data ++ ['/']).isPrefixOf p.data = true := by
  simp [storage.file_exists, storage.paths]

theorem file_exists_of_mem (s : storage) (p : String) (h : p ∈ s.paths) :
    s.file_exists p = true :=
  (file_exists_iff s p).2 ⟨p, h, Or.inl rfl⟩

theorem mem_paths_set_bytes (s : storage) (p q : String) (b : bytes) :
    q ∈ (s.set_bytes p b).paths ↔ q ∈ s.paths ∨ q = p := by
  rw [paths_set_bytes]
  by_cases hp : p ∈ s.paths
  · simp only [hp, if_true]
    constructor
    · exact Or.inl
    · rintro (h | h)
      · exact h
      · exact h ▸ hp
  · simp [hp]

theorem file_exists_set_bytes (s : storage) (p q : String) (b : bytes) :
    (s.set_bytes p b).file_exists q = true ↔
      s.file_exists q = true ∨ p = q ∨ (q.data ++ ['/']).isPrefixOf p.data = true := by
  simp only [file_exists_iff, mem_paths_set_bytes]
  constructor
  · rintro ⟨x, hx | hx, h⟩
    · exact Or.inl ⟨x, hx, h⟩
    · subst hx; exact Or.inr h
  · rintro (⟨x, hx, h⟩ | h)
    · exact ⟨x, Or.inl hx, h⟩
    · exact ⟨p, Or.inr rfl, h⟩

theorem file_exists_set_bytes_self (s : storage) (p : String) (b : bytes) :
    (s.set_bytes p b).file_exists p = true :=
  (file_exists_set_bytes s p p b).2 (Or.inr (Or.inl rfl))

/-- The guard on the directory in `action_data` changes nothing: a directory that
does not exist lists no file. -/
theorem listed_eq (s : storage) (dir : String) :
    (if s.file_exists dir = true then s.list_files dir else []) = s.list_files dir := by
  by_cases h : s.file_exists dir = true
  · rw [if_pos h]
  · rw [if_neg h]
    symm
    rw [List.eq_nil_iff_forall_not_mem]
    intro p hp
    rw [mem_list_files] at hp
    apply h
    rw [file_exists_iff]
    refine ⟨p, hp.1, Or.inr ?_⟩
    have := hp.2
    simp only [is_child, Bool.and_eq_true] at this
    exact this.1

theorem get_bytes_isSome_iff (s : storage) (p : String) :
    (s.get_bytes p).isSome = true ↔ p ∈ s.paths := by
  simp [storage.get_bytes, storage.paths]

/-! ## The order of paths and the set of selected paths -/

theorem char_eq_of_toNat_eq {a b : Char} (h : a.toNat = b.toNat) : a = b := by
  apply Char.ext
  apply UInt32.ext
  exact h

theorem path_lt_irrefl (a : List Char) : path_lt a a = false := by
  induction a with
  | nil => rfl
  | cons x t ih => simp [path_lt, ih]

theorem path_lt_asymm : ∀ a b : List Char, path_lt a b = true → path_lt b a = false
  | [], [], h => by simp [path_lt] at h
  | [], _ :: _, _ => by simp [path_lt]
  | _ :: _, [], h => by simp [path_lt] at h
  | x :: s, y :: t, h => by
    simp only [path_lt, Bool.or_eq_true, decide_eq_true_eq, Bool.and_eq_true] at h
    simp only [path_lt, Bool.or_eq_false_iff, decide_eq_false_iff_not, Bool.and_eq_false_imp,
      decide_eq_true_eq]
    rcases h with h | ⟨h1, h2⟩
    · exact ⟨by omega, fun e => by rw [e] at h; omega⟩
    · subst h1
      exact ⟨by omega, fun _ => path_lt_asymm s t h2⟩

theorem path_lt_trans : ∀ a b c : List Char, path_lt a b = true → path_lt b c = true →
    path_lt a c = true
  | [], [], _, h, _ => by simp [path_lt] at h
  | [], _ :: _, [], _, h => by simp [path_lt] at h
  | [], _ :: _, _ :: _, _, _ => by simp [path_lt]
  | _ :: _, [], _, h, _ => by simp [path_lt] at h
  | _ :: _, _ :: _, [], _, h => by simp [path_lt] at h
  | x :: s, y :: t, z :: u, h1, h2 => by
    simp only [path_lt, Bool.or_eq_true, decide_eq_true_eq, Bool.and_eq_true] at h1 h2 ⊢
    rcases h1 with h1 | ⟨e1, h1⟩
    · rcases h2 with h2 | ⟨e2, _⟩
      · exact Or.inl (by omega)
      · subst e2; exact Or.inl h1
    · subst e1
      rcases h2 with h2 | ⟨e2, h2⟩
      · exact Or.inl h2
      · exact Or.inr ⟨e2, path_lt_trans s t u h1 h2⟩

theorem path_lt_total : ∀ a b : List Char, a ≠ b → path_lt a b = true ∨ path_lt b a = true
  | [], [], h => absurd rfl h
  | [], _ :: _, _ => by simp [path_lt]
  | _ :: _, [], _ => by simp [path_lt]
  | x :: s, y :: t, h => by
    simp only [path_lt, Bool.or_eq_true, decide_eq_true_eq, Bool.and_eq_true]
    rcases Nat.lt_trichotomy x.toNat y.toNat with h1 | h1 | h1
    · exact Or.inl (Or.inl h1)
    · have e := char_eq_of_toNat_eq h1
      subst e
      have hst : s ≠ t := fun e => h (by rw [e])
      rcases path_lt_total s t hst with h2 | h2
      · exact Or.inl (Or.inr ⟨rfl, h2⟩)
      · exact Or.inr (Or.inr ⟨rfl, h2⟩)
    · exact Or.inr (Or.inl h1)

theorem path_lt_append_left (x a b : List Char) : path_lt (x ++ a) (x ++ b) = path_lt a b := by
  induction x with
  | nil => rfl
  | cons c t ih => simp [path_lt, ih]

theorem path_lt_append_right : ∀ (a b s : List Char), a.length = b.length →
    path_lt (a ++ s) (b ++ s) = path_lt a b
  | [], [], s, _ => by simp [path_lt, path_lt_irrefl]
  | [], _ :: _, _, h => by simp at h
  | _ :: _, [], _, h => by simp at h
  | x :: a, y :: b, s, h => by
    have ih := path_lt_append_right a b s (by simpa using h)
    simp only [List.cons_append, path_lt, List.append_eq, ih]

theorem path_lt_snoc : ∀ (a b : List Char) (x y : Char), a.length = b.length →
    path_lt (a ++ [x]) (b ++ [y]) = (path_lt a b || (decide (a = b) && decide (x.toNat < y.toNat)))
  | [], [], x, y, _ => by simp [path_lt]
  | [], _ :: _, _, _, h => by simp at h
  | _ :: _, [], _, _, h => by simp at h
  | c :: a, d :: b, x, y, h => by
    have ih := path_lt_snoc a b x y (by simpa using h)
    simp only [List.cons_append, path_lt, List.append_eq, ih]
    by_cases hcd : c = d
    · subst hcd; simp [Bool.and_or_distrib_left]
    · have : ¬ (c :: a = d :: b) := fun e => hcd (List.cons.inj e).1
      simp [hcd, this]

/-- The order of paths as a relation on strings. -/
theorem strings_lt_irrefl (p : String) : ¬ strings_lt p p := by
  simp [strings_lt, path_lt_irrefl]

theorem set_insert_mem (p q : String) (l : List String) :
    q ∈ set_insert p l ↔ q = p ∨ q ∈ l := by
  induction l with
  | nil => simp [set_insert]
  | cons r t ih =>
    unfold set_insert
    split
    · simp
    · split
      · rename_i h; subst h; simp
      · simp only [List.mem_cons, ih]
        tauto

theorem set_insert_sorted (p : String) (l : List String) (h : l.Pairwise strings_lt) :
    (set_insert p l).Pairwise strings_lt := by
  induction l with
  | nil => simp [set_insert]
  | cons r t ih =>
    rw [List.pairwise_cons] at h
    unfold set_insert
    split
    · rename_i hlt
      rw [List.pairwise_cons]
      refine ⟨?_, List.pairwise_cons.2 h⟩
      intro x hx
      rcases List.mem_cons.1 hx with e | hx
      · subst e; exact hlt
      · exact path_lt_trans _ _ _ hlt (h.1 x hx)
    · split
      · exact List.pairwise_cons.2 h
      · rename_i hnlt hne
        rw [List.pairwise_cons]
        refine ⟨?_, ih h.2⟩
        intro x hx
        rcases (set_insert_mem p x t).1 hx with e | hx
        · subst e
          have hd : r.data ≠ x.data := fun e => hne (String.ext e.symm)
          rcases path_lt_total r.data x.data hd with h1 | h1
          · exact h1
          · exact absurd h1 hnlt
        · exact h.1 x hx

/-- Two strictly ascending lists with the same members are equal. -/
theorem sorted_ext : ∀ (l1 l2 : List String), l1.Pairwise strings_lt → l2.Pairwise strings_lt →
    (∀ x, x ∈ l1 ↔ x ∈ l2) → l1 = l2
  | [], [], _, _, _ => rfl
  | [], b :: _, _, _, h => by simpa using (h b)
  | a :: _, [], _, _, h => by simpa using (h a)
  | a :: s, b :: t, h1, h2, h => by
    rw [List.pairwise_cons] at h1 h2
    have hab : a = b := by
      by_contra hne
      have ha : a ∈ t := by
        have := (h a).1 (List.mem_cons_self _ _)
        rcases List.mem_cons.1 this with e | e
        · exact absurd e hne
        · exact e
      have hb : b ∈ s := by
        have := (h b).2 (List.mem_cons_self _ _)
        rcases List.mem_cons.1 this with e | e
        · exact absurd e.symm hne
        · exact e
      have r1 := h1.1 b hb
      have r2 := h2.1 a ha
      have := path_lt_asymm _ _ r1
      simp [strings_lt] at r2
      rw [r2] at this
      exact Bool.noConfusion this
    subst hab
    congr 1
    apply sorted_ext s t h1.2 h2.2
    intro x
    constructor
    · intro hx
      have := (h x).1 (List.mem_cons_of_mem _ hx)
      rcases List.mem_cons.1 this with e | e
      · subst e; exact absurd (h1.1 x hx) (strings_lt_irrefl x)
      · exact e
    · intro hx
      have := (h x).2 (List.mem_cons_of_mem _ hx)
      rcases List.mem_cons.1 this with e | e
      · subst e; exact absurd (h2.1 x hx) (strings_lt_irrefl x)
      · exact e

/-! ## Zero-padded names are ordered like the versions -/

theorem fixed_digits_zero (w : Nat) : fixed_digits w 0 = List.replicate w '0' := by
  induction w with
  | zero => rfl
  | succ n ih =>
    simp only [fixed_digits, Nat.zero_div, Nat.zero_mod, ih]
    rw [List.replicate_succ']
    rfl

theorem fixed_digits_length (w v : Nat) : (fixed_digits w v).length = w := by
  induction w generalizing v with
  | zero => rfl
  | succ n ih => simp [fixed_digits, ih]

theorem pad_eq_fixed_digits (fuel : Nat) : ∀ (k v : Nat), v < 10 ^ fuel → fuel ≤ k →
    List.replicate (k - (to_decimal fuel v).length) '0' ++ to_decimal fuel v =
      fixed_digits k v := by
  induction fuel with
  | zero =>
    intro k v hv _
    have : v = 0 := by simpa using hv
    subst this
    simp [to_decimal, fixed_digits_zero]
  | succ n ih =>
    intro k v hv hk
    obtain ⟨k', rfl⟩ : ∃ k', k = k' + 1 := ⟨k - 1, by omega⟩
    unfold to_decimal
    by_cases h10 : v < 10
    · simp only [h10, if_true, List.length_singleton, Nat.add_sub_cancel, fixed_digits]
      rw [Nat.div_eq_of_lt h10, Nat.mod_eq_of_lt h10, fixed_digits_zero]
    · simp only [h10, if_false, List.length_append, List.length_singleton, fixed_digits]
      have hn : 1 ≤ n := by
        rcases Nat.eq_zero_or_pos n with h0 | h0
        · subst h0; simp at hv; omega
        · exact h0
      have hv' : v / 10 < 10 ^ n := by
        rw [Nat.div_lt_iff_lt_mul (by norm_num)]
        rw [pow_succ] at hv; exact hv
      have := ih k' (v / 10) hv' (by omega)
      rw [← this, Nat.add_sub_add_right, List.append_assoc]

theorem zero_pad_fixed (v : Nat) (hv : v < 10 ^ 20) : (zero_pad v).data = fixed_digits 20 v := by
  simp only [zero_pad]
  exact pad_eq_fixed_digits 20 20 v hv (le_refl _)

theorem digit_char_toNat_eq : ∀ d, d < 10 → (digit_char d).toNat = 48 + d := by decide

theorem fixed_digits_value (w v : Nat) (hv : v < 10 ^ w) :
    digits_value (fixed_digits w v) = v := by
  induction w generalizing v with
  | zero =>
    have : v = 0 := by simpa using hv
    subst this; rfl
  | succ n ih =>
    have hv' : v / 10 < 10 ^ n := by
      rw [Nat.div_lt_iff_lt_mul (by norm_num)]
      rw [pow_succ] at hv; exact hv
    rw [fixed_digits, digits_value_append, ih _ hv',
      digit_char_toNat _ (Nat.mod_lt _ (by norm_num))]
    omega

theorem fixed_digits_lt (w : Nat) : ∀ a b : Nat, a < 10 ^ w → b < 10 ^ w →
    (path_lt (fixed_digits w a) (fixed_digits w b) = true ↔ a < b) := by
  induction w with
  | zero =>
    intro a b ha hb
    have h1 : a = 0 := by simpa using ha
    have h2 : b = 0 := by simpa using hb
    subst h1 h2
    simp [fixed_digits, path_lt]
  | succ n ih =>
    intro a b ha hb
    have ha' : a / 10 < 10 ^ n := by
      rw [Nat.div_lt_iff_lt_mul (by norm_num)]
      rw [pow_succ] at ha; exact ha
    have hb' : b / 10 < 10 ^ n := by
      rw [Nat.div_lt_iff_lt_mul (by norm_num)]
      rw [pow_succ] at hb; exact hb
    have heq : fixed_digits n (a / 10) = fixed_digits n (b / 10) ↔ a / 10 = b / 10 := by
      constructor
      · intro e
        have := congrArg digits_value e
        rwa [fixed_digits_value _ _ ha', fixed_digits_value _ _ hb'] at this
      · intro e; rw [e]
    simp only [fixed_digits]
    rw [path_lt_snoc _ _ _ _ (by rw [fixed_digits_length, fixed_digits_length])]
    simp only [Bool.or_eq_true, Bool.and_eq_true, decide_eq_true_eq, ih _ _ ha' hb', heq,
      digit_char_toNat_eq _ (Nat.mod_lt a (by norm_num : 0 < 10)),
      digit_char_toNat_eq _ (Nat.mod_lt b (by norm_num : 0 < 10))]
    omega

theorem commit_path_data (branch_id : String) (v : Nat) :
    (commit_path branch_id v).data =
      ("/_deeplake_log/" ++ branch_id ++ "/").data ++ ((zero_pad v).data ++ ".json".data) := by
  simp [commit_path, String.data_append]

/-- The commit files of a branch are ordered by path as their versions are ordered. -/
theorem commit_path_lt (branch_id : String) (a b : Nat) (ha : a < 10 ^ 20) (hb : b < 10 ^ 20) :
    strings_lt (commit_path branch_id a) (commit_path branch_id b) ↔ a < b := by
  unfold strings_lt
  rw [commit_path_data, commit_path_data, path_lt_append_left,
    path_lt_append_right _ _ _ (by rw [zero_pad_length, zero_pad_length]),
    zero_pad_fixed a ha, zero_pad_fixed b hb]
  exact fixed_digits_lt 20 a b ha hb

theorem zero_pad_inj (a b : Nat) (ha : a < 10 ^ 20) (hb : b < 10 ^ 20)
    (h : zero_pad a = zero_pad b) : a = b := by
  have := congrArg (fun s => digits_value s.data) h
  simp only at this
  rwa [zero_pad_value a ha, zero_pad_value b hb] at this

theorem branch_dir_inj (b1 b2 : String) (h : "/_deeplake_log/" ++ b1 = "/_deeplake_log/" ++ b2) :
    b1 = b2 := by
  have := congrArg String.data h
  simp only [String.data_append] at this
  exact String.ext (List.append_cancel_left this)

theorem commit_path_inj (b1 b2 : String) (v1 v2 : Nat) (h1 : v1 < 10 ^ 20) (h2 : v2 < 10 ^ 20)
    (h : commit_path b1 v1 = commit_path b2 v2) : b1 = b2 ∧ v1 = v2 := by
  have c1 := is_child_commit_path b1 v1
  have c2 := is_child_commit_path b2 v2
  rw [h] at c1
  have hb := branch_dir_inj _ _ (is_child_unique _ _ _ c1 c2)
  subst hb
  refine ⟨rfl, ?_⟩
  have := congrArg String.data h
  rw [commit_path_data, commit_path_data] at this
  have h3 := List.append_cancel_left this
  have h4 := List.append_cancel_right h3
  exact zero_pad_inj v1 v2 h1 h2 (String.ext h4)

/-! ## The listing loop -/

theorem is_commit_name_commit_path (branch_id : String) (v : Nat) :
    is_commit_name (commit_path branch_id v) = true := by
  simp [is_commit_name, ends_with_json_commit_path, not_ends_with_pointer_commit_path]

theorem scan_file_other (to_version next_from : Option Nat) (state : Nat × List String)
    (path : String) (h : is_commit_name path = false) :
    scan_file to_version next_from state path = .ok state := by
  unfold scan_file
  unfold is_commit_name at h
  rw [h]
  rfl

theorem to_any_eq (to_version : Option Nat) (v : Nat) :
    to_version.any (fun t => decide (t < v)) = !within_bound to_version v := by
  cases to_version with
  | none => rfl
  | some t =>
    simp only [Option.any_some, within_bound, Option.all_some]
    by_cases h : t < v
    · simp [h, Nat.not_le.2 h]
    · simp [h, Nat.not_lt.1 h]

theorem scan_file_commit_path (to_version : Option Nat) (f : Nat) (state : Nat × List String)
    (branch_id : String) (v : Nat) (hv : v < 2 ^ 63) :
    scan_file to_version (some f) state (commit_path branch_id v) =
      .ok (if within_bound to_version v = true then
            (if state.1 < v then v else state.1,
             if f ≤ v then set_insert (commit_path branch_id v) state.2 else state.2)
           else state) := by
  unfold scan_file
  have hn := is_commit_name_commit_path branch_id v
  unfold is_commit_name at hn
  rw [hn, if_pos rfl, file_version_commit_path branch_id v hv]
  dsimp only
  rw [to_unsigned_natCast v (lt_trans hv (by norm_num)), to_any_eq]
  by_cases hw : within_bound to_version v = true
  · rw [hw]; simp
  · have : within_bound to_version v = false := by simpa using hw
    rw [this]; simp

theorem scan_files_canonical (branch_id : String) (to_version : Option Nat) :
    ∀ (l : List String) (h0 : Nat) (ps0 : List String), canonical_names branch_id l →
    ∃ h ps, scan_files to_version (some 0) (h0, ps0) l = .ok (h, ps) ∧
      (∀ q, q ∈ ps ↔ q ∈ ps0 ∨
        ∃ v, v < 2 ^ 63 ∧ q = commit_path branch_id v ∧ q ∈ l ∧ within_bound to_version v = true) ∧
      (ps0.Pairwise strings_lt → ps.Pairwise strings_lt) ∧
      h0 ≤ h ∧
      (∀ v, v < 2 ^ 63 → commit_path branch_id v ∈ l → within_bound to_version v = true → v ≤ h) ∧
      (h = h0 ∨ ∃ v, v < 2 ^ 63 ∧ commit_path branch_id v ∈ l ∧
        within_bound to_version v = true ∧ h = v) := by
  intro l
  induction l with
  | nil =>
    intro h0 ps0 _
    exact ⟨h0, ps0, rfl, by simp, id, le_refl _, by simp, Or.inl rfl⟩
  | cons p rest ih =>
    intro h0 ps0 hc
    have hrest : canonical_names branch_id rest :=
      fun q hq => hc q (List.mem_cons_of_mem _ hq)
    by_cases hp : is_commit_name p = true
    · obtain ⟨v, hv, rfl⟩ := hc p (List.mem_cons_self _ _) hp
      by_cases hw : within_bound to_version v = true
      · obtain ⟨h, ps, e, hmem, hsort, hle, hub, hatt⟩ :=
          ih (if h0 < v then v else h0) (set_insert (commit_path branch_id v) ps0) hrest
        refine ⟨h, ps, ?_, ?_, ?_, ?_, ?_, ?_⟩
        · simp only [scan_files, scan_file_commit_path to_version 0 (h0, ps0) branch_id v hv, hw,
            if_true, Nat.zero_le]
          exact e
        · intro q
          rw [hmem, set_insert_mem]
          constructor
          · rintro ((h1 | h1) | ⟨w, hw1, hw2, hw3, hw4⟩)
            · exact Or.inr ⟨v, hv, h1, h1 ▸ List.mem_cons_self _ _, hw⟩
            · exact Or.inl h1
            · exact Or.inr ⟨w, hw1, hw2, List.mem_cons_of_mem _ hw3, hw4⟩
          · rintro (h1 | ⟨w, hw1, hw2, hw3, hw4⟩)
            · exact Or.inl (Or.inr h1)
            · rcases List.mem_cons.1 hw3 with h2 | h2
              · exact Or.inl (Or.inl h2)
              · exact Or.inr ⟨w, hw1, hw2, h2, hw4⟩
        · intro hs
          exact hsort (set_insert_sorted _ _ hs)
        · split at hle <;> omega
        · intro w hw1 hw2 hw3
          rcases List.mem_cons.1 hw2 with h2 | h2
          · have := (commit_path_inj _ _ _ _ (lt_trans hw1 (by norm_num))
              (lt_trans hv (by norm_num)) h2).2
            subst this
            split at hle <;> omega
          · exact hub w hw1 h2 hw3
        · rcases hatt with h1 | ⟨w, hw1, hw2, hw3, hw4⟩
          · by_cases hlt : h0 < v
            · rw [if_pos hlt] at h1
              exact Or.inr ⟨v, hv, List.mem_cons_self _ _, hw, h1⟩
            · rw [if_neg hlt] at h1
              exact Or.inl h1
          · exact Or.inr ⟨w, hw1, List.mem_cons_of_mem _ hw2, hw3, hw4⟩
      · obtain ⟨h, ps, e, hmem, hsort, hle, hub, hatt⟩ := ih h0 ps0 hrest
        refine ⟨h, ps, ?_, ?_, hsort, hle, ?_, ?_⟩
        · simp only [scan_files, scan_file_commit_path to_version 0 (h0, ps0) branch_id v hv, hw]
          exact e
        · intro q
          rw [hmem]
          constructor
          · rintro (h1 | ⟨w, hw1, hw2, hw3, hw4⟩)
            · exact Or.inl h1
            · exact Or.inr ⟨w, hw1, hw2, List.mem_cons_of_mem _ hw3, hw4⟩
          · rintro (h1 | ⟨w, hw1, hw2, hw3, hw4⟩)
            · exact Or.inl h1
            · rcases List.mem_cons.1 hw3 with h2 | h2
              · have := (commit_path_inj _ _ _ _ (lt_trans hw1 (by norm_num))
                  (lt_trans hv (by norm_num)) (hw2 ▸ h2)).2
                subst this
                exact absurd hw4 hw
              · exact Or.inr ⟨w, hw1, hw2, h2, hw4⟩
        · intro w hw1 hw2 hw3
          rcases List.mem_cons.1 hw2 with h2 | h2
          · have := (commit_path_inj _ _ _ _ (lt_trans hw1 (by norm_num))
              (lt_trans hv (by norm_num)) h2).2
            subst this
            exact absurd hw3 hw
          · exact hub w hw1 h2 hw3
        · rcases hatt with h1 | ⟨w, hw1, hw2, hw3, hw4⟩
          · exact Or.inl h1
          · exact Or.inr ⟨w, hw1, List.mem_cons_of_mem _ hw2, hw3, hw4⟩
    · have hp' : is_commit_name p = false := by simpa using hp
      obtain ⟨h, ps, e, hmem, hsort, hle, hub, hatt⟩ := ih h0 ps0 hrest
      refine ⟨h, ps, ?_, ?_, hsort, hle, ?_, ?_⟩
      · simp only [scan_files, scan_file_other _ _ _ _ hp']
        exact e
      · intro q
        rw [hmem]
        constructor
        · rintro (h1 | ⟨w, hw1, hw2, hw3, hw4⟩)
          · exact Or.inl h1
          · exact Or.inr ⟨w, hw1, hw2, List.mem_cons_of_mem _ hw3, hw4⟩
        · rintro (h1 | ⟨w, hw1, hw2, hw3, hw4⟩)
          · exact Or.inl h1
          · rcases List.mem_cons.1 hw3 with h2 | h2
            · rw [hw2] at h2
              rw [← h2, is_commit_name_commit_path] at hp'
              exact Bool.noConfusion hp'
            · exact Or.inr ⟨w, hw1, hw2, h2, hw4⟩
      · intro w hw1 hw2 hw3
        rcases List.mem_cons.1 hw2 with h2 | h2
        · rw [← h2, is_commit_name_commit_path] at hp'
          exact Bool.noConfusion hp'
        · exact hub w hw1 h2 hw3
      · rcases hatt with h1 | ⟨w, hw1, hw2, hw3, hw4⟩
        · exact Or.inl h1
        · exact Or.inr ⟨w, hw1, List.mem_cons_of_mem _ hw2, hw3, hw4⟩

/-! ## The reader on a branch in a known state -/

theorem max_version_spec (start : Nat) (cs : List (Nat × List action)) :
    start ≤ max_version start cs ∧ (∀ c ∈ cs, c.1 ≤ max_version start cs) ∧
      (max_version start cs = start ∨ ∃ c ∈ cs, max_version start cs = c.1) := by
  induction cs generalizing start with
  | nil => simp [max_version]
  | cons c rest ih =>
    have e : max_version start (c :: rest) = max_version (max start c.1) rest := rfl
    obtain ⟨h1, h2, h3⟩ := ih (max start c.1)
    rw [e]
    refine ⟨le_trans (le_max_left _ _) h1, ?_, ?_⟩
    · intro d hd
      rcases List.mem_cons.1 hd with h | h
      · subst h; exact le_trans (le_max_right _ _) h1
      · exact h2 d h
    · rcases h3 with h | ⟨d, hd, h⟩
      · rcases le_total start c.1 with hle | hle
        · right; exact ⟨c, List.mem_cons_self _ _, by rw [h, max_eq_right hle]⟩
        · left; rw [h, max_eq_left hle]
      · right; exact ⟨d, List.mem_cons_of_mem _ hd, h⟩

theorem parse_files_commits (s : storage) (branch_id : String) (cs : List (Nat × List action))
    (h : ∀ c ∈ cs, ∃ text,
      s.get_bytes (commit_path branch_id c.1) = some (.json_objects text c.2)) :
    parse_files s (cs.map (fun c => commit_path branch_id c.1)) = .ok (commit_rows cs) := by
  induction cs with
  | nil => rfl
  | cons c rest ih =>
    obtain ⟨text, hc⟩ := h c (List.mem_cons_self _ _)
    simp only [List.map_cons, parse_files, hc,
      ih (fun d hd => h d (List.mem_cons_of_mem _ hd))]
    simp [commit_rows]

theorem load_checkpoint_represents (s : storage) (branch_id : String) (st : branch_state)
    (h : represents s branch_id st) :
    load_checkpoint s branch_id = .ok
      (match st.checkpoint with
       | none => []
       | some (_, table) => [table], st.checkpoint_version) := by
  obtain ⟨hck, _⟩ := h
  unfold load_checkpoint branch_state.checkpoint_version
  cases hst : st.checkpoint with
  | none =>
    rw [hst] at hck
    simp only at hck
    simp [hck]
  | some kt =>
    obtain ⟨k, table⟩ := kt
    rw [hst] at hck
    obtain ⟨hk, ⟨size, h1⟩, h2⟩ := hck
    have hex : s.file_exists (last_checkpoint_path branch_id) = true := by
      apply file_exists_of_mem
      rw [← get_bytes_isSome_iff, h1]; rfl
    have hp : "/_deeplake_log/" ++ branch_id ++ "/" ++ zero_pad k ++ ".checkpoint.parquet" =
        checkpoint_path branch_id k := rfl
    simp only [hex, if_true, h1, read_checkpoint, Nat.mod_eq_of_lt hk, hp, h2]

theorem canonical_names_represents (s : storage) (branch_id : String) (st : branch_state)
    (h : represents s branch_id st) :
    canonical_names branch_id (s.list_files ("/_deeplake_log/" ++ branch_id)) := by
  obtain ⟨_, _, hlt, hfiles, _⟩ := h
  intro p hp hn
  have : p ∈ commit_files s branch_id := by
    simp only [commit_files, List.mem_filter]
    exact ⟨hp, hn⟩
  obtain ⟨c, hc, e⟩ := (hfiles p).1 this
  exact ⟨c.1, hlt c hc, e⟩

theorem selected_paths_sorted (branch_id : String) (cs : List (Nat × List action))
    (hs : cs.Pairwise (fun c d => c.1 < d.1)) (hlt : ∀ c ∈ cs, c.1 < 2 ^ 63) :
    (cs.map (fun c => commit_path branch_id c.1)).Pairwise strings_lt := by
  rw [List.pairwise_map]
  refine List.Pairwise.imp_of_mem ?_ hs
  intro a b ha hb hab
  exact (commit_path_lt branch_id a.1 b.1 (lt_trans (hlt a ha) (by norm_num))
    (lt_trans (hlt b hb) (by norm_num))).2 hab

/-- The table `action_data` returns for a branch in a known state. -/
theorem action_data_represents (s : storage) (branch_id : String) (st : branch_state)
    (to_version : Option Nat) (h : represents s branch_id st) :
    action_data s branch_id 0 to_version = .ok (st.table to_version) := by
  have hload := load_checkpoint_represents s branch_id st h
  have hcanon := canonical_names_represents s branch_id st h
  obtain ⟨_, hsorted, hlt, hfiles, hbytes⟩ := h
  obtain ⟨hi, ps, hscan, hmem, hps, hle, hub, hatt⟩ :=
    scan_files_canonical branch_id to_version _ st.checkpoint_version [] hcanon
  have hsel_sorted : (selected_commits to_version st.commits).Pairwise (fun c d => c.1 < d.1) :=
    hsorted.sublist (List.filter_sublist _)
  have hsel_lt : ∀ c ∈ selected_commits to_version st.commits, c.1 < 2 ^ 63 :=
    fun c hc => hlt c (List.mem_filter.1 hc).1
  have hps_eq : ps = (selected_commits to_version st.commits).map
      (fun c => commit_path branch_id c.1) := by
    apply sorted_ext _ _ (hps List.Pairwise.nil)
      (selected_paths_sorted branch_id _ hsel_sorted hsel_lt)
    intro q
    rw [hmem, List.mem_map]
    constructor
    · rintro (h1 | ⟨v, hv, rfl, hq, hw⟩)
      · simp at h1
      · have hcf : commit_path branch_id v ∈ commit_files s branch_id := by
          simp only [commit_files, List.mem_filter]
          exact ⟨hq, is_commit_name_commit_path branch_id v⟩
        obtain ⟨c, hc, e⟩ := (hfiles _).1 hcf
        have hv' := (commit_path_inj _ _ _ _ (lt_trans hv (by norm_num))
          (lt_trans (hlt c hc) (by norm_num)) e).2
        refine ⟨c, ?_, e.symm⟩
        simp only [selected_commits, List.mem_filter]
        exact ⟨hc, hv' ▸ hw⟩
    · rintro ⟨c, hc, rfl⟩
      simp only [selected_commits, List.mem_filter] at hc
      have hcf := (hfiles (commit_path branch_id c.1)).2 ⟨c, hc.1, rfl⟩
      simp only [commit_files, List.mem_filter] at hcf
      exact Or.inr ⟨c.1, hlt c hc.1, rfl, hcf.1, hc.2⟩
  have hhi : hi = max_version st.checkpoint_version (selected_commits to_version st.commits) := by
    obtain ⟨m1, m2, m3⟩ := max_version_spec st.checkpoint_version
      (selected_commits to_version st.commits)
    apply le_antisymm
    · rcases hatt with e | ⟨v, hv, hq, hw, e⟩
      · rw [e]; exact m1
      · have hcf : commit_path branch_id v ∈ commit_files s branch_id := by
          simp only [commit_files, List.mem_filter]
          exact ⟨hq, is_commit_name_commit_path branch_id v⟩
        obtain ⟨c, hc, e2⟩ := (hfiles _).1 hcf
        have hv' := (commit_path_inj _ _ _ _ (lt_trans hv (by norm_num))
          (lt_trans (hlt c hc) (by norm_num)) e2).2
        have hcs : c ∈ selected_commits to_version st.commits := by
          simp only [selected_commits, List.mem_filter]
          exact ⟨hc, hv' ▸ hw⟩
        rw [e, hv']
        exact m2 c hcs
    · rcases m3 with e | ⟨c, hc, e⟩
      · rw [e]; exact hle
      · rw [e]
        simp only [selected_commits, List.mem_filter] at hc
        have hcf := (hfiles (commit_path branch_id c.1)).2 ⟨c, hc.1, rfl⟩
        simp only [commit_files, List.mem_filter] at hcf
        exact hub c.1 (hlt c hc.1) hcf.1 hc.2
  have hparse := parse_files_commits s branch_id (selected_commits to_version st.commits)
    (fun c hc => hbytes c (List.mem_filter.1 hc).1)
  unfold action_data
  rw [hload]
  simp only [listed_eq, hscan, hps_eq, hparse, hhi, branch_state.table,
    branch_state.checkpoint_rows]
  cases st.checkpoint with
  | none => simp
  | some kt => simp

/-! ## A commit leaves the checkpoint of its branch alone -/

theorem commit_target_eq (branch_id : String) (v : Nat) :
    "/_deeplake_log/" ++ branch_id ++ "/" ++ zero_pad v ++ ".json" = commit_path branch_id v := rfl

theorem commit_eq (s : storage) (branch_id : String) (base_version : Nat) (actions : List action)
    (h : base_version + 1 < 2 ^ 64) :
    commit s branch_id base_version actions =
      s.set_bytes (commit_path branch_id (base_version + 1))
        (.json_objects (commit_buffer actions) actions) := by
  unfold commit
  simp only [Nat.mod_eq_of_lt h]
  rfl

theorem ends_with_pointer_last_checkpoint_path (branch_id : String) :
    ends_with (last_checkpoint_path branch_id) "_last_checkpoint.json" = true := by
  simp only [ends_with, last_checkpoint_path, List.isSuffixOf_iff_suffix, String.data_append]
  exact ⟨"/_deeplake_log/".data ++ branch_id.data ++ ['/'], by simp⟩

theorem commit_path_ne_pointer (b1 b2 : String) (v : Nat) :
    commit_path b1 v ≠ last_checkpoint_path b2 := by
  intro h
  have h1 := not_ends_with_pointer_commit_path b1 v
  rw [h, ends_with_pointer_last_checkpoint_path] at h1
  exact Bool.noConfusion h1

theorem not_ends_with_json_checkpoint_path (branch_id : String) (k : Nat) :
    ends_with (checkpoint_path branch_id k) ".json" = false := by
  rw [Bool.eq_false_iff]
  intro h
  simp only [ends_with, checkpoint_path, List.isSuffixOf_iff_suffix, String.data_append] at h
  obtain ⟨t, ht⟩ := h
  have h4 : (t ++ ['.', 'j', 's', 'o']) ++ ['n'] =
      (['/', '_', 'd', 'e', 'e', 'p', 'l', 'a', 'k', 'e', '_', 'l', 'o', 'g', '/'] ++ branch_id.data ++
        ['/'] ++ (zero_pad k).data ++ ['.', 'c', 'h', 'e', 'c', 'k', 'p', 'o', 'i', 'n', 't', '.',
          'p', 'a', 'r', 'q', 'u', 'e']) ++ ['t'] := by
    simpa using ht
  exact absurd (snoc_inj_right h4) (by decide)

theorem commit_path_ne_checkpoint_path (b1 b2 : String) (v k : Nat) :
    commit_path b1 v ≠ checkpoint_path b2 k := by
  intro h
  have h1 := ends_with_json_commit_path b1 v
  rw [h, not_ends_with_json_checkpoint_path] at h1
  exact Bool.noConfusion h1

theorem zero_pad_cons (v : Nat) :
    ∃ d rest, d < 10 ∧ (zero_pad v).data = digit_char d :: rest := by
  have hl := zero_pad_length v
  cases hz : (zero_pad v).data with
  | nil => rw [hz] at hl; simp at hl
  | cons c rest =>
    obtain ⟨d, hd, hc⟩ := zero_pad_digits v c (by rw [hz]; exact List.mem_cons_self _ _)
    exact ⟨d, rest, hd, by rw [hc]⟩

theorem digit_char_ne_underscore : ∀ d, d < 10 → digit_char d ≠ '_' := by decide

theorem pointer_not_dir_of_commit_path (branch_id : String) (v : Nat) :
    ((last_checkpoint_path branch_id).data ++ ['/']).isPrefixOf (commit_path branch_id v).data =
      false := by
  rw [Bool.eq_false_iff]
  intro h
  rw [List.isPrefixOf_iff_prefix] at h
  obtain ⟨d, rest, hd, hz⟩ := zero_pad_cons v
  have e1 : (last_checkpoint_path branch_id).data ++ ['/'] =
      ("/_deeplake_log/" ++ branch_id ++ "/").data ++
        ('_' :: ("last_checkpoint.json".data ++ ['/'])) := by
    simp [last_checkpoint_path, String.data_append]
  rw [e1, commit_path_data, List.prefix_append_right_inj, hz] at h
  obtain ⟨t, ht⟩ := h
  simp only [List.cons_append, List.cons.injEq] at ht
  exact digit_char_ne_underscore d hd ht.1.symm

theorem load_checkpoint_set_commit (s : storage) (branch_id : String) (v : Nat) (b : bytes) :
    load_checkpoint (s.set_bytes (commit_path branch_id v) b) branch_id =
      load_checkpoint s branch_id := by
  have hex : (s.set_bytes (commit_path branch_id v) b).file_exists
      (last_checkpoint_path branch_id) = s.file_exists (last_checkpoint_path branch_id) := by
    rw [Bool.eq_iff_iff, file_exists_set_bytes]
    constructor
    · rintro (h | h | h)
      · exact h
      · exact absurd h (commit_path_ne_pointer _ _ _)
      · rw [pointer_not_dir_of_commit_path] at h
        exact Bool.noConfusion h
    · exact Or.inl
  unfold load_checkpoint
  rw [hex, get_bytes_set_bytes_ne _ _ _ _ (commit_path_ne_pointer _ _ _).symm]
  split
  · split
    · rename_i version _ _
      have hp : "/_deeplake_log/" ++ branch_id ++ "/" ++ zero_pad (version % 2 ^ 64) ++
          ".checkpoint.parquet" = checkpoint_path branch_id (version % 2 ^ 64) := rfl
      simp only [read_checkpoint, hp,
        get_bytes_set_bytes_ne _ _ _ _ (commit_path_ne_checkpoint_path _ _ _ _).symm]
    · rfl
    · rfl
  · rfl

theorem mem_list_files_set_bytes (s : storage) (p dir q : String) (b : bytes) :
    q ∈ (s.set_bytes p b).list_files dir ↔
      q ∈ s.list_files dir ∨ (q = p ∧ is_child dir p = true) := by
  simp only [mem_list_files, mem_paths_set_bytes]
  constructor
  · rintro ⟨h1 | h1, h2⟩
    · exact Or.inl ⟨h1, h2⟩
    · subst h1; exact Or.inr ⟨rfl, h2⟩
  · rintro (⟨h1, h2⟩ | ⟨h1, h2⟩)
    · exact ⟨Or.inl h1, h2⟩
    · subst h1; exact ⟨Or.inr rfl, h2⟩

theorem mem_commit_files (s : storage) (branch_id p : String) :
    p ∈ commit_files s branch_id ↔
      p ∈ s.paths ∧ is_child ("/_deeplake_log/" ++ branch_id) p = true ∧
        is_commit_name p = true := by
  simp only [commit_files, List.mem_filter, mem_list_files, and_assoc]

theorem mem_commit_files_commit (s : storage) (b1 b2 : String) (v : Nat) (b : bytes) (q : String) :
    q ∈ commit_files (s.set_bytes (commit_path b1 v) b) b2 ↔
      q ∈ commit_files s b2 ∨ (q = commit_path b1 v ∧ b1 = b2) := by
  simp only [mem_commit_files, mem_paths_set_bytes]
  constructor
  · rintro ⟨h1 | h1, h2, h3⟩
    · exact Or.inl ⟨h1, h2, h3⟩
    · subst h1
      exact Or.inr ⟨rfl, branch_dir_inj _ _
        (is_child_unique _ _ _ (is_child_commit_path b1 v) h2)⟩
  · rintro (⟨h1, h2, h3⟩ | ⟨h1, h2⟩)
    · exact ⟨Or.inl h1, h2, h3⟩
    · subst h1 h2
      exact ⟨Or.inr rfl, is_child_commit_path _ _, is_commit_name_commit_path _ _⟩

/-! ## A commit above every version of its branch -/

theorem represents_commit (s : storage) (branch_id : String) (st : branch_state)
    (base_version : Nat) (actions : List action) (h : represents s branch_id st)
    (htip : ∀ c ∈ st.commits, c.1 ≤ base_version) (hv : base_version + 1 < 2 ^ 63) :
    represents (commit s branch_id base_version actions) branch_id
      { checkpoint := st.checkpoint,
        commits := st.commits ++ [(base_version + 1, actions)] } := by
  rw [commit_eq _ _ _ _ (lt_trans hv (by norm_num))]
  obtain ⟨hck, hsorted, hlt, hfiles, hbytes⟩ := h
  refine ⟨?_, ?_, ?_, ?_, ?_⟩
  · cases hst : st.checkpoint with
    | none =>
      rw [hst] at hck
      simp only at hck ⊢
      rw [Bool.eq_false_iff] at hck ⊢
      intro hex
      rcases (file_exists_set_bytes _ _ _ _).1 hex with h1 | h1 | h1
      · exact hck h1
      · exact commit_path_ne_pointer _ _ _ h1
      · rw [pointer_not_dir_of_commit_path] at h1
        exact Bool.noConfusion h1
    | some kt =>
      obtain ⟨k, table⟩ := kt
      rw [hst] at hck
      simp only at hck ⊢
      rw [get_bytes_set_bytes_ne _ _ _ _ (commit_path_ne_pointer _ _ _).symm,
        get_bytes_set_bytes_ne _ _ _ _ (commit_path_ne_checkpoint_path _ _ _ _).symm]
      exact hck
  · simp only
    rw [List.pairwise_append]
    refine ⟨hsorted, List.pairwise_singleton _ _, ?_⟩
    intro c hc d hd
    simp only [List.mem_singleton] at hd
    subst hd
    exact Nat.lt_succ_of_le (htip c hc)
  · intro c hc
    simp only [List.mem_append, List.mem_singleton] at hc
    rcases hc with hc | hc
    · exact hlt c hc
    · subst hc; exact hv
  · intro p
    rw [mem_commit_files_commit, hfiles]
    simp only [List.mem_append, List.mem_singleton]
    constructor
    · rintro (⟨c, hc, e⟩ | ⟨e, _⟩)
      · exact ⟨c, Or.inl hc, e⟩
      · exact ⟨(base_version + 1, actions), Or.inr rfl, e⟩
    · rintro ⟨c, hc | hc, e⟩
      · exact Or.inl ⟨c, hc, e⟩
      · subst hc; exact Or.inr ⟨e, trivial⟩
  · intro c hc
    simp only [List.mem_append, List.mem_singleton] at hc
    rcases hc with hc | hc
    · have hne : commit_path branch_id c.1 ≠ commit_path branch_id (base_version + 1) := by
        intro e
        have := (commit_path_inj _ _ _ _ (lt_trans (hlt c hc) (by norm_num))
          (lt_trans hv (by norm_num)) e).2
        have := htip c hc
        omega
      rw [get_bytes_set_bytes_ne _ _ _ _ hne]
      exact hbytes c hc
    · subst hc
      exact ⟨_, get_bytes_set_bytes_same _ _ _⟩

theorem represents_empty (branch_id : String) :
    represents storage.empty branch_id { checkpoint := none, commits := [] } := by
  refine ⟨rfl, List.Pairwise.nil, by simp, ?_, by simp⟩
  intro p
  simp [commit_files, storage.list_files, storage.empty]

/-! ## Versions as `unsigned long` and `long` -/

theorem to_long_of_lt (v : Nat) (h : v < 2 ^ 63) : to_long v = (v : Int) := by
  unfold to_long
  rw [if_pos h]

theorem to_long_of_ge (v : Nat) (h : 2 ^ 63 ≤ v) : to_long v = (v : Int) - 2 ^ 64 := by
  unfold to_long
  rw [if_neg (by omega)]

theorem to_unsigned_lt (v : Int) : to_unsigned v < 2 ^ 64 := by
  unfold to_unsigned
  have h1 : 0 ≤ v % 2 ^ 64 := Int.emod_nonneg _ (by norm_num)
  have h2 : v % 2 ^ 64 < 2 ^ 64 := Int.emod_lt_of_pos _ (by norm_num)
  omega

theorem to_unsigned_to_long (v : Nat) (h : v < 2 ^ 64) : to_unsigned (to_long v) = v := by
  unfold to_long
  split
  · exact to_unsigned_natCast v h
  · unfold to_unsigned
    have e : ((v : Int) - 2 ^ 64) % 2 ^ 64 = (v : Int) := by
      rw [Int.sub_emod, Int.emod_self, sub_zero, Int.emod_emod]
      apply Int.emod_eq_of_lt <;> omega
    rw [e]; simp

theorem load_checkpoint_lt (s : storage) (branch_id : String) (tables : List Table) (k : Nat)
    (h : load_checkpoint s branch_id = .ok (tables, k)) : k < 2 ^ 64 := by
  unfold load_checkpoint at h
  split at h
  · split at h
    · simp only at h
      split at h
      · simp at h
      · simp only [Except.ok.injEq, Prod.mk.injEq] at h
        rw [← h.2]
        exact Nat.mod_lt _ (by norm_num)
    · simp at h
    · simp at h
  · simp only [Except.ok.injEq, Prod.mk.injEq] at h
    rw [← h.2]
    norm_num

theorem scan_file_lt (to_version next_from : Option Nat) (state state1 : Nat × List String)
    (p : String) (hs : state.1 < 2 ^ 64)
    (h : scan_file to_version next_from state p = .ok state1) : state1.1 < 2 ^ 64 := by
  unfold scan_file at h
  split at h
  · split at h
    · simp at h
    · rename_i found_version _
      simp only at h
      split at h
      · simp only [Except.ok.injEq] at h
        rw [← h]; exact hs
      · simp only [Except.ok.injEq] at h
        rw [← h]
        simp only
        split
        · exact to_unsigned_lt _
        · exact hs
  · simp only [Except.ok.injEq] at h
    rw [← h]; exact hs

theorem scan_files_lt (to_version next_from : Option Nat) :
    ∀ (l : List String) (state state1 : Nat × List String), state.1 < 2 ^ 64 →
      scan_files to_version next_from state l = .ok state1 → state1.1 < 2 ^ 64 := by
  intro l
  induction l with
  | nil =>
    intro state state1 hs h
    simp only [scan_files, Except.ok.injEq] at h
    rw [← h]; exact hs
  | cons p rest ih =>
    intro state state1 hs h
    simp only [scan_files] at h
    cases hp : scan_file to_version next_from state p with
    | error e => rw [hp] at h; simp at h
    | ok state2 =>
      rw [hp] at h
      exact ih state2 state1 (scan_file_lt _ _ _ _ _ hs hp) h

/-! ## The decoding loop -/

theorem cells_action_row (a : action) : (action_row a).cells = [cell.action a] := by
  cases a <;> rfl

theorem cells_version_row (v : Nat) : (version_row v).cells = [cell.version v] := rfl

theorem foldl_apply_cell_fst (cast : action → Option replace_action) (cells : List cell)
    (state : List action × Nat) :
    (cells.foldl (apply_cell cast) state).1 =
      fold_actions cast state.1 (cells.filterMap cell.action_of) := by
  induction cells generalizing state with
  | nil => rfl
  | cons c rest ih =>
    cases c with
    | action a =>
      simp only [List.foldl_cons, List.filterMap_cons, cell.action_of, fold_actions]
      exact ih _
    | version v =>
      simp only [List.foldl_cons, List.filterMap_cons, cell.action_of]
      exact ih _

theorem decode_table_fst (cast : action → Option replace_action) (table : Table) :
    (decode_table cast table).1 = fold_actions cast [] (table_actions table) :=
  foldl_apply_cell_fst cast _ _

theorem decode_table_version_row (cast : action → Option replace_action) (table : Table)
    (v : Nat) :
    decode_table cast (table ++ [version_row v]) = ((decode_table cast table).1, v) := by
  simp only [decode_table, List.flatMap_append, List.foldl_append, List.flatMap_cons,
    List.flatMap_nil, List.append_nil, cells_version_row, List.foldl_cons, List.foldl_nil,
    apply_cell]

theorem table_actions_append (t1 t2 : Table) :
    table_actions (t1 ++ t2) = table_actions t1 ++ table_actions t2 := by
  simp [table_actions, List.flatMap_append, List.filterMap_append]

theorem table_actions_action_rows (actions : List action) :
    table_actions (actions.map action_row) = actions := by
  induction actions with
  | nil => rfl
  | cons a rest ih =>
    have : table_actions (List.map action_row (a :: rest)) =
        table_actions [action_row a] ++ table_actions (rest.map action_row) := by
      rw [← table_actions_append]; rfl
    rw [this, ih]
    simp [table_actions, cells_action_row, cell.action_of]

theorem table_actions_commit_rows (cs : List (Nat × List action)) :
    table_actions (commit_rows cs) = cs.flatMap (fun c => c.2) := by
  induction cs with
  | nil => rfl
  | cons c rest ih =>
    have : commit_rows (c :: rest) = c.2.map action_row ++ commit_rows rest := by
      simp [commit_rows]
    rw [this, table_actions_append, ih, table_actions_action_rows]
    simp

theorem table_actions_version_row (v : Nat) : table_actions [version_row v] = [] := rfl

theorem fold_actions_append (cast : action → Option replace_action) (start a b : List action) :
    fold_actions cast start (a ++ b) = fold_actions cast (fold_actions cast start a) b := by
  simp [fold_actions, List.foldl_append]

/-- The action list and version `get_actions` returns for a branch in a known state. -/
theorem get_actions_represents (s : storage) (branch_id : String) (st : branch_state)
    (to_version : Option Nat) (h : represents s branch_id st) :
    get_actions s branch_id to_version = .ok
      (fold_actions as_replace_action []
        (table_actions st.checkpoint_rows ++
          (selected_commits to_version st.commits).flatMap (fun c => c.2)),
       to_long (max_version st.checkpoint_version (selected_commits to_version st.commits))) := by
  unfold get_actions
  rw [action_data_represents s branch_id st to_version h]
  simp only [branch_state.table, decode_table_version_row, decode_table_fst, table_actions_append,
    table_actions_commit_rows]

theorem selected_commits_none (cs : List (Nat × List action)) : selected_commits none cs = cs := by
  simp [selected_commits, within_bound]

theorem checkpoint_version_lt (s : storage) (branch_id : String) (st : branch_state)
    (h : represents s branch_id st) : st.checkpoint_version < 2 ^ 64 := by
  obtain ⟨hck, _⟩ := h
  unfold branch_state.checkpoint_version
  cases hst : st.checkpoint with
  | none => norm_num
  | some kt =>
    obtain ⟨k, table⟩ := kt
    rw [hst] at hck
    exact hck.1

theorem max_version_lt (start bound : Nat) (cs : List (Nat × List action))
    (hs : start < bound) (hc : ∀ c ∈ cs, c.1 < bound) : max_version start cs < bound := by
  rcases (max_version_spec start cs).2.2 with e | ⟨c, hmem, e⟩
  · rw [e]; exact hs
  · rw [e]; exact hc c hmem

theorem max_version_represents_lt (s : storage) (branch_id : String) (st : branch_state)
    (h : represents s branch_id st) (cs : List (Nat × List action))
    (hcs : ∀ c ∈ cs, c ∈ st.commits) :
    max_version st.checkpoint_version cs < 2 ^ 64 :=
  max_version_lt _ _ _ (checkpoint_version_lt s branch_id st h)
    (fun c hc => lt_trans (h.2.2.1 c (hcs c hc)) (by norm_num))

theorem version_represents (s : storage) (branch_id : String) (st : branch_state)
    (h : represents s branch_id st) :
    version s branch_id = .ok (max_version st.checkpoint_version st.commits) := by
  unfold version
  rw [get_actions_represents s branch_id st none h, selected_commits_none]
  simp only
  rw [to_unsigned_to_long _ (max_version_represents_lt s branch_id st h _ (fun _ hc => hc))]

/-! ## Replace actions of the model -/

theorem apply_action_nil (cast : action → Option replace_action) (x : action) :
    apply_action cast [] x = [x] := by
  unfold apply_action
  cases cast x <;> simp

theorem apply_action_append_only (cast : action → Option replace_action) (l : List action)
    (x : action) (h : cast x = none) : apply_action cast l x = l ++ [x] := by
  unfold apply_action
  rw [h]

theorem apply_action_cons (cast : action → Option replace_action) (a : action)
    (l : List action) (x : action) (r : replace_action) (y : action) (hx : cast x = some r)
    (hy : ∀ b, r.replace b = some y) :
    apply_action cast (a :: l) x =
      if r.replaces a = true then y :: l else a :: apply_action cast l x := by
  unfold apply_action
  rw [hx]
  simp only [List.findIdx?_cons]
  by_cases ha : r.replaces a = true
  · simp [ha, hy]
  · simp only [ha, Bool.false_eq_true, if_false, zero_add, List.findIdx?_succ]
    cases hf : List.findIdx? r.replaces l with
    | none => simp
    | some i =>
      simp only [Option.map_some', List.get?_cons_succ]
      cases hg : l.get? i with
      | none => simp
      | some m => simp [hy]

/-! ## Metadata in the replace steps -/

theorem apply_metadata_cons (a : action) (l : List action) (m : metadata_action) :
    apply_action as_replace_action (a :: l) (.metadata m) =
      if a.is_metadata = true then .metadata m :: l
      else a :: apply_action as_replace_action l (.metadata m) := by
  rw [apply_action_cons as_replace_action a l (.metadata m) _ (.metadata m) rfl (fun _ => rfl)]
  cases a <;> rfl

theorem apply_protocol_cons (a : action) (l : List action) (p : protocol_action) :
    apply_action as_replace_action (a :: l) (.protocol p) =
      if a.protocol_of.isSome = true then .protocol p :: l
      else a :: apply_action as_replace_action l (.protocol p) := by
  rw [apply_action_cons as_replace_action a l (.protocol p) _ (.protocol p) rfl (fun _ => rfl)]
  cases a <;> rfl

theorem metas_cons (a : action) (l : List action) :
    metas (a :: l) = (match a.metadata_of with
                      | some m => m :: metas l
                      | none => metas l) := by
  simp only [metas, List.filterMap_cons]
  cases a.metadata_of <;> rfl

theorem metas_apply_metadata (l : List action) (m : metadata_action)
    (h : (metas l).length ≤ 1) :
    metas (apply_action as_replace_action l (.metadata m)) = [m] := by
  induction l with
  | nil => rw [apply_action_nil]; rfl
  | cons a rest ih =>
    rw [apply_metadata_cons]
    cases a with
    | metadata m0 =>
      have h0 : metas rest = [] := by
        rw [metas_cons] at h
        simp only [action.metadata_of, List.length_cons] at h
        exact List.length_eq_zero.1 (by omega)
      simp [action.is_metadata, action.metadata_of, metas_cons, h0]
    | protocol p =>
      simpa [action.is_metadata, action.metadata_of, metas_cons] using ih (by simpa [metas_cons, action.metadata_of] using h)
    | add p =>
      simpa [action.is_metadata, action.metadata_of, metas_cons] using ih (by simpa [metas_cons, action.metadata_of] using h)
    | branch p =>
      simpa [action.is_metadata, action.metadata_of, metas_cons] using ih (by simpa [metas_cons, action.metadata_of] using h)
    | tensor p =>
      simpa [action.is_metadata, action.metadata_of, metas_cons] using ih (by simpa [metas_cons, action.metadata_of] using h)

theorem metas_apply_protocol (l : List action) (p : protocol_action) :
    metas (apply_action as_replace_action l (.protocol p)) = metas l := by
  induction l with
  | nil => rw [apply_action_nil]; rfl
  | cons a rest ih =>
    rw [apply_protocol_cons]
    cases a <;> simp [action.protocol_of, action.metadata_of, metas_cons, ih]

theorem metas_append (a b : List action) : metas (a ++ b) = metas a ++ metas b := by
  simp [metas, List.filterMap_append]

theorem metas_apply_other (l : List action) (x : action) (h : x.metadata_of = none) :
    metas (apply_action as_replace_action l x) = metas l := by
  cases x with
  | metadata m => simp [action.metadata_of] at h
  | protocol p => exact metas_apply_protocol l p
  | add p => rw [apply_action_append_only _ _ _ rfl, metas_append]; simp [metas, action.metadata_of]
  | branch p => rw [apply_action_append_only _ _ _ rfl, metas_append]; simp [metas, action.metadata_of]
  | tensor p => rw [apply_action_append_only _ _ _ rfl, metas_append]; simp [metas, action.metadata_of]

theorem metas_apply_length (l : List action) (x : action) (h : (metas l).length ≤ 1) :
    (metas (apply_action as_replace_action l x)).length ≤ 1 := by
  cases hx : x.metadata_of with
  | none => rw [metas_apply_other l x hx]; exact h
  | some m =>
    cases x with
    | metadata m' => rw [metas_apply_metadata l m' h]; simp
    | protocol p => simp [action.metadata_of] at hx
    | add p => simp [action.metadata_of] at hx
    | branch p => simp [action.metadata_of] at hx
    | tensor p => simp [action.metadata_of] at hx

theorem metas_fold_length (l : List action) (actions : List action) (h : (metas l).length ≤ 1) :
    (metas (fold_actions as_replace_action l actions)).length ≤ 1 := by
  induction actions generalizing l with
  | nil => exact h
  | cons x rest ih => exact ih _ (metas_apply_length l x h)

theorem metas_fold_none (l : List action) (actions : List action) (h : metas actions = []) :
    metas (fold_actions as_replace_action l actions) = metas l := by
  induction actions generalizing l with
  | nil => rfl
  | cons x rest ih =>
    rw [metas_cons] at h
    cases hx : x.metadata_of with
    | none =>
      rw [hx] at h
      have := ih (apply_action as_replace_action l x) h
      simp only [fold_actions, List.foldl_cons] at this ⊢
      rw [this, metas_apply_other l x hx]
    | some m => rw [hx] at h; simp at h

/-- After the replace steps over a list of actions whose last metadata action is `m`,
the list holds `m` as its only metadata action. -/
theorem metas_fold_last (l pre post : List action) (m : metadata_action)
    (h : (metas l).length ≤ 1) (hpost : metas post = []) :
    metas (fold_actions as_replace_action l (pre ++ [.metadata m] ++ post)) = [m] := by
  rw [fold_actions_append, fold_actions_append, metas_fold_none _ _ hpost]
  exact metas_apply_metadata _ m (metas_fold_length l pre h)

theorem scan_files_append (to_version next_from : Option Nat) (l1 l2 : List String)
    (state : Nat × List String) :
    scan_files to_version next_from state (l1 ++ l2) =
      (match scan_files to_version next_from state l1 with
       | .error e => .error e
       | .ok state1 => scan_files to_version next_from state1 l2) := by
  induction l1 generalizing state with
  | nil => rfl
  | cons p rest ih =>
    simp only [List.cons_append, scan_files]
    cases scan_file to_version next_from state p with
    | error e => rfl
    | ok state1 => exact ih state1

theorem scan_file_none_ok (next_from : Option Nat) (state state1 : Nat × List String)
    (path : String) (h : scan_file none next_from state path = .ok state1) :
    state.1 ≤ state1.1 ∧
      (is_commit_name path = true →
        ∃ fv, file_version path = .ok fv ∧ to_unsigned fv ≤ state1.1) := by
  unfold scan_file at h
  by_cases hn : is_commit_name path = true
  · have hn' := hn
    unfold is_commit_name at hn'
    rw [hn', if_pos rfl] at h
    cases hf : file_version path with
    | error e => rw [hf] at h; simp at h
    | ok fv =>
      rw [hf] at h
      simp only [Option.any_none, Bool.false_eq_true, if_false, Except.ok.injEq] at h
      subst h
      refine ⟨?_, fun _ => ⟨fv, rfl, ?_⟩⟩
      · simp only; split <;> omega
      · simp only; split <;> omega
  · have hn' : is_commit_name path = false := by simpa using hn
    unfold is_commit_name at hn'
    rw [hn'] at h
    simp only [Bool.false_eq_true, if_false, Except.ok.injEq] at h
    subst h
    exact ⟨le_refl _, fun h => absurd h hn⟩

theorem scan_files_none_bounds (next_from : Option Nat) :
    ∀ (l : List String) (state state1 : Nat × List String),
    scan_files none next_from state l = .ok state1 →
    state.1 ≤ state1.1 ∧
      ∀ p ∈ l, is_commit_name p = true →
        ∃ fv, file_version p = .ok fv ∧ to_unsigned fv ≤ state1.1 := by
  intro l
  induction l with
  | nil =>
    intro state state1 h
    simp only [scan_files, Except.ok.injEq] at h
    subst h
    exact ⟨le_refl _, by simp⟩
  | cons p rest ih =>
    intro state state1 h
    simp only [scan_files] at h
    cases hs : scan_file none next_from state p with
    | error e => rw [hs] at h; simp at h
    | ok state2 =>
      rw [hs] at h
      simp only at h
      obtain ⟨h1, h2⟩ := scan_file_none_ok next_from state state2 p hs
      obtain ⟨h3, h4⟩ := ih state2 state1 h
      refine ⟨le_trans h1 h3, ?_⟩
      intro q hq hn
      rcases List.mem_cons.1 hq with e | e
      · subst e
        obtain ⟨fv, hf, hle⟩ := h2 hn
        exact ⟨fv, hf, le_trans hle h3⟩
      · exact h4 q e hn

theorem scan_file_paths (to_version : Option Nat) (state state1 : Nat × List String)
    (path : String) (h : scan_file to_version (some 0) state path = .ok state1) :
    ∀ q, q ∈ state1.2 → q ∈ state.2 ∨ q = path := by
  unfold scan_file at h
  intro q hq
  by_cases hn : (ends_with path ".json" && !ends_with path "_last_checkpoint.json") = true
  · rw [if_pos hn] at h
    cases hf : file_version path with
    | error e => rw [hf] at h; simp at h
    | ok fv =>
      rw [hf] at h
      simp only at h
      by_cases ha : Option.any (fun t => decide (t < to_unsigned fv)) to_version = true
      · rw [if_pos ha] at h
        simp only [Except.ok.injEq] at h
        subst h; exact Or.inl hq
      · rw [if_neg ha] at h
        simp only [Except.ok.injEq] at h
        subst h
        simp only [Option.all_some, Nat.zero_le, decide_True, if_true] at hq
        rcases (set_insert_mem _ _ _).1 hq with e | e
        · exact Or.inr e
        · exact Or.inl e
  · rw [if_neg hn] at h
    simp only [Except.ok.injEq] at h
    subst h; exact Or.inl hq

theorem scan_files_paths (to_version : Option Nat) :
    ∀ (l : List String) (state state1 : Nat × List String),
    scan_files to_version (some 0) state l = .ok state1 →
    ∀ q, q ∈ state1.2 → q ∈ state.2 ∨ q ∈ l := by
  intro l
  induction l with
  | nil =>
    intro state state1 h q hq
    simp only [scan_files, Except.ok.injEq] at h
    subst h; exact Or.inl hq
  | cons p rest ih =>
    intro state state1 h q hq
    simp only [scan_files] at h
    cases hs : scan_file to_version (some 0) state p with
    | error e => rw [hs] at h; simp at h
    | ok state2 =>
      rw [hs] at h
      simp only at h
      rcases ih state2 state1 h q hq with h1 | h1
      · rcases scan_file_paths to_version state state2 p hs q h1 with h2 | h2
        · exact Or.inl h2
        · exact Or.inr (h2 ▸ List.mem_cons_self _ _)
      · exact Or.inr (List.mem_cons_of_mem _ h1)

theorem parse_files_ok_iff (s : storage) (l : List String) :
    (∃ rows, parse_files s l = .ok rows) ↔
      ∀ p ∈ l, ∃ text objs, s.get_bytes p = some (.json_objects text objs) := by
  induction l with
  | nil => simp [parse_files]
  | cons p rest ih =>
    simp only [parse_files, List.mem_cons, forall_eq_or_imp]
    rw [← ih]
    cases hg : s.get_bytes p with
    | none => simp
    | some b =>
      cases b with
      | json_objects text objs =>
        simp only [Option.some.injEq, bytes.json_objects.injEq, exists_and_left, exists_eq',
          and_self, true_and]
        cases parse_files s rest with
        | error e => simp
        | ok rows => simp
      | last_checkpoint v z => simp
      | parquet t => simp
      | raw t => simp

theorem action_data_ok (s : storage) (branch_id : String) (to_version : Option Nat)
    (table : Table) (h : action_data s branch_id 0 to_version = .ok table) :
    ∃ tables k highest paths rows,
      load_checkpoint s branch_id = .ok (tables, k) ∧
      scan_files to_version (some 0) (k, []) (s.list_files ("/_deeplake_log/" ++ branch_id)) =
        .ok (highest, paths) ∧
      parse_files s paths = .ok rows ∧
      table = tables.flatten ++ rows ++ [version_row highest] := by
  unfold action_data at h
  simp only [listed_eq] at h
  cases hl : load_checkpoint s branch_id with
  | error e => rw [hl] at h; simp at h
  | ok tk =>
    obtain ⟨tables, k⟩ := tk
    rw [hl] at h
    simp only at h
    cases hs : scan_files to_version (some 0) (k, [])
        (s.list_files ("/_deeplake_log/" ++ branch_id)) with
    | error e => rw [hs] at h; simp at h
    | ok hp =>
      obtain ⟨highest, paths⟩ := hp
      rw [hs] at h
      simp only at h
      cases hq : parse_files s paths with
      | error e => rw [hq] at h; simp at h
      | ok rows =>
        rw [hq] at h
        simp only [Except.ok.injEq] at h
        exact ⟨tables, k, highest, paths, rows, rfl, hs, hq, by rw [← h]; simp⟩

theorem action_data_of_parts (s : storage) (branch_id : String) (to_version : Option Nat)
    (tables : List Table) (k highest : Nat) (paths : List String) (rows : Table)
    (h1 : load_checkpoint s branch_id = .ok (tables, k))
    (h2 : scan_files to_version (some 0) (k, []) (s.list_files ("/_deeplake_log/" ++ branch_id)) =
      .ok (highest, paths))
    (h3 : parse_files s paths = .ok rows) :
    action_data s branch_id 0 to_version =
      .ok (tables.flatten ++ rows ++ [version_row highest]) := by
  unfold action_data
  simp only [listed_eq, h1, h2, h3]
  simp

theorem version_ok (s : storage) (branch_id : String) (tip : Nat)
    (h : version s branch_id = .ok tip) :
    ∃ tables k paths rows,
      load_checkpoint s branch_id = .ok (tables, k) ∧
      scan_files none (some 0) (k, []) (s.list_files ("/_deeplake_log/" ++ branch_id)) =
        .ok (tip, paths) ∧
      parse_files s paths = .ok rows := by
  unfold version get_actions at h
  cases ha : action_data s branch_id 0 none with
  | error e =>
    rw [ha] at h
    cases e <;> simp at h
  | ok table =>
    rw [ha] at h
    obtain ⟨tables, k, highest, paths, rows, h1, h2, h3, h4⟩ :=
      action_data_ok s branch_id none table ha
    simp only [Except.ok.injEq] at h
    rw [h4, decode_table_version_row] at h
    simp only at h
    rw [to_unsigned_to_long _
      (scan_files_lt _ _ _ _ _ (load_checkpoint_lt s branch_id tables k h1) h2)] at h
    subst h
    exact ⟨tables, k, paths, rows, h1, h2, h3⟩

theorem version_of_parts (s : storage) (branch_id : String)
    (tables : List Table) (k highest : Nat) (paths : List String) (rows : Table)
    (h1 : load_checkpoint s branch_id = .ok (tables, k))
    (h2 : scan_files none (some 0) (k, []) (s.list_files ("/_deeplake_log/" ++ branch_id)) =
      .ok (highest, paths))
    (h3 : parse_files s paths = .ok rows) :
    version s branch_id = .ok highest := by
  unfold version get_actions
  rw [action_data_of_parts s branch_id none tables k highest paths rows h1 h2 h3]
  simp only [decode_table_version_row]
  rw [to_unsigned_to_long _
    (scan_files_lt _ _ _ _ _ (load_checkpoint_lt s branch_id tables k h1) h2)]

/-! ## Storages that hold only commit files -/

theorem stol_digits_out_of_range (ds : List Char) (hne : ds ≠ []) (hd : ∀ c ∈ ds, is_digit_char c)
    (hv : 2 ^ 63 ≤ digits_value ds) : stol ds = .error "stol: out_of_range" := by
  obtain ⟨c, rest, rfl⟩ := List.exists_cons_of_ne_nil hne
  obtain ⟨d, hd10, hc⟩ := hd c (List.mem_cons_self _ _)
  have hsp : is_space c = false := hc ▸ digit_char_not_space d hd10
  have hm : c ≠ '-' := hc ▸ digit_char_ne_minus d hd10
  have hp : c ≠ '+' := hc ▸ digit_char_ne_plus d hd10
  have hall : (c :: rest).takeWhile Char.isDigit = c :: rest := by
    rw [List.takeWhile_eq_self_iff]
    intro x hx
    obtain ⟨e, he, rfl⟩ := hd x hx
    exact digit_char_isDigit e he
  unfold stol
  simp only [List.dropWhile_cons, hsp, Bool.false_eq_true, if_false, List.head?_cons,
    Option.some.injEq, hm, hp, or_self, hall, List.isEmpty_cons, decide_False]
  have h1 : ((digits_value (c :: rest) : Int) < -(2 ^ 63) ∨ 2 ^ 63 - 1 < (digits_value (c :: rest) : Int)) := by
    right; omega
  simp only [h1, if_true]

theorem file_version_commit_path_large (branch_id : String) (v : Nat) (hv : 2 ^ 63 ≤ v)
    (h20 : v < 10 ^ 20) :
    file_version (commit_path branch_id v) = .error "stol: out_of_range" := by
  unfold file_version
  rw [commit_path_child, filename_child _ _ (commit_name_no_slash v)]
  have hlen : (zero_pad v ++ ".json").data.length = 25 := by
    rw [String.data_append, List.length_append, zero_pad_length]; rfl
  have htake : (zero_pad v ++ ".json").data.take 20 = (zero_pad v).data := by
    rw [String.data_append, List.take_left' (zero_pad_length v)]
  simp only [hlen, show ¬ (25 < 5) by norm_num, if_false, show 25 - 5 = 20 by norm_num, htake]
  have hval := zero_pad_value v h20
  have hne : (zero_pad v).data ≠ [] := by
    intro h; have := zero_pad_length v; rw [h] at this; simp at this
  rw [stol_digits_out_of_range _ hne (zero_pad_digits v) (by rw [hval]; exact hv)]

theorem mem_files_set_bytes (s : storage) (p : String) (b : bytes) (f : String × bytes)
    (h : f ∈ (s.set_bytes p b).files) : f ∈ s.files ∨ f = (p, b) := by
  unfold storage.set_bytes at h
  split at h
  · simp only [List.mem_map] at h
    obtain ⟨g, hg, e⟩ := h
    by_cases hp : g.1 = p
    · rw [if_pos hp] at e; exact Or.inr e.symm
    · rw [if_neg hp] at e; exact Or.inl (e ▸ hg)
  · simp only [List.mem_append, List.mem_singleton] at h
    exact h

theorem only_commits_set (s : storage) (branch_id : String) (v : Nat) (text : String)
    (objs : List action) (h : only_commits s) (hv : v ≤ 2 ^ 63) :
    only_commits (s.set_bytes (commit_path branch_id v) (.json_objects text objs)) := by
  intro f hf
  rcases mem_files_set_bytes _ _ _ _ hf with h1 | h1
  · exact h f h1
  · exact ⟨branch_id, v, text, objs, hv, h1⟩

theorem mem_paths_files (s : storage) (p : String) (h : p ∈ s.paths) :
    ∃ b, (p, b) ∈ s.files := by
  simp only [storage.paths, List.mem_map] at h
  obtain ⟨f, hf, e⟩ := h
  exact ⟨f.2, by rw [← e]; exact hf⟩

theorem get_bytes_mem (s : storage) (p : String) (b : bytes) (h : s.get_bytes p = some b) :
    (p, b) ∈ s.files := by
  unfold storage.get_bytes at h
  simp only [Option.map_eq_some'] at h
  obtain ⟨f, hf, e⟩ := h
  have h1 := List.find?_some hf
  have h2 := List.mem_of_find?_eq_some hf
  simp only [decide_eq_true_eq] at h1
  rw [← h1, ← e]
  exact h2

theorem load_checkpoint_only_commits (s : storage) (branch_id : String) (tables : List Table)
    (k : Nat) (hs : only_commits s) (h : load_checkpoint s branch_id = .ok (tables, k)) :
    tables = [] ∧ k = 0 ∧ s.file_exists (last_checkpoint_path branch_id) = false := by
  unfold load_checkpoint at h
  by_cases hex : s.file_exists (last_checkpoint_path branch_id) = true
  · rw [if_pos hex] at h
    cases hg : s.get_bytes (last_checkpoint_path branch_id) with
    | none => rw [hg] at h; simp at h
    | some b =>
      obtain ⟨b2, v, text, objs, _, e⟩ := hs _ (get_bytes_mem _ _ _ hg)
      exact absurd (Prod.mk.inj e).1.symm (commit_path_ne_pointer _ _ _)
  · rw [if_neg hex] at h
    simp only [Except.ok.injEq, Prod.mk.injEq] at h
    exact ⟨h.1.symm, h.2.symm, by simpa using hex⟩

/-! ## Commits at the tip keep the versions contiguous -/

theorem version_contiguous (s : storage) (branch_id : String) (n tip : Nat)
    (hs : only_commits s) (hn : n ≤ 2 ^ 63) (hc : contiguous s branch_id n)
    (h : version s branch_id = .ok tip) : tip = n ∧ n < 2 ^ 63 := by
  obtain ⟨tables, k, paths, rows, h1, h2, h3⟩ := version_ok s branch_id tip h
  obtain ⟨_, hk, _⟩ := load_checkpoint_only_commits s branch_id tables k hs h1
  subst hk
  have hmemn : ∀ v, 1 ≤ v → v ≤ n →
      commit_path branch_id v ∈ s.list_files ("/_deeplake_log/" ++ branch_id) := by
    intro v h1v hvn
    have := (hc (commit_path branch_id v)).2 ⟨v, h1v, hvn, rfl⟩
    simp only [commit_files, List.mem_filter] at this
    exact this.1
  have hlt : n < 2 ^ 63 := by
    by_contra hge
    have hge' : 2 ^ 63 ≤ n := Nat.not_lt.1 hge
    obtain ⟨fv, hf, _⟩ := (scan_files_none_bounds (some 0) _ _ _ h2).2 _
      (hmemn n (le_trans (by norm_num) hge') (le_refl _)) (is_commit_name_commit_path _ _)
    rw [file_version_commit_path_large _ _ hge' (lt_of_le_of_lt hn (by norm_num))] at hf
    simp at hf
  have hcanon : canonical_names branch_id (s.list_files ("/_deeplake_log/" ++ branch_id)) := by
    intro p hp hname
    have : p ∈ commit_files s branch_id := by
      simp only [commit_files, List.mem_filter]
      exact ⟨hp, hname⟩
    obtain ⟨v, _, hvn, e⟩ := (hc p).1 this
    exact ⟨v, lt_of_le_of_lt hvn hlt, e⟩
  obtain ⟨hi, ps, hscan, _, _, _, hub, hatt⟩ :=
    scan_files_canonical branch_id none _ 0 [] hcanon
  rw [h2] at hscan
  simp only [Except.ok.injEq, Prod.mk.injEq] at hscan
  obtain ⟨e1, _⟩ := hscan
  subst e1
  refine ⟨le_antisymm ?_ ?_, hlt⟩
  · rcases hatt with e | ⟨v, hv, hmem, _, e⟩
    · omega
    · have hcf : commit_path branch_id v ∈ commit_files s branch_id := by
        simp only [commit_files, List.mem_filter]
        exact ⟨hmem, is_commit_name_commit_path _ _⟩
      obtain ⟨w, _, hwn, e2⟩ := (hc _).1 hcf
      have := (commit_path_inj _ _ _ _ (lt_trans hv (by norm_num))
        (lt_of_le_of_lt hwn (lt_trans hlt (by norm_num))) e2).2
      omega
  · rcases Nat.eq_zero_or_pos n with h0 | h0
    · omega
    · exact hub n hlt (hmemn n h0 (le_refl _)) rfl

theorem create_empty (metadata_id branch_id : String) (now : Int) :
    create storage.empty 4 metadata_id branch_id now =
      (.ok .deeplog, storage.empty.set_bytes (commit_path META_BRANCH_ID 1)
        (.json_objects (commit_buffer (initial_actions metadata_id branch_id now))
        (initial_actions metadata_id branch_id now))) := by
  rfl

theorem commit_files_empty (branch_id : String) : commit_files storage.empty branch_id = [] := rfl

/-- The invariant of the reachable states. -/
theorem tip_reachable_invariant (s : storage) (h : tip_reachable s) :
    only_commits s ∧ ∀ branch_id, ∃ n, n ≤ 2 ^ 63 ∧ contiguous s branch_id n := by
  induction h with
  | created metadata_id main_id now s hcreate =>
    rw [create_empty] at hcreate
    simp only [Prod.mk.injEq, true_and] at hcreate
    subst hcreate
    refine ⟨only_commits_set _ _ _ _ _ (by intro f hf; simp [storage.empty] at hf)
      (by norm_num), ?_⟩
    intro b
    by_cases hb : META_BRANCH_ID = b
    · subst hb
      refine ⟨1, by norm_num, ?_⟩
      intro p
      rw [mem_commit_files_commit, commit_files_empty]
      constructor
      · rintro (h1 | ⟨h1, _⟩)
        · simp at h1
        · exact ⟨1, le_refl _, le_refl _, h1⟩
      · rintro ⟨v, h1, h2, e⟩
        have : v = 1 := by omega
        subst this
        exact Or.inr ⟨e, rfl⟩
    · refine ⟨0, by norm_num, ?_⟩
      intro p
      rw [mem_commit_files_commit, commit_files_empty]
      constructor
      · rintro (h1 | ⟨_, h1⟩)
        · simp at h1
        · exact absurd h1 hb
      · rintro ⟨v, h1, h2, _⟩
        omega
  | committed s b base actions _ hver ih =>
    obtain ⟨hs, hall⟩ := ih
    obtain ⟨n, hn, hc⟩ := hall b
    obtain ⟨e, hlt⟩ := version_contiguous s b n base hs hn hc hver
    subst e
    rw [commit_eq _ _ _ _ (lt_trans (Nat.succ_lt_succ hlt) (by norm_num))]
    refine ⟨only_commits_set _ _ _ _ _ hs hlt, ?_⟩
    intro b2
    by_cases hb : b = b2
    · subst hb
      refine ⟨base + 1, hlt, ?_⟩
      intro p
      rw [mem_commit_files_commit, hc p]
      constructor
      · rintro (⟨v, h1, h2, e⟩ | ⟨e, _⟩)
        · exact ⟨v, h1, Nat.le_succ_of_le h2, e⟩
        · exact ⟨base + 1, by omega, le_refl _, e⟩
      · rintro ⟨v, h1, h2, e⟩
        rcases Nat.lt_or_ge v (base + 1) with h3 | h3
        · exact Or.inl ⟨v, h1, by omega, e⟩
        · have : v = base + 1 := by omega
          subst this
          exact Or.inr ⟨e, rfl⟩
    · obtain ⟨m, hm, hcm⟩ := hall b2
      refine ⟨m, hm, ?_⟩
      intro p
      rw [mem_commit_files_commit, hcm p]
      constructor
      · rintro (h1 | ⟨_, h1⟩)
        · exact h1
        · exact absurd h1 hb
      · exact Or.inl

/-! ## Branches next to `_meta` after `create` -/

theorem pointer_not_dir_of_first_meta_commit (branch_id : String) :
    ((last_checkpoint_path branch_id).data ++ ['/']).isPrefixOf
      (commit_path META_BRANCH_ID 1).data = false := by
  rw [Bool.eq_false_iff]
  intro h
  rw [List.isPrefixOf_iff_prefix] at h
  obtain ⟨t, ht⟩ := h
  have e1 : (last_checkpoint_path branch_id).data ++ ['/'] ++ t =
      "/_deeplake_log/".data ++ (branch_id.data ++ ("/_last_checkpoint.json/".data ++ t)) := by
    simp [last_checkpoint_path, String.data_append]
  have e2 : (commit_path META_BRANCH_ID 1).data =
      "/_deeplake_log/".data ++ "_meta/00000000000000000001.json".data := by decide
  rw [e1, e2] at ht
  have h3 := congrArg (List.count '/') (List.append_cancel_left ht)
  rw [List.count_append, List.count_append] at h3
  have h4 : List.count '/' "/_last_checkpoint.json/".data = 2 := by decide
  have h5 : List.count '/' "_meta/00000000000000000001.json".data = 1 := by decide
  omega

theorem represents_other_after_create (metadata_id main_id : String) (now : Int)
    (branch_id : String) (h : branch_id ≠ META_BRANCH_ID) :
    represents (storage.empty.set_bytes (commit_path META_BRANCH_ID 1)
      (.json_objects (commit_buffer (initial_actions metadata_id main_id now))
        (initial_actions metadata_id main_id now))) branch_id
      { checkpoint := none, commits := [] } := by
  refine ⟨?_, List.Pairwise.nil, by simp, ?_, by simp⟩
  · simp only
    rw [Bool.eq_false_iff]
    intro hex
    rcases (file_exists_set_bytes _ _ _ _).1 hex with h1 | h1 | h1
    · simp [storage.file_exists, storage.empty] at h1
    · exact commit_path_ne_pointer _ _ _ h1
    · rw [pointer_not_dir_of_first_meta_commit] at h1
      exact Bool.noConfusion h1
  · intro p
    rw [mem_commit_files_commit, commit_files_empty]
    constructor
    · rintro (h1 | ⟨_, h1⟩)
      · simp at h1
      · exact absurd h1.symm h
    · rintro ⟨c, hc, _⟩
      simp at hc

theorem represents_created_storage :
    represents created_storage META_BRANCH_ID
      { checkpoint := none, commits := [(1, initial_actions "ds" "br" 7)] } :=
  represents_commit storage.empty META_BRANCH_ID { checkpoint := none, commits := [] } 0
    (initial_actions "ds" "br" 7) (represents_empty _) (by simp) (by norm_num)

theorem represents_metadata_commits_storage :
    represents metadata_commits_storage META_BRANCH_ID
      { checkpoint := none,
        commits := [(1, initial_actions "ds" "br" 7), (2, [.metadata metadata_first]),
          (3, [.metadata metadata_final])] } :=
  represents_commit _ META_BRANCH_ID _ 2 [.metadata metadata_final]
    (represents_commit _ META_BRANCH_ID _ 1 [.metadata metadata_first]
      represents_created_storage (by simp) (by norm_num))
    (by simp) (by norm_num)

/-! ## The choice of `open`, versions and add actions -/

theorem open_log_eq (s : storage) :
    open_log s =
      if s.file_exists (commit_path META_BRANCH_ID 1) = true ∨
          s.file_exists (last_checkpoint_path META_BRANCH_ID) = true then .ok .deeplog
      else if s.file_exists "/dataset_meta.json" = true then .ok .deeplog_v3
      else .error "Cannot determine log format" := by
  have h1 : "/_deeplake_log/" ++ META_BRANCH_ID ++ "/" ++ zero_pad 1 ++ ".json" =
      commit_path META_BRANCH_ID 1 := rfl
  have h2 : "/_deeplake_log/" ++ META_BRANCH_ID ++ "/_last_checkpoint.json" =
      last_checkpoint_path META_BRANCH_ID := rfl
  unfold open_log
  rw [h1, h2]
  cases s.file_exists (commit_path META_BRANCH_ID 1) <;>
    cases s.file_exists (last_checkpoint_path META_BRANCH_ID) <;>
    cases s.file_exists "/dataset_meta.json" <;> rfl

theorem max_version_eq_max (start : Nat) (cs : List (Nat × List action)) :
    max_version start cs = max start (max_version 0 cs) := by
  induction cs generalizing start with
  | nil => simp [max_version]
  | cons c rest ih =>
    have e1 : max_version start (c :: rest) = max_version (max start c.1) rest := rfl
    have e2 : max_version 0 (c :: rest) = max_version (max 0 c.1) rest := rfl
    rw [e1, e2, ih (max start c.1), ih (max 0 c.1)]
    simp only [Nat.zero_max, max_assoc]

theorem selected_commits_all (cs : List (Nat × List action)) (v : Nat)
    (h : ∀ c ∈ cs, c.1 ≤ v) : selected_commits (some v) cs = cs := by
  simp only [selected_commits, within_bound, Option.all_some, List.filter_eq_self,
    decide_eq_true_eq]
  exact h

theorem selected_commits_tip (start : Nat) (cs : List (Nat × List action)) :
    selected_commits (some (max_version start cs)) cs = cs :=
  selected_commits_all cs _ (max_version_spec start cs).2.1

theorem represents_of_no_files (s : storage) (branch_id : String)
    (h1 : commit_files s branch_id = [])
    (h2 : s.file_exists (last_checkpoint_path branch_id) = false) :
    represents s branch_id { checkpoint := none, commits := [] } := by
  refine ⟨h2, List.Pairwise.nil, by simp, ?_, by simp⟩
  intro p
  rw [h1]
  simp

theorem add_of_apply_protocol (l : List action) (p : protocol_action) :
    find_add_file_actions (apply_action as_replace_action l (.protocol p)) =
      find_add_file_actions l := by
  induction l with
  | nil => rw [apply_action_nil]; rfl
  | cons a rest ih =>
    rw [apply_protocol_cons]
    cases a <;>
      simp [action.protocol_of, action.add_of, find_add_file_actions] <;>
      simpa [find_add_file_actions] using ih

theorem add_of_apply_metadata (l : List action) (m : metadata_action) :
    find_add_file_actions (apply_action as_replace_action l (.metadata m)) =
      find_add_file_actions l := by
  induction l with
  | nil => rw [apply_action_nil]; rfl
  | cons a rest ih =>
    rw [apply_metadata_cons]
    cases a <;>
      simp [action.is_metadata, action.metadata_of, action.add_of, find_add_file_actions] <;>
      simpa [find_add_file_actions] using ih

theorem add_of_apply (l : List action) (x : action) :
    find_add_file_actions (apply_action as_replace_action l x) =
      find_add_file_actions l ++ find_add_file_actions [x] := by
  cases x with
  | protocol p => rw [add_of_apply_protocol]; simp [find_add_file_actions, action.add_of]
  | metadata m => rw [add_of_apply_metadata]; simp [find_add_file_actions, action.add_of]
  | add a => rw [apply_action_append_only _ _ _ rfl]; simp [find_add_file_actions]
  | branch a => rw [apply_action_append_only _ _ _ rfl]; simp [find_add_file_actions]
  | tensor a => rw [apply_action_append_only _ _ _ rfl]; simp [find_add_file_actions]

theorem add_of_fold (l actions : List action) :
    find_add_file_actions (fold_actions as_replace_action l actions) =
      find_add_file_actions l ++ find_add_file_actions actions := by
  induction actions generalizing l with
  | nil => simp [fold_actions, find_add_file_actions]
  | cons x rest ih =>
    have e : fold_actions as_replace_action l (x :: rest) =
        fold_actions as_replace_action (apply_action as_replace_action l x) rest := rfl
    rw [e, ih, add_of_apply, List.append_assoc]
    congr 1
    simp only [find_add_file_actions, ← List.filterMap_append, List.singleton_append]

theorem commit_buffer_acc (f : action → String) (actions : List action) (acc : String) :
    (actions.foldl (fun buffer a => buffer ++ f a) acc).data =
      acc.data ++ (actions.map (fun a => (f a).data)).flatten := by
  induction actions generalizing acc with
  | nil => simp
  | cons a rest ih =>
    simp only [List.foldl_cons, List.map_cons, List.flatten_cons]
    rw [ih, String.data_append, List.append_assoc]

/-! ## Checkpoints of a branch in a known state -/

theorem checkpoint_represents (s : storage) (branch_id : String) (st : branch_state)
    (h : represents s branch_id st) :
    checkpoint s branch_id = .ok
      ((s.set_bytes (checkpoint_path branch_id (max_version st.checkpoint_version st.commits))
          (.parquet ((fold_actions as_replace_action []
            (table_actions st.checkpoint_rows ++ st.commits.flatMap (fun c => c.2))).map action_row ++
            [version_row (max_version st.checkpoint_version st.commits)]))).set_bytes
        (last_checkpoint_path branch_id)
        (.last_checkpoint (max_version st.checkpoint_version st.commits) 3013)) := by
  unfold checkpoint
  rw [version_represents s branch_id st h]
  simp only
  unfold write_checkpoint
  rw [get_actions_represents s branch_id st _ h, selected_commits_tip]
  rfl

theorem get_bytes_remove_files (s : storage) (doomed : String → Bool) (q : String) :
    (s.remove_files doomed).get_bytes q = if doomed q = true then none else s.get_bytes q := by
  unfold storage.remove_files storage.get_bytes
  simp only
  induction s.files with
  | nil => simp
  | cons f rest ih =>
    by_cases hd : doomed f.1 = true
    · simp only [List.filter_cons, hd, Bool.not_true, Bool.false_eq_true, if_false,
        List.find?_cons]
      by_cases hq : f.1 = q
      · rw [hq] at hd
        simp only [hq, decide_True, hd, if_true]
        rw [ih, if_pos hd]
      · simp only [hq, decide_False]
        exact ih
    · have hd' : doomed f.1 = false := by simpa using hd
      simp only [List.filter_cons, hd', Bool.not_false, if_true, List.find?_cons]
      by_cases hq : f.1 = q
      · rw [hq] at hd'
        simp [hq, hd']
      · simp only [hq, decide_False]
        exact ih

theorem mem_paths_remove_files (s : storage) (doomed : String → Bool) (q : String) :
    q ∈ (s.remove_files doomed).paths ↔ q ∈ s.paths ∧ doomed q = false := by
  simp only [storage.remove_files, storage.paths, List.mem_map, List.mem_filter,
    Bool.not_eq_true']
  constructor
  · rintro ⟨f, ⟨hf, hd⟩, rfl⟩
    exact ⟨⟨f, hf, rfl⟩, hd⟩
  · rintro ⟨⟨f, hf, rfl⟩, hd⟩
    exact ⟨f, ⟨hf, hd⟩, rfl⟩

theorem last_checkpoint_path_child (branch_id : String) :
    last_checkpoint_path branch_id =
      ("/_deeplake_log/" ++ branch_id) ++ "/" ++ "_last_checkpoint.json" := by
  apply String.ext
  simp [last_checkpoint_path, String.data_append]

theorem filename_last_checkpoint_path (branch_id : String) :
    filename (last_checkpoint_path branch_id) = "_last_checkpoint.json".data := by
  rw [last_checkpoint_path_child]
  exact filename_child _ _ (by decide)

theorem checkpoint_path_ne_pointer (b1 b2 : String) (k : Nat) :
    checkpoint_path b1 k ≠ last_checkpoint_path b2 := by
  intro h
  have h1 := not_ends_with_json_checkpoint_path b1 k
  rw [h] at h1
  have h2 : ends_with (last_checkpoint_path b2) ".json" = true := by
    simp only [ends_with, last_checkpoint_path, List.isSuffixOf_iff_suffix, String.data_append]
    exact ⟨"/_deeplake_log/".data ++ b2.data ++ "/_last_checkpoint".data, by simp⟩
  rw [h2] at h1
  exact Bool.noConfusion h1

/-- After the deletion of the commit files of a branch that has a pointer and the table
it names, the branch holds the checkpoint and no commit. -/
theorem represents_delete_json_files (s : storage) (branch_id : String) (k size : Nat)
    (table : Table) (hk : k < 2 ^ 64)
    (h1 : s.get_bytes (last_checkpoint_path branch_id) = some (.last_checkpoint k size))
    (h2 : s.get_bytes (checkpoint_path branch_id k) = some (.parquet table)) :
    represents (delete_json_files s branch_id) branch_id
      { checkpoint := some (k, table), commits := [] } := by
  refine ⟨⟨hk, ⟨size, ?_⟩, ?_⟩, List.Pairwise.nil, by simp, ?_, by simp⟩
  · unfold delete_json_files
    rw [get_bytes_remove_files, filename_last_checkpoint_path]
    simpa using h1
  · unfold delete_json_files
    rw [get_bytes_remove_files, not_ends_with_json_checkpoint_path]
    simpa using h2
  · intro p
    simp only [List.not_mem_nil, false_and, exists_false, iff_false]
    intro hp
    rw [mem_commit_files] at hp
    obtain ⟨hmem, hchild, hname⟩ := hp
    unfold delete_json_files at hmem
    rw [mem_paths_remove_files] at hmem
    have hd := hmem.2
    simp only [is_commit_name, Bool.and_eq_true, Bool.not_eq_true'] at hname
    simp only [hchild, hname.1, Bool.true_and, Bool.and_true, decide_eq_false_iff_not,
      not_not] at hd
    obtain ⟨e, _⟩ := filename_of_child _ _ hchild
    rw [hd] at e
    have : ends_with p "_last_checkpoint.json" = true := by
      rw [e]
      simp only [ends_with, List.isSuffixOf_iff_suffix, String.data_append]
      exact List.suffix_append _ _
    rw [this] at hname
    exact Bool.noConfusion hname.2

/-! ## Protocols in the replace steps, and lists the steps leave unchanged -/

theorem protocols_cons (a : action) (l : List action) :
    protocols (a :: l) = (match a.protocol_of with
                          | some p => p :: protocols l
                          | none => protocols l) := by
  simp only [protocols, List.filterMap_cons]
  cases a.protocol_of <;> rfl

theorem protocols_append (a b : List action) : protocols (a ++ b) = protocols a ++ protocols b := by
  simp [protocols, List.filterMap_append]

theorem protocols_apply_protocol (l : List action) (p : protocol_action)
    (h : (protocols l).length ≤ 1) :
    protocols (apply_action as_replace_action l (.protocol p)) = [p] := by
  induction l with
  | nil => rw [apply_action_nil]; rfl
  | cons a rest ih =>
    rw [apply_protocol_cons]
    cases a with
    | protocol p0 =>
      have h0 : protocols rest = [] := by
        rw [protocols_cons] at h
        simp only [action.protocol_of, List.length_cons] at h
        exact List.length_eq_zero.1 (by omega)
      simp [action.protocol_of, protocols_cons, h0]
    | metadata m =>
      simpa [action.protocol_of, protocols_cons] using ih (by simpa [protocols_cons, action.protocol_of] using h)
    | add m =>
      simpa [action.protocol_of, protocols_cons] using ih (by simpa [protocols_cons, action.protocol_of] using h)
    | branch m =>
      simpa [action.protocol_of, protocols_cons] using ih (by simpa [protocols_cons, action.protocol_of] using h)
    | tensor m =>
      simpa [action.protocol_of, protocols_cons] using ih (by simpa [protocols_cons, action.protocol_of] using h)

theorem protocols_apply_metadata (l : List action) (m : metadata_action) :
    protocols (apply_action as_replace_action l (.metadata m)) = protocols l := by
  induction l with
  | nil => rw [apply_action_nil]; rfl
  | cons a rest ih =>
    rw [apply_metadata_cons]
    cases a <;> simp [action.is_metadata, action.protocol_of, action.metadata_of, protocols_cons, ih]

theorem protocols_apply_length (l : List action) (x : action) (h : (protocols l).length ≤ 1) :
    (protocols (apply_action as_replace_action l x)).length ≤ 1 := by
  cases x with
  | protocol p => rw [protocols_apply_protocol l p h]; simp
  | metadata m => rw [protocols_apply_metadata]; exact h
  | add a =>
    rw [apply_action_append_only _ _ _ rfl, protocols_append]
    simpa [protocols, action.protocol_of] using h
  | branch a =>
    rw [apply_action_append_only _ _ _ rfl, protocols_append]
    simpa [protocols, action.protocol_of] using h
  | tensor a =>
    rw [apply_action_append_only _ _ _ rfl, protocols_append]
    simpa [protocols, action.protocol_of] using h

theorem protocols_fold_length (l : List action) (actions : List action)
    (h : (protocols l).length ≤ 1) :
    (protocols (fold_actions as_replace_action l actions)).length ≤ 1 := by
  induction actions generalizing l with
  | nil => exact h
  | cons x rest ih => exact ih _ (protocols_apply_length l x h)

theorem apply_metadata_no_match (l : List action) (m : metadata_action) (h : metas l = []) :
    apply_action as_replace_action l (.metadata m) = l ++ [.metadata m] := by
  induction l with
  | nil => exact apply_action_nil _ _
  | cons a rest ih =>
    rw [apply_metadata_cons]
    rw [metas_cons] at h
    cases a with
    | metadata m0 => simp [action.metadata_of] at h
    | protocol p => simp only [action.metadata_of] at h; simp [action.is_metadata, action.metadata_of, ih h]
    | add p => simp only [action.metadata_of] at h; simp [action.is_metadata, action.metadata_of, ih h]
    | branch p => simp only [action.metadata_of] at h; simp [action.is_metadata, action.metadata_of, ih h]
    | tensor p => simp only [action.metadata_of] at h; simp [action.is_metadata, action.metadata_of, ih h]

theorem apply_protocol_no_match (l : List action) (p : protocol_action) (h : protocols l = []) :
    apply_action as_replace_action l (.protocol p) = l ++ [.protocol p] := by
  induction l with
  | nil => exact apply_action_nil _ _
  | cons a rest ih =>
    rw [apply_protocol_cons]
    rw [protocols_cons] at h
    cases a with
    | protocol p0 => simp [action.protocol_of] at h
    | metadata m => simp only [action.protocol_of] at h; simp [action.protocol_of, ih h]
    | add m => simp only [action.protocol_of] at h; simp [action.protocol_of, ih h]
    | branch m => simp only [action.protocol_of] at h; simp [action.protocol_of, ih h]
    | tensor m => simp only [action.protocol_of] at h; simp [action.protocol_of, ih h]

/-- The replace steps append a list that holds, together with the start list, at most
one metadata action and at most one protocol action. -/
theorem fold_actions_fixed (actions : List action) :
    ∀ start : List action, (metas (start ++ actions)).length ≤ 1 →
      (protocols (start ++ actions)).length ≤ 1 →
      fold_actions as_replace_action start actions = start ++ actions := by
  induction actions with
  | nil => intro start _ _; simp [fold_actions]
  | cons x rest ih =>
    intro start hm hp
    have e : fold_actions as_replace_action start (x :: rest) =
        fold_actions as_replace_action (apply_action as_replace_action start x) rest := rfl
    have happ : apply_action as_replace_action start x = start ++ [x] := by
      cases x with
      | metadata m =>
        apply apply_metadata_no_match
        rw [metas_append, metas_cons] at hm
        simp only [action.metadata_of, List.length_append, List.length_cons] at hm
        exact List.length_eq_zero.1 (by omega)
      | protocol p =>
        apply apply_protocol_no_match
        rw [protocols_append, protocols_cons] at hp
        simp only [action.protocol_of, List.length_append, List.length_cons] at hp
        exact List.length_eq_zero.1 (by omega)
      | add a => exact apply_action_append_only _ _ _ rfl
      | branch a => exact apply_action_append_only _ _ _ rfl
      | tensor a => exact apply_action_append_only _ _ _ rfl
    rw [e, happ, ih (start ++ [x]) (by simpa using hm) (by simpa using hp)]
    simp

theorem fold_actions_idempotent (actions : List action) :
    fold_actions as_replace_action [] (fold_actions as_replace_action [] actions) =
      fold_actions as_replace_action [] actions := by
  have h := fold_actions_fixed (fold_actions as_replace_action [] actions) []
    (by simpa using metas_fold_length [] actions (by simp [metas]))
    (by simpa using protocols_fold_length [] actions (by simp [protocols]))
  simpa using h

/-! ## Commits in a row -/

theorem number_commits_fst_gt (first : Nat) (batches : List (List action)) :
    ∀ c ∈ number_commits first batches, first ≤ c.1 ∧ c.1 < first + batches.length := by
  induction batches generalizing first with
  | nil => intro c hc; simp [number_commits] at hc
  | cons b rest ih =>
    intro c hc
    simp only [number_commits, List.mem_cons] at hc
    rcases hc with e | e
    · subst e; simp
    · have := ih (first + 1) c e
      simp only [List.length_cons]
      omega

theorem number_commits_flatMap (first : Nat) (batches : List (List action)) :
    (number_commits first batches).flatMap (fun c => c.2) = batches.flatten := by
  induction batches generalizing first with
  | nil => rfl
  | cons b rest ih => simp [number_commits, ih]

theorem max_version_number_commits (start : Nat) (batches : List (List action)) :
    max_version start (number_commits (start + 1) batches) = start + batches.length := by
  induction batches generalizing start with
  | nil => rfl
  | cons b rest ih =>
    have e : max_version start (number_commits (start + 1) (b :: rest)) =
        max_version (max start (start + 1)) (number_commits (start + 1 + 1) rest) := rfl
    rw [e, max_eq_right (Nat.le_succ start), ih (start + 1)]
    simp only [List.length_cons]
    omega

theorem represents_commit_each (branch_id : String) (batches : List (List action)) :
    ∀ (s : storage) (st : branch_state) (base_version : Nat), represents s branch_id st →
      (∀ c ∈ st.commits, c.1 ≤ base_version) → base_version + batches.length < 2 ^ 63 →
      represents (commit_each s branch_id base_version batches) branch_id
        { checkpoint := st.checkpoint,
          commits := st.commits ++ number_commits (base_version + 1) batches } := by
  induction batches with
  | nil =>
    intro s st base h _ _
    simpa [commit_each, number_commits] using h
  | cons b rest ih =>
    intro s st base h htip hlen
    simp only [List.length_cons] at hlen
    have h1 := represents_commit s branch_id st base b h htip (by omega)
    have h2 := ih (commit s branch_id base b)
      { checkpoint := st.checkpoint, commits := st.commits ++ [(base + 1, b)] } (base + 1) h1
      (by
        intro c hc
        simp only [List.mem_append, List.mem_singleton] at hc
        rcases hc with hc | hc
        · exact Nat.le_succ_of_le (htip c hc)
        · subst hc; exact le_refl _)
      (by omega)
    simpa [commit_each, number_commits, List.append_assoc] using h2

theorem metadata_cells_action_rows (actions : List action) :
    metadata_cells (actions.map action_row) = metas actions := by
  induction actions with
  | nil => rfl
  | cons a rest ih =>
    simp only [metadata_cells, metas, List.map_cons, List.filterMap_cons] at ih ⊢
    cases a <;> simp [action_row, Row.null, action.metadata_of, ih]

theorem metadata_cells_checkpoint_table (actions : List action) (v : Nat) :
    metadata_cells (actions.map action_row ++ [version_row v]) = metas actions := by
  have e : metadata_cells (actions.map action_row ++ [version_row v]) =
      metadata_cells (actions.map action_row) ++ metadata_cells [version_row v] := by
    simp [metadata_cells, List.filterMap_append]
  rw [e, metadata_cells_action_rows]
  simp [metadata_cells, version_row, Row.null]

theorem flatten_singletons {α β : Type} (f : α → β) (l : List α) :
    (l.map (fun a => [f a])).flatten = l.map f := by
  induction l with
  | nil => rfl
  | cons a rest ih => simp [ih]

theorem represents_after_create (metadata_id main_id : String) (now : Int) :
    represents (storage.empty.set_bytes (commit_path META_BRANCH_ID 1)
      (.json_objects (commit_buffer (initial_actions metadata_id main_id now))
        (initial_actions metadata_id main_id now))) META_BRANCH_ID
      { checkpoint := none, commits := [(1, initial_actions metadata_id main_id now)] } :=
  represents_commit storage.empty META_BRANCH_ID { checkpoint := none, commits := [] } 0
    (initial_actions metadata_id main_id now) (represents_empty _) (by simp) (by norm_num)

/-- What `checkpoint` leaves on storage for a branch in a known state. -/
theorem checkpoint_written (s : storage) (branch_id : String) (st : branch_state)
    (h : represents s branch_id st) :
    ∃ s1, checkpoint s branch_id = .ok s1 ∧
      s1.get_bytes (last_checkpoint_path branch_id) =
        some (.last_checkpoint (max_version st.checkpoint_version st.commits) 3013) ∧
      s1.get_bytes (checkpoint_path branch_id (max_version st.checkpoint_version st.commits)) =
        some (.parquet ((fold_actions as_replace_action []
          (table_actions st.checkpoint_rows ++ st.commits.flatMap (fun c => c.2))).map action_row ++
          [version_row (max_version st.checkpoint_version st.commits)])) := by
  refine ⟨_, checkpoint_represents s branch_id st h, get_bytes_set_bytes_same _ _ _, ?_⟩
  rw [get_bytes_set_bytes_ne _ _ _ _ (checkpoint_path_ne_pointer _ _ _)]
  exact get_bytes_set_bytes_same _ _ _

/-! ## One replace step, for any replace interface -/

theorem findIdx_first_match {α : Type} (p : α → Bool) (pre : List α) (a : α) (post : List α)
    (hpre : ∀ b ∈ pre, p b = false) (ha : p a = true) :
    (pre ++ a :: post).findIdx? p = some pre.length := by
  induction pre with
  | nil => simp [List.findIdx?_cons, ha]
  | cons b rest ih =>
    have hb : p b = false := hpre b (List.mem_cons_self _ _)
    simp only [List.cons_append, List.findIdx?_cons, hb, Bool.false_eq_true, if_false, zero_add,
      List.findIdx?_succ, ih (fun c hc => hpre c (List.mem_cons_of_mem _ hc)), Option.map_some',
      List.length_cons]

theorem findIdx_no_match {α : Type} (p : α → Bool) (l : List α) (h : ∀ a ∈ l, p a = false) :
    l.findIdx? p = none := by
  rw [List.findIdx?_eq_none_iff]
  exact h

theorem first_match_split {α : Type} (p : α → Bool) (l : List α) :
    (∀ a ∈ l, p a = false) ∨
      ∃ pre a post, l = pre ++ a :: post ∧ (∀ b ∈ pre, p b = false) ∧ p a = true := by
  induction l with
  | nil => left; simp
  | cons x rest ih =>
    by_cases hx : p x = true
    · right; exact ⟨[], x, rest, rfl, by simp, hx⟩
    · have hx' : p x = false := by simpa using hx
      rcases ih with h | ⟨pre, a, post, e, hpre, ha⟩
      · left
        intro a ha
        rcases List.mem_cons.1 ha with e | e
        · rw [e]; exact hx'
        · exact h a e
      · right
        refine ⟨x :: pre, a, post, by rw [e]; rfl, ?_, ha⟩
        intro b hb
        rcases List.mem_cons.1 hb with e | e
        · rw [e]; exact hx'
        · exact hpre b e

theorem apply_action_no_match (cast : action → Option replace_action) (l : List action)
    (x : action) (r : replace_action) (hx : cast x = some r)
    (h : ∀ a ∈ l, r.replaces a = false) : apply_action cast l x = l ++ [x] := by
  unfold apply_action
  rw [hx]
  simp only [findIdx_no_match r.replaces l h]

theorem apply_action_split (cast : action → Option replace_action) (pre : List action)
    (a : action) (post : List action) (x : action) (r : replace_action) (hx : cast x = some r)
    (hpre : ∀ b ∈ pre, r.replaces b = false) (ha : r.replaces a = true) :
    apply_action cast (pre ++ a :: post) x =
      (match r.replace a with
       | some y => pre ++ y :: post
       | none => pre ++ post) := by
  unfold apply_action
  rw [hx]
  simp only [findIdx_first_match r.replaces pre a post hpre ha]
  have hget : (pre ++ a :: post).get? pre.length = some a := by
    rw [List.get?_eq_getElem?, List.getElem?_append_right (le_refl _)]
    simp
  rw [hget]
  simp only
  cases r.replace a with
  | none =>
    simp only
    rw [List.eraseIdx_append_of_length_le (le_refl _)]
    simp
  | some y =>
    simp only
    rw [List.set_append_right _ _ (le_refl _)]
    simp

/-! ## At most one action of a tag that replaces its like -/

theorem count_tag_append (tag : String) (a b : List action) :
    count_tag tag (a ++ b) = count_tag tag a + count_tag tag b := by
  simp [count_tag, List.filter_append]

theorem count_tag_cons (tag : String) (a : action) (l : List action) :
    count_tag tag (a :: l) = (if a.action_name = tag then 1 else 0) + count_tag tag l := by
  by_cases h : a.action_name = tag
  · simp [count_tag, List.filter_cons, h]; omega
  · simp [count_tag, List.filter_cons, h]

theorem count_tag_zero_of_no_match (tag : String) (l : List action)
    (h : ∀ a ∈ l, decide (a.action_name = tag) = false) : count_tag tag l = 0 := by
  simp only [count_tag, List.length_eq_zero, List.filter_eq_nil_iff]
  intro a ha
  simpa using h a ha

theorem count_tag_apply (cast : action → Option replace_action) (tag : String)
    (htag : ∀ x, x.action_name = tag →
      ∃ r, cast x = some r ∧ ∀ a, r.replaces a = decide (a.action_name = tag))
    (hsame : ∀ x r a y, cast x = some r → r.replaces a = true → r.replace a = some y →
      y.action_name = a.action_name)
    (l : List action) (x : action) (h : count_tag tag l ≤ 1) :
    count_tag tag (apply_action cast l x) ≤ 1 := by
  cases hx : cast x with
  | none =>
    rw [apply_action_append_only cast l x hx, count_tag_append, count_tag_cons]
    have hne : ¬ x.action_name = tag := by
      intro e
      obtain ⟨r, hr, _⟩ := htag x e
      rw [hx] at hr
      exact Option.noConfusion hr
    have e0 : count_tag tag ([] : List action) = 0 := rfl
    rw [if_neg hne, e0]
    omega
  | some r =>
    rcases first_match_split r.replaces l with hno | ⟨pre, a, post, e, hpre, ha⟩
    · rw [apply_action_no_match cast l x r hx hno, count_tag_append, count_tag_cons]
      by_cases hxt : x.action_name = tag
      · obtain ⟨r2, hr2, hrep⟩ := htag x hxt
        rw [hx] at hr2
        have e2 : r = r2 := Option.some.inj hr2
        subst e2
        have hz := count_tag_zero_of_no_match tag l (fun a ha => by rw [← hrep a]; exact hno a ha)
        have e0 : count_tag tag ([] : List action) = 0 := rfl
        rw [hz, if_pos hxt, e0]
      · have e0 : count_tag tag ([] : List action) = 0 := rfl
        rw [if_neg hxt, e0]
        omega
    · subst e
      rw [apply_action_split cast pre a post x r hx hpre ha]
      rw [count_tag_append, count_tag_cons] at h
      cases hy : r.replace a with
      | none =>
        simp only
        rw [count_tag_append]
        omega
      | some y =>
        simp only
        rw [count_tag_append, count_tag_cons, hsame x r a y hx ha hy]
        exact h

theorem count_tag_fold (cast : action → Option replace_action) (tag : String)
    (htag : ∀ x, x.action_name = tag →
      ∃ r, cast x = some r ∧ ∀ a, r.replaces a = decide (a.action_name = tag))
    (hsame : ∀ x r a y, cast x = some r → r.replaces a = true → r.replace a = some y →
      y.action_name = a.action_name)
    (actions : List action) :
    ∀ l : List action, count_tag tag l ≤ 1 → count_tag tag (fold_actions cast l actions) ≤ 1 := by
  induction actions with
  | nil => intro l h; exact h
  | cons x rest ih =>
    intro l h
    exact ih _ (count_tag_apply cast tag htag hsame l x h)

theorem protocols_length_eq (l : List action) :
    (protocols l).length = count_tag "protocol" l := by
  induction l with
  | nil => rfl
  | cons a rest ih =>
    rw [protocols_cons, count_tag_cons]
    cases a <;> simp [action.protocol_of, action.action_name, ih]
    omega

theorem metas_length_eq (l : List action) :
    (metas l).length = count_tag "metadata" l := by
  induction l with
  | nil => rfl
  | cons a rest ih =>
    rw [metas_cons, count_tag_cons]
    cases a <;> simp [action.metadata_of, action.action_name, ih]
    omega

/-! ## The set of selected paths is ordered, and a bound at the tip skips nothing -/

theorem scan_file_sorted (to_version next_from : Option Nat) (state state1 : Nat × List String)
    (path : String) (h : scan_file to_version next_from state path = .ok state1)
    (hs : state.2.Pairwise strings_lt) : state1.2.Pairwise strings_lt := by
  unfold scan_file at h
  by_cases hn : (ends_with path ".json" && !ends_with path "_last_checkpoint.json") = true
  · rw [if_pos hn] at h
    cases hf : file_version path with
    | error e => rw [hf] at h; simp at h
    | ok fv =>
      rw [hf] at h
      simp only at h
      by_cases ha : Option.any (fun t => decide (t < to_unsigned fv)) to_version = true
      · rw [if_pos ha] at h
        simp only [Except.ok.injEq] at h
        subst h; exact hs
      · rw [if_neg ha] at h
        simp only [Except.ok.injEq] at h
        subst h
        simp only
        split
        · exact set_insert_sorted _ _ hs
        · exact hs
  · rw [if_neg hn] at h
    simp only [Except.ok.injEq] at h
    subst h; exact hs

theorem scan_files_sorted (to_version next_from : Option Nat) :
    ∀ (l : List String) (state state1 : Nat × List String),
    scan_files to_version next_from state l = .ok state1 →
    state.2.Pairwise strings_lt → state1.2.Pairwise strings_lt := by
  intro l
  induction l with
  | nil =>
    intro state state1 h hs
    simp only [scan_files, Except.ok.injEq] at h
    subst h; exact hs
  | cons p rest ih =>
    intro state state1 h hs
    simp only [scan_files] at h
    cases hp : scan_file to_version next_from state p with
    | error e => rw [hp] at h; simp at h
    | ok state2 =>
      rw [hp] at h
      exact ih state2 state1 h (scan_file_sorted _ _ _ _ _ hp hs)

theorem file_version_padded (dir : String) (v : Nat) (hv : v < 2 ^ 63) :
    file_version (dir ++ "/" ++ zero_pad v ++ ".json") = .ok (v : Int) := by
  unfold file_version
  rw [String.append_assoc (dir ++ "/"), filename_child _ _ (commit_name_no_slash v)]
  have hlen : (zero_pad v ++ ".json").data.length = 25 := by
    rw [String.data_append, List.length_append, zero_pad_length]; rfl
  have htake : (zero_pad v ++ ".json").data.take 20 = (zero_pad v).data := by
    rw [String.data_append, List.take_left' (zero_pad_length v)]
  simp only [hlen, show ¬ (25 < 5) by norm_num, if_false, show 25 - 5 = 20 by norm_num, htake]
  have h20 : v < 10 ^ 20 := lt_of_lt_of_le hv (by norm_num)
  have hval := zero_pad_value v h20
  have hne : (zero_pad v).data ≠ [] := by
    intro h; have := zero_pad_length v; rw [h] at this; simp at this
  rw [stol_digits _ hne (zero_pad_digits v) (by rw [hval]; exact hv), hval]

theorem file_version_padded_large (dir : String) (v : Nat) (hv : 2 ^ 63 ≤ v)
    (h64 : v < 2 ^ 64) :
    file_version (dir ++ "/" ++ zero_pad v ++ ".json") = .error "stol: out_of_range" := by
  unfold file_version
  rw [String.append_assoc (dir ++ "/"), filename_child _ _ (commit_name_no_slash v)]
  have hlen : (zero_pad v ++ ".json").data.length = 25 := by
    rw [String.data_append, List.length_append, zero_pad_length]; rfl
  have htake : (zero_pad v ++ ".json").data.take 20 = (zero_pad v).data := by
    rw [String.data_append, List.take_left' (zero_pad_length v)]
  simp only [hlen, show ¬ (25 < 5) by norm_num, if_false, show 25 - 5 = 20 by norm_num, htake]
  have hval := zero_pad_value v (lt_trans h64 (by norm_num))
  have hne : (zero_pad v).data ≠ [] := by
    intro h; have := zero_pad_length v; rw [h] at this; simp at this
  rw [stol_digits_out_of_range _ hne (zero_pad_digits v) (by rw [hval]; exact hv)]

/-! ## The rows of a checkpoint table -/

theorem checkpoint_row_eq (a : action) : checkpoint_row a = action_row a := by
  cases a <;> rfl

theorem checkpoint_table_eq (actions : List action) (v : Nat) :
    checkpoint_table actions v = actions.map action_row ++ [version_row v] := by
  unfold checkpoint_table
  congr 1
  exact List.map_congr_left (fun a _ => checkpoint_row_eq a)

theorem is_set_action_row (a : action) :
    schema_fields.map (action_row a).is_set =
      schema_fields.map (fun field => decide (field = a.action_name)) := by
  cases a <;> rfl

/-! ## The replace interface of the model replaces by tag -/

theorem as_replace_action_protocol (x : action) (h : x.action_name = "protocol") :
    ∃ r, as_replace_action x = some r ∧
      ∀ a, r.replaces a = decide (a.action_name = "protocol") := by
  cases x with
  | protocol p => exact ⟨_, rfl, fun a => by cases a <;> rfl⟩
  | metadata m => simp [action.action_name] at h
  | add m => simp [action.action_name] at h
  | branch m => simp [action.action_name] at h
  | tensor m => simp [action.action_name] at h

theorem as_replace_action_metadata (x : action) (h : x.action_name = "metadata") :
    ∃ r, as_replace_action x = some r ∧
      ∀ a, r.replaces a = decide (a.action_name = "metadata") := by
  cases x with
  | metadata p => exact ⟨_, rfl, fun a => by cases a <;> rfl⟩
  | protocol m => simp [action.action_name] at h
  | add m => simp [action.action_name] at h
  | branch m => simp [action.action_name] at h
  | tensor m => simp [action.action_name] at h

theorem as_replace_action_same_tag (x : action) (r : replace_action) (a y : action)
    (hx : as_replace_action x = some r) (ha : r.replaces a = true) (hy : r.replace a = some y) :
    y.action_name = a.action_name := by
  cases x with
  | protocol p =>
    simp only [as_replace_action, Option.some.injEq] at hx
    subst hx
    simp only [Option.some.injEq] at hy
    subst hy
    cases a <;> simp at ha
    rfl
  | metadata m =>
    simp only [as_replace_action, Option.some.injEq] at hx
    subst hx
    simp only [Option.some.injEq] at hy
    subst hy
    cases a <;> simp at ha
    rfl
  | add m => simp [as_replace_action] at hx
  | branch m => simp [as_replace_action] at hx
  | tensor m => simp [as_replace_action] at hx

/-! ## The text of a commit -/

theorem json_string_action_name (a : action) :
    json_string a.action_name = "\x22" ++ a.action_name ++ "\x22" := by
  cases a <;> rfl

theorem json_object_single (key value : String) :
    json_object [(key, value)] = "\x7b" ++ json_string key ++ ":" ++ value ++ "\x7d" := by
  apply String.ext
  simp [json_object, insert_member, json_members, String.data_append]

theorem json_object_action (a : action) :
    json_object [(a.action_name, a.to_json)] =
      "\x7b\x22" ++ a.action_name ++ "\x22:" ++ a.to_json ++ "\x7d" := by
  rw [json_object_single, json_string_action_name]
  apply String.ext
  simp [String.data_append]

theorem commit_buffer_data (actions : List action) :
    (commit_buffer actions).data = (actions.map (fun a =>
      ("\x7b\x22" ++ a.action_name ++ "\x22:" ++ a.to_json ++ "\x7d").data)).flatten := by
  unfold commit_buffer
  rw [commit_buffer_acc (fun a => json_object [(a.action_name, a.to_json)])]
  simp only [json_object_action]
  rfl

/-! ## The properties of the log -/

set_option maxRecDepth 100000

/-- C1, as the code behaves: on the storage after `create` (one commit on `_meta`),
`checkpoint("_meta")` writes the table and the pointer for version 1 and keeps the
commit file; reading through the checkpoint then returns the action list of the
checkpoint with the branch action of commit 1 appended a second time, while the
replay of commit 1 alone (the same storage without pointer and table) returns the
three initial actions.  The commit files up to the checkpoint version are read again
on top of the checkpoint table. -/
theorem checkpoint_read_duplicates_branch :
    checkpoint created_storage "_meta" = .ok
      { files := created_storage.files ++
          [(checkpoint_path "_meta" 1,
             .parquet ((initial_actions "ds" "br" 7).map action_row ++ [version_row 1])),
           (last_checkpoint_path "_meta", .last_checkpoint 1 3013)] } ∧
    get_actions
      { files := created_storage.files ++
          [(checkpoint_path "_meta" 1,
             .parquet ((initial_actions "ds" "br" 7).map action_row ++ [version_row 1])),
           (last_checkpoint_path "_meta", .last_checkpoint 1 3013)] } "_meta" none =
      .ok (initial_actions "ds" "br" 7 ++
        [.branch { id := "br", name := "main", from_branch := none, from_version := none }], 1) ∧
    get_actions created_storage "_meta" none = .ok (initial_actions "ds" "br" 7, 1) := by
  decide

/-- C2 fails as stated: on the storage after `create` the commit file of version 1 of
`_meta` exists and holds the three initial actions; `commit("_meta", 0, [protocol(5, 6)])`
targets the same file, returns, and replaces its content by the stream of the one
protocol action. -/
theorem commit_overwrites_existing_artifact :
    created_storage.file_exists (commit_path "_meta" 1) = true ∧
    created_storage.get_bytes (commit_path "_meta" 1) =
      some (.json_objects (commit_buffer (initial_actions "ds" "br" 7))
        (initial_actions "ds" "br" 7)) ∧
    (commit created_storage "_meta" 0 [protocol_5_6]).get_bytes (commit_path "_meta" 1) =
      some (.json_objects (commit_buffer [protocol_5_6]) [protocol_5_6]) := by
  decide

/-- C2, amended: `commit` tests nothing and has no failing path; whatever the storage
holds, after `commit(B, V, actions)` the file of version `V + 1` (an `unsigned long`
sum) of the branch holds exactly the stream of `actions`: the text of the buffer,
with the objects of the actions. -/
theorem commit_writes_target (s : storage) (branch_id : String) (base_version : Nat)
    (actions : List action) :
    (commit s branch_id base_version actions).get_bytes
        (commit_path branch_id ((base_version + 1) % 2 ^ 64)) =
      some (.json_objects (commit_buffer actions) actions) :=
  get_bytes_set_bytes_same _ _ _

/-- C3 fails as stated: on a branch with the commits 1, 2 and 3, `commit` with base
version 0 is accepted, and the version of the branch afterwards is 3, not 1. -/
theorem commit_below_tip_keeps_version :
    version three_commits_storage "b" = .ok 3 ∧
    version (commit three_commits_storage "b" 0 [add_my_path]) "b" = .ok 3 := by
  decide

/-- C3, amended: when the branch can be read and its version is at most the base
version `V` of the commit, with `V + 1` below `2 ^ 63`, the version of the branch after
`commit(B, V, actions)` is `V + 1`. -/
theorem commit_at_tip_advances_version (s : storage) (branch_id : String)
    (base_version tip : Nat) (actions : List action)
    (h : version s branch_id = .ok tip) (htip : tip ≤ base_version)
    (hv : base_version + 1 < 2 ^ 63) :
    version (commit s branch_id base_version actions) branch_id = .ok (base_version + 1) := by
  rw [commit_eq _ _ _ _ (lt_trans hv (by norm_num))]
  obtain ⟨tables, k, paths, rows, h1, h2, h3⟩ := version_ok s branch_id tip h
  have hnot : commit_path branch_id (base_version + 1) ∉ s.paths := by
    intro hmem
    have hl : commit_path branch_id (base_version + 1) ∈
        s.list_files ("/_deeplake_log/" ++ branch_id) :=
      (mem_list_files _ _ _).2 ⟨hmem, is_child_commit_path _ _⟩
    obtain ⟨fv, hf, hle⟩ := (scan_files_none_bounds (some 0) _ _ _ h2).2 _ hl
      (is_commit_name_commit_path _ _)
    rw [file_version_commit_path _ _ hv] at hf
    simp only [Except.ok.injEq] at hf
    subst hf
    rw [to_unsigned_natCast _ (lt_trans hv (by norm_num))] at hle
    simp only at hle
    omega
  have hlist : (s.set_bytes (commit_path branch_id (base_version + 1))
      (.json_objects (commit_buffer actions) actions)).list_files ("/_deeplake_log/" ++ branch_id) =
      s.list_files ("/_deeplake_log/" ++ branch_id) ++ [commit_path branch_id (base_version + 1)] := by
    rw [list_files_set_bytes, if_pos ⟨is_child_commit_path _ _, hnot⟩]
  have hscan : scan_files none (some 0) (k, [])
      ((s.set_bytes (commit_path branch_id (base_version + 1))
        (.json_objects (commit_buffer actions) actions)).list_files ("/_deeplake_log/" ++ branch_id)) =
      .ok (base_version + 1, set_insert (commit_path branch_id (base_version + 1)) paths) := by
    rw [hlist, scan_files_append, h2]
    simp only [scan_files, scan_file_commit_path none 0 (tip, paths) branch_id _ hv]
    simp only [within_bound, Option.all_none, if_true, Nat.zero_le]
    rw [if_pos (by omega)]
  have hparse : ∃ rows1, parse_files (s.set_bytes (commit_path branch_id (base_version + 1))
      (.json_objects (commit_buffer actions) actions)) (set_insert (commit_path branch_id (base_version + 1)) paths) =
      .ok rows1 := by
    rw [parse_files_ok_iff]
    intro p hp
    rcases (set_insert_mem _ _ _).1 hp with e | e
    · subst e
      exact ⟨_, actions, get_bytes_set_bytes_same _ _ _⟩
    · have hold := (parse_files_ok_iff s paths).1 ⟨rows, h3⟩ p e
      have hin : p ∈ s.paths := by
        rcases scan_files_paths none _ _ _ h2 p e with h4 | h4
        · simp at h4
        · exact ((mem_list_files _ _ _).1 h4).1
      have hne : p ≠ commit_path branch_id (base_version + 1) := fun e2 => hnot (e2 ▸ hin)
      rw [get_bytes_set_bytes_ne _ _ _ _ hne]
      exact hold
  obtain ⟨rows1, hrows1⟩ := hparse
  exact version_of_parts _ branch_id tables k _ _ rows1
    (by rw [load_checkpoint_set_commit]; exact h1) hscan hrows1

/-- Witness of C3, amended: the commit of the test `commit_protocol`, at base version 1
on the storage after `create`, where the version of `_meta` is 1. -/
theorem commit_at_tip_advances_version_witness :
    version created_storage "_meta" = .ok 1 ∧
    version (commit created_storage "_meta" 1 [protocol_5_6]) "_meta" = .ok 2 :=
  ⟨by decide,
   commit_at_tip_advances_version created_storage "_meta" 1 1 _ (by decide) (le_refl _)
     (by norm_num)⟩

/-- C4 fails as stated: after `create`, where the version of `_meta` is 1, `commit`
with base version 5 is accepted and writes the file of version 6; the commit files of
`_meta` are then those of the versions 1 and 6, which are no range `1..n`. -/
theorem commit_off_tip_leaves_gap :
    version created_storage "_meta" = .ok 1 ∧
    commit_files (commit created_storage "_meta" 5 [branch1]) "_meta" =
      [commit_path "_meta" 1, commit_path "_meta" 6] ∧
    ¬ ∃ n, contiguous (commit created_storage "_meta" 5 [branch1]) "_meta" n := by
  refine ⟨by decide, by decide, ?_⟩
  rintro ⟨n, hn⟩
  have hfiles : commit_files (commit created_storage "_meta" 5 [branch1]) "_meta" =
      [commit_path "_meta" 1, commit_path "_meta" 6] := by decide
  have h6 : commit_path "_meta" 6 ∈ commit_files (commit created_storage "_meta" 5 [branch1]) "_meta" := by
    rw [hfiles]; simp
  obtain ⟨v, _, hvn, e⟩ := (hn _).1 h6
  have h2 : commit_path "_meta" 2 ∈ commit_files (commit created_storage "_meta" 5 [branch1]) "_meta" := by
    refine (hn _).2 ⟨2, by norm_num, ?_, rfl⟩
    rcases Nat.lt_or_ge v 2 with hlt | hge
    · have hv1 : v = 1 := by omega
      rw [hv1] at e
      exact absurd e (by decide)
    · omega
  rw [hfiles] at h2
  exact absurd h2 (by decide)

/-- C4, amended: in every storage state reached from `create` on the empty storage by
commits whose base version is the version of the branch at that moment, the commit
files of every branch are exactly those of the versions `1..n` for some `n`, and `n`
is the version of the branch whenever the branch can be read. -/
theorem tip_commits_keep_versions_contiguous (s : storage) (branch_id : String)
    (h : tip_reachable s) :
    ∃ n, contiguous s branch_id n ∧ ∀ tip, version s branch_id = .ok tip → tip = n := by
  obtain ⟨hs, hall⟩ := tip_reachable_invariant s h
  obtain ⟨n, hn, hc⟩ := hall branch_id
  exact ⟨n, hc, fun tip ht => (version_contiguous s branch_id n tip hs hn hc ht).1⟩

/-- Witness of C4, amended: the storage after `create` and one commit at the tip of
`_meta`. -/
theorem tip_commits_keep_versions_contiguous_witness :
    tip_reachable two_commits_storage ∧
    ∃ n, contiguous two_commits_storage "_meta" n ∧
      ∀ tip, version two_commits_storage "_meta" = .ok tip → tip = n :=
  have hr : tip_reachable two_commits_storage :=
    tip_reachable.committed created_storage "_meta" 1 [branch1]
      (tip_reachable.created "ds" "br" 7 created_storage rfl) (by decide)
  ⟨hr, tip_commits_keep_versions_contiguous two_commits_storage "_meta" hr⟩

/-- C5, as the code behaves: the storage with two commits on `_meta` and the same
storage after `checkpoint("_meta")` (table and pointer at version 2) hold the same
commit files; read with bound 1, the first gives the three actions of commit 1 and
version 1, the second gives version 2 and a list with the branch action of commit 2.
The checkpoint is loaded whatever the bound of the read is. -/
theorem checkpoint_above_bound_changes_read :
    checkpoint two_commits_storage "_meta" = .ok
      { files := two_commits_storage.files ++
          [(checkpoint_path "_meta" 2,
             .parquet ((initial_actions "ds" "br" 7 ++ [branch1]).map action_row ++
               [version_row 2])),
           (last_checkpoint_path "_meta", .last_checkpoint 2 3013)] } ∧
    get_actions two_commits_storage "_meta" (some 1) = .ok (initial_actions "ds" "br" 7, 1) ∧
    get_actions
      { files := two_commits_storage.files ++
          [(checkpoint_path "_meta" 2,
             .parquet ((initial_actions "ds" "br" 7 ++ [branch1]).map action_row ++
               [version_row 2])),
           (last_checkpoint_path "_meta", .last_checkpoint 2 3013)] } "_meta" (some 1) =
      .ok (initial_actions "ds" "br" 7 ++ [branch1,
        .branch { id := "br", name := "main", from_branch := none, from_version := none }], 2) := by
  decide

/-- C7: for all numbers `r` and `w` (in particular all 32-bit values), after `create`
on the empty storage and `commit("_meta", 1, [protocol(r, w)])` the action list of
`_meta` is `protocol(r, w)`, the initial metadata action and the initial branch
action: its only protocol action is `protocol(r, w)`, which took the place of
`protocol(4, 4)`. -/
theorem committed_protocol_replaces_initial (r w : Nat) (metadata_id branch_id : String)
    (now : Int) :
    ∃ s actions, create storage.empty 4 metadata_id branch_id now = (.ok .deeplog, s) ∧
      get_actions (commit s META_BRANCH_ID 1
          [.protocol { min_reader_version := r, min_writer_version := w }])
        META_BRANCH_ID none = .ok (actions, 2) ∧
      actions = [.protocol { min_reader_version := r, min_writer_version := w },
              .metadata { id := metadata_id, name := none, description := none,
                          created_time := now },
              .branch { id := branch_id, name := "main", from_branch := none,
                        from_version := none }] ∧
      protocols actions = [{ min_reader_version := r, min_writer_version := w }] :=
  ⟨_, _, rfl, rfl, rfl, rfl⟩

/-- C8: after `create` with log format 4 on the empty storage the version of `_meta`
is 1, and `open` on the resulting storage returns a log of format 4, which reads the
same storage. -/
theorem version_meta_after_create (metadata_id branch_id : String) (now : Int) :
    ∃ s, create storage.empty 4 metadata_id branch_id now = (.ok .deeplog, s) ∧
      version s META_BRANCH_ID = .ok 1 ∧ open_log s = .ok .deeplog :=
  ⟨_, rfl, rfl, rfl⟩

/-- C9: when the first commit file of `_meta` or the pointer file of `_meta` exists, or
when the storage is the one a successful `create` with log format 4 has left,
`create` with log format 4 throws "DeepLake config already exists" and leaves the
storage as it was: no file is written, removed or changed. -/
theorem create_rejects_initialized (s : storage) (metadata_id branch_id : String) (now : Int)
    (h : s.file_exists (commit_path META_BRANCH_ID 1) = true ∨
      s.file_exists (last_checkpoint_path META_BRANCH_ID) = true ∨
      ∃ s0 id1 id2 t, create s0 4 id1 id2 t = (.ok .deeplog, s)) :
    create s 4 metadata_id branch_id now = (.error "DeepLake config already exists", s) := by
  have hex : s.file_exists (commit_path META_BRANCH_ID 1) = true ∨
      s.file_exists (last_checkpoint_path META_BRANCH_ID) = true := by
    rcases h with h | h | ⟨s0, id1, id2, t, h⟩
    · exact Or.inl h
    · exact Or.inr h
    · left
      unfold create at h
      simp only [show ¬ ((4 : Int) < 3) by norm_num, show ¬ ((4 : Int) = 3) by norm_num,
        if_false] at h
      split at h
      · simp at h
      · simp only [Prod.mk.injEq, true_and] at h
        rw [← h, commit_eq _ _ _ _ (by norm_num)]
        exact file_exists_set_bytes_self _ _ _
  unfold create
  simp only [show ¬ ((4 : Int) < 3) by norm_num, show ¬ ((4 : Int) = 3) by norm_num, if_false]
  have h1 : "/_deeplake_log/" ++ META_BRANCH_ID ++ "/" ++ zero_pad 1 ++ ".json" =
      commit_path META_BRANCH_ID 1 := rfl
  have h2 : "/_deeplake_log/" ++ META_BRANCH_ID ++ "/_last_checkpoint.json" =
      last_checkpoint_path META_BRANCH_ID := rfl
  rw [h1, h2]
  rcases hex with h | h
  · simp [h]
  · simp [h]

/-- Witness of C9: a second `create` on the storage a first `create` has left; the
storage after the second call is still the one of the first. -/
theorem create_rejects_initialized_witness :
    create storage.empty 4 "ds" "br" 7 = (.ok .deeplog, created_storage) ∧
    create created_storage 4 "ds2" "br2" 8 =
      (.error "DeepLake config already exists", created_storage) :=
  ⟨rfl, create_rejects_initialized created_storage "ds2" "br2" 8
    (Or.inr (Or.inr ⟨storage.empty, "ds", "br", 7, rfl⟩))⟩

/-- C10: after `create` with log format 4 on the empty storage the action list of
`_meta` is, in this order, `protocol(4, 4)`, the metadata action without name and
description and the branch action `main` without origin, at version 1; every other
branch, the main branch among them (its id is generated, so it is not `_meta`), has
version 0 and an empty action list, hence no data file. -/
theorem initial_actions_after_create (metadata_id main_id : String) (now : Int)
    (branch_id : String) (to_version : Option Nat) (h : branch_id ≠ META_BRANCH_ID) :
    ∃ s, create storage.empty 4 metadata_id main_id now = (.ok .deeplog, s) ∧
      get_actions s META_BRANCH_ID none =
        .ok ([.protocol { min_reader_version := 4, min_writer_version := 4 },
              .metadata { id := metadata_id, name := none, description := none,
                          created_time := now },
              .branch { id := main_id, name := "main", from_branch := none,
                        from_version := none }], 1) ∧
      version s branch_id = .ok 0 ∧
      get_actions s branch_id to_version = .ok ([], 0) := by
  refine ⟨_, create_empty metadata_id main_id now, rfl, ?_, ?_⟩
  · exact version_represents _ _ _ (represents_other_after_create metadata_id main_id now _ h)
  · exact get_actions_represents _ _ _ to_version
      (represents_other_after_create metadata_id main_id now _ h)

/-- Witness of C10: the main branch `"br"` of the storage after `create`, read at
version 0 as in the test `create`. -/
theorem initial_actions_after_create_witness :
    ∃ s, create storage.empty 4 "ds" "br" 7 = (.ok .deeplog, s) ∧
      get_actions s META_BRANCH_ID none =
        .ok ([.protocol { min_reader_version := 4, min_writer_version := 4 },
              .metadata { id := "ds", name := none, description := none, created_time := 7 },
              .branch { id := "br", name := "main", from_branch := none,
                        from_version := none }], 1) ∧
      version s "br" = .ok 0 ∧
      get_actions s "br" (some 0) = .ok ([], 0) :=
  initial_actions_after_create "ds" "br" 7 "br" (some 0) (by decide)

/-- C11: `open` returns a log of format 4 exactly when the first commit file of `_meta`
or the pointer file of `_meta` exists, whether or not `/dataset_meta.json` exists; it
returns a v3 log exactly when neither exists and `/dataset_meta.json` exists; and it
fails with "Cannot determine log format" exactly when none of the three paths
exists. -/
theorem open_chooses_format (s : storage) :
    (open_log s = .ok .deeplog ↔
      (s.file_exists (commit_path META_BRANCH_ID 1) = true ∨
        s.file_exists (last_checkpoint_path META_BRANCH_ID) = true)) ∧
    (open_log s = .ok .deeplog_v3 ↔
      (s.file_exists (commit_path META_BRANCH_ID 1) = false ∧
        s.file_exists (last_checkpoint_path META_BRANCH_ID) = false ∧
        s.file_exists "/dataset_meta.json" = true)) ∧
    (open_log s = .error "Cannot determine log format" ↔
      (s.file_exists (commit_path META_BRANCH_ID 1) = false ∧
        s.file_exists (last_checkpoint_path META_BRANCH_ID) = false ∧
        s.file_exists "/dataset_meta.json" = false)) := by
  rw [open_log_eq]
  cases s.file_exists (commit_path META_BRANCH_ID 1) <;>
    cases s.file_exists (last_checkpoint_path META_BRANCH_ID) <;>
    cases s.file_exists "/dataset_meta.json" <;> simp

/-- C12: on a branch without checkpoint whose commit files are those of a list of
commits (the commits `1..V` in particular), `checkpoint` succeeds, and after the
deletion of every `.json` file of the branch other than the pointer,
`get_actions(B, none)` returns the version and the action list it returned before the
checkpoint. -/
theorem checkpoint_survives_deletion (s : storage) (branch_id : String)
    (commits : List (Nat × List action))
    (hrep : represents s branch_id { checkpoint := none, commits := commits }) :
    ∃ s1 actions, checkpoint s branch_id = .ok s1 ∧
      get_actions s branch_id none = .ok (actions, (max_version 0 commits : Int)) ∧
      get_actions (delete_json_files s1 branch_id) branch_id none =
        .ok (actions, (max_version 0 commits : Int)) := by
  obtain ⟨s1, hck, h1, h2⟩ := checkpoint_written s branch_id _ hrep
  have hlt : max_version 0 commits < 2 ^ 63 :=
    max_version_lt 0 _ commits (by norm_num) hrep.2.2.1
  have hrep2 := represents_delete_json_files s1 branch_id _ _ _
    (lt_trans hlt (by norm_num)) h1 h2
  refine ⟨s1, fold_actions as_replace_action [] (commits.flatMap (fun c => c.2)), hck, ?_, ?_⟩
  · rw [get_actions_represents s branch_id _ none hrep, selected_commits_none]
    simp only [branch_state.checkpoint_version]
    rw [to_long_of_lt _ hlt]
    rfl
  · rw [get_actions_represents _ branch_id _ none hrep2]
    simp only [branch_state.checkpoint_rows, branch_state.checkpoint_version,
      selected_commits_none, List.flatMap_nil, List.append_nil, table_actions_append,
      table_actions_action_rows, table_actions_version_row, max_version, List.foldl_nil]
    have e : table_actions ([] : Table) = [] := rfl
    have e2 : List.foldl (fun h (c : Nat × List action) => max h c.1) 0 commits =
        max_version 0 commits := rfl
    rw [e, List.nil_append, fold_actions_idempotent, e2, to_long_of_lt _ hlt]

/-- Witness of C12: the storage after `create` and two metadata commits on `_meta`, as
in the test `checkpoint`. -/
theorem checkpoint_survives_deletion_witness :
    ∃ s1 actions, checkpoint metadata_commits_storage "_meta" = .ok s1 ∧
      get_actions metadata_commits_storage "_meta" none = .ok (actions, 3) ∧
      get_actions (delete_json_files s1 "_meta") "_meta" none = .ok (actions, 3) :=
  checkpoint_survives_deletion metadata_commits_storage "_meta" _
    represents_metadata_commits_storage

/-- C13: after `create` on the empty storage and the commits of the metadata actions
`m_1, ..., m_n` (`n` at least 1), one per commit at the base versions `1, ..., n`,
`checkpoint("_meta")` succeeds and the table it writes for version `n + 1` has exactly
one metadata cell that is not null, the cell of `m_n`. -/
theorem checkpoint_keeps_last_metadata (ms : List metadata_action) (hne : ms ≠ [])
    (hlen : ms.length + 1 < 2 ^ 63) (metadata_id main_id : String) (now : Int) :
    ∃ s s1 table, create storage.empty 4 metadata_id main_id now = (.ok .deeplog, s) ∧
      checkpoint (commit_each s META_BRANCH_ID 1 (ms.map (fun m => [.metadata m])))
        META_BRANCH_ID = .ok s1 ∧
      s1.get_bytes (checkpoint_path META_BRANCH_ID (ms.length + 1)) = some (.parquet table) ∧
      metadata_cells table = [ms.getLast hne] := by
  have hrep := represents_commit_each META_BRANCH_ID (ms.map (fun m => [action.metadata m])) _ _ 1
    (represents_after_create metadata_id main_id now) (by simp)
    (by simp only [List.length_map]; omega)
  have hv : max_version 0 ([(1, initial_actions metadata_id main_id now)] ++
      number_commits (1 + 1) (ms.map (fun m => [action.metadata m]))) = ms.length + 1 := by
    have e : max_version 0 ([(1, initial_actions metadata_id main_id now)] ++
        number_commits (1 + 1) (ms.map (fun m => [action.metadata m]))) =
        max_version 1 (number_commits (1 + 1) (ms.map (fun m => [action.metadata m]))) := rfl
    rw [e, max_version_number_commits, List.length_map, Nat.add_comm]
  obtain ⟨s1, hck, _, h2⟩ := checkpoint_written _ META_BRANCH_ID _ hrep
  simp only [branch_state.checkpoint_version, hv] at h2
  refine ⟨_, s1, _, create_empty metadata_id main_id now, hck, h2, ?_⟩
  rw [metadata_cells_checkpoint_table]
  simp only [branch_state.checkpoint_rows, List.flatMap_append, number_commits_flatMap,
    flatten_singletons]
  have hms : ms.map action.metadata =
      ms.dropLast.map action.metadata ++ [action.metadata (ms.getLast hne)] := by
    conv_lhs => rw [← List.dropLast_append_getLast hne]
    simp
  rw [hms]
  have := metas_fold_last []
    (table_actions [] ++ [(1, initial_actions metadata_id main_id now)].flatMap (fun c => c.2) ++
      ms.dropLast.map action.metadata) [] (ms.getLast hne) (by simp [metas]) rfl
  simpa [List.append_assoc] using this

/-- Witness of C13: the two metadata commits of the test
`checkpoint_collapses_actions`. -/
theorem checkpoint_keeps_last_metadata_witness :
    ∃ s s1 table, create storage.empty 4 "ds" "br" 7 = (.ok .deeplog, s) ∧
      checkpoint (commit_each s META_BRANCH_ID 1
        ([metadata_first, metadata_final].map (fun m => [.metadata m]))) META_BRANCH_ID = .ok s1 ∧
      s1.get_bytes (checkpoint_path META_BRANCH_ID 3) = some (.parquet table) ∧
      metadata_cells table = [metadata_final] :=
  checkpoint_keeps_last_metadata [metadata_first, metadata_final] (by simp) (by norm_num)
    "ds" "br" 7

/-- C14: for every version `v` below `2 ^ 64`, `zero_pad(v)` has exactly 20 characters,
each a decimal digit, and the decimal value of these digits is `v`; the file name of
the commit file of `v` is these 20 digits followed by `.json` and the file name of the
checkpoint table of `v` is these 20 digits followed by `.checkpoint.parquet`. -/
theorem zero_pad_twenty_digits (v : Nat) (branch_id : String) (hv : v < 2 ^ 64) :
    (zero_pad v).data.length = 20 ∧
    (∀ c ∈ (zero_pad v).data, c.isDigit = true) ∧
    digits_value (zero_pad v).data = v ∧
    filename (commit_path branch_id v) = (zero_pad v).data ++ ".json".data ∧
    filename (checkpoint_path branch_id v) =
      (zero_pad v).data ++ ".checkpoint.parquet".data := by
  refine ⟨zero_pad_length v, ?_, zero_pad_value v (lt_trans hv (by norm_num)), ?_, ?_⟩
  · intro c hc
    obtain ⟨d, hd, rfl⟩ := zero_pad_digits v c hc
    exact digit_char_isDigit d hd
  · rw [commit_path_child, filename_child _ _ (commit_name_no_slash v)]
    rfl
  · have e : checkpoint_path branch_id v =
        ("/_deeplake_log/" ++ branch_id) ++ "/" ++ (zero_pad v ++ ".checkpoint.parquet") := by
      simp only [checkpoint_path, String.append_assoc]
    have hno : '/' ∉ (zero_pad v ++ ".checkpoint.parquet").data := by
      simp only [String.data_append, List.mem_append, not_or]
      exact ⟨fun h => digit_ne_slash _ (zero_pad_digits v _ h) rfl, by decide⟩
    rw [e, filename_child _ _ hno]
    rfl

/-- Witness of C14: the greatest 64-bit version. -/
theorem zero_pad_twenty_digits_witness :
    (zero_pad 18446744073709551615).data.length = 20 ∧
    (∀ c ∈ (zero_pad 18446744073709551615).data, c.isDigit = true) ∧
    digits_value (zero_pad 18446744073709551615).data = 18446744073709551615 ∧
    filename (commit_path "_meta" 18446744073709551615) =
      (zero_pad 18446744073709551615).data ++ ".json".data ∧
    filename (checkpoint_path "_meta" 18446744073709551615) =
      (zero_pad 18446744073709551615).data ++ ".checkpoint.parquet".data :=
  zero_pad_twenty_digits 18446744073709551615 "_meta" (by norm_num)

/-- C15 fails as stated: on the storage after `create`, `commit("_meta", 2^63 - 1, ...)`
is accepted and writes the commit file of version `2 ^ 63`; the commit files of `_meta`
are then those of the versions 1 and `2 ^ 63`, so the tip is `2 ^ 63`, and
`get_actions("_meta", 2^63)` returns no version: it throws, `std::stol` having no
`long` for the number of the file name. -/
theorem get_actions_fails_at_tip_two_pow_63 :
    commit_files (commit created_storage "_meta" 9223372036854775807 [branch1]) "_meta" =
      [commit_path "_meta" 1, commit_path "_meta" 9223372036854775808] ∧
    get_actions (commit created_storage "_meta" 9223372036854775807 [branch1]) "_meta"
      (some 9223372036854775808) = .error "stol: out_of_range" := by
  decide

/-- C15, amended: on a branch whose commit files are those of a list of commits with
versions below `2 ^ 63` (the bound is part of `represents` and is repeated as a
hypothesis), with or without a checkpoint whose version is at most the highest commit
version `V`, `get_actions(B, V)` returns the version `V`. -/
theorem version_at_tip (s : storage) (branch_id : String) (st : branch_state)
    (hrep : represents s branch_id st)
    (hbound : ∀ c ∈ st.commits, c.1 < 2 ^ 63)
    (hk : st.checkpoint_version ≤ max_version 0 st.commits) :
    ∃ actions, get_actions s branch_id (some (max_version 0 st.commits)) =
      .ok (actions, (max_version 0 st.commits : Int)) := by
  have h := get_actions_represents s branch_id st (some (max_version 0 st.commits)) hrep
  rw [selected_commits_tip, max_version_eq_max st.checkpoint_version, max_eq_right hk,
    to_long_of_lt _ (max_version_lt 0 _ _ (by norm_num) hbound)] at h
  exact ⟨_, h⟩

/-- Witness of C15, amended: the storage after `create` and `checkpoint("_meta")`, which
holds commit 1 and a checkpoint at version 1. -/
theorem version_at_tip_witness :
    ∃ actions, get_actions checkpointed_storage "_meta" (some 1) = .ok (actions, 1) :=
  version_at_tip checkpointed_storage "_meta"
    { checkpoint := some (1, (initial_actions "ds" "br" 7).map action_row ++ [version_row 1]),
      commits := [(1, initial_actions "ds" "br" 7)] }
    ⟨⟨by norm_num, ⟨3013, by decide⟩, by decide⟩, by simp, by simp,
      by
        intro p
        have e : commit_files checkpointed_storage "_meta" = [commit_path "_meta" 1] := by decide
        rw [e]
        simp,
      by
        intro c hc
        simp only [List.mem_singleton] at hc
        subst hc
        exact ⟨commit_buffer (initial_actions "ds" "br" 7), by decide⟩⟩
    (by simp)
    (le_refl _)

/-- C16: on a branch without commit file and without pointer file, in particular a
branch whose directory does not exist, `version` returns 0 and `get_actions(B, none)`
returns the empty action list. -/
theorem empty_branch_reads_empty (s : storage) (branch_id : String)
    (h1 : commit_files s branch_id = [])
    (h2 : s.file_exists (last_checkpoint_path branch_id) = false) :
    version s branch_id = .ok 0 ∧ get_actions s branch_id none = .ok ([], 0) :=
  ⟨version_represents s branch_id _ (represents_of_no_files s branch_id h1 h2),
   get_actions_represents s branch_id _ none (represents_of_no_files s branch_id h1 h2)⟩

/-- Witness of C16: the main branch `"br"` after `create`, as in the test `version`;
its directory does not exist. -/
theorem empty_branch_reads_empty_witness :
    created_storage.file_exists "/_deeplake_log/br" = false ∧
    version created_storage "br" = .ok 0 ∧ get_actions created_storage "br" none = .ok ([], 0) :=
  ⟨by decide, empty_branch_reads_empty created_storage "br" (by decide) (by decide)⟩

/-- C17: on a branch without checkpoint whose commit files are those of a list of
commits with versions up to `V`, the data files of the snapshot at `V` are the add
actions of these commits, each once, in the order of the commits and, within a
commit, in the order of its actions. -/
theorem data_files_are_the_add_actions (s : storage) (branch_id : String)
    (commits : List (Nat × List action)) (v : Nat)
    (hrep : represents s branch_id { checkpoint := none, commits := commits })
    (hv : ∀ c ∈ commits, c.1 ≤ v) :
    snapshot.data_files { branch_id := branch_id, version := some v } s =
      .ok (find_add_file_actions (commits.flatMap (fun c => c.2))) := by
  unfold snapshot.data_files
  simp only
  rw [get_actions_represents s branch_id _ _ hrep]
  simp only [selected_commits_all commits v hv, add_of_fold, branch_state.checkpoint_rows]
  simp [find_add_file_actions, table_actions]

/-- Witness of C17: the commit of one add action at base version 0 on the main branch,
as in the test `commit_add_file`; the snapshot at version 1 lists exactly this file. -/
theorem data_files_are_the_add_actions_witness :
    snapshot.data_files { branch_id := "br", version := some 1 } add_file_storage =
      .ok [{ path := "my/path", type := "chunk", size := 3, modification_time := 45,
             data_file := true, num_samples := 3 }] :=
  data_files_are_the_add_actions add_file_storage "br" [(1, [add_my_path])] 1
    (represents_commit created_storage "br" { checkpoint := none, commits := [] } 0
      [add_my_path] (represents_other_after_create "ds" "br" 7 "br" (by decide)) (by simp)
      (by norm_num))
    (by simp)

/-- C18, as the code behaves: on the storage after `create`, a first
`checkpoint("_meta")` writes the table of the three initial actions and the version
row 1; a second `checkpoint("_meta")` right after it writes, for the same version 1, a
table with four action rows, the branch action being there twice.  The second call
reads the first table and then commit 1 again. -/
theorem second_checkpoint_duplicates_branch :
    checkpoint created_storage "_meta" = .ok checkpointed_storage ∧
    checkpointed_storage.get_bytes (checkpoint_path "_meta" 1) =
      some (.parquet ((initial_actions "ds" "br" 7).map action_row ++ [version_row 1])) ∧
    (∃ s2, checkpoint checkpointed_storage "_meta" = .ok s2 ∧
      s2.get_bytes (checkpoint_path "_meta" 1) =
        some (.parquet ((initial_actions "ds" "br" 7 ++
          [action.branch { id := "br", name := "main", from_branch := none,
                           from_version := none }]).map action_row ++ [version_row 1]))) := by
  refine ⟨by decide, by decide, _, rfl, by decide⟩

/-- C19: for every base version `V` below `2 ^ 64 - 1`, `commit(B, V, actions)` writes
the commit file of version `V + 1` of the branch, which then holds the actions (the
text of the buffer, with the objects of the actions), and
changes no other path: every other path has the content it had, and the stored paths
are the former ones and the written one. -/
theorem commit_writes_one_path (s : storage) (branch_id : String) (base_version : Nat)
    (actions : List action) (hv : base_version < 2 ^ 64 - 1) :
    (commit s branch_id base_version actions).get_bytes
        (commit_path branch_id (base_version + 1)) =
      some (.json_objects (commit_buffer actions) actions) ∧
    (∀ q, q ≠ commit_path branch_id (base_version + 1) →
      (commit s branch_id base_version actions).get_bytes q = s.get_bytes q) ∧
    (∀ q, q ∈ (commit s branch_id base_version actions).paths ↔
      q ∈ s.paths ∨ q = commit_path branch_id (base_version + 1)) := by
  rw [commit_eq _ _ _ _ (by omega)]
  exact ⟨get_bytes_set_bytes_same _ _ _, fun q hq => get_bytes_set_bytes_ne _ _ _ _ hq,
    fun q => mem_paths_set_bytes _ _ _ _⟩

/-- Witness of C19: the commit of the test `commit_create_branch` at base version 1. -/
theorem commit_writes_one_path_witness :
    (commit created_storage "_meta" 1 [branch1]).get_bytes (commit_path "_meta" 2) =
      some (.json_objects (commit_buffer [branch1]) [branch1]) ∧
    (∀ q, q ≠ commit_path "_meta" 2 →
      (commit created_storage "_meta" 1 [branch1]).get_bytes q = created_storage.get_bytes q) ∧
    (∀ q, q ∈ (commit created_storage "_meta" 1 [branch1]).paths ↔
      q ∈ created_storage.paths ∨ q = commit_path "_meta" 2) :=
  commit_writes_one_path created_storage "_meta" 1 [branch1] (by norm_num)

/-- C20: for every storage, branch, base version and action list, the text `commit`
writes to the commit file is the concatenation, in the order of the actions and with
nothing between or around them, of the texts of the JSON objects with the one key
`action_name()` and the value `to_json()`, each of them an opening brace, the key
between quotation marks, a colon, the text of the value and a closing brace; the first
character of the file is never `[` (it is the opening brace when there is an action),
and the file is empty when the list of actions is empty. -/
theorem commit_writes_object_stream (s : storage) (branch_id : String) (base_version : Nat)
    (actions : List action) :
    ∃ text, (commit s branch_id base_version actions).get_bytes
        (commit_path branch_id ((base_version + 1) % 2 ^ 64)) =
        some (.json_objects text actions) ∧
      text.data = (actions.map (fun a =>
        ("\x7b\x22" ++ a.action_name ++ "\x22:" ++ a.to_json ++ "\x7d").data)).flatten ∧
      text.data.head? ≠ some '[' ∧
      (actions ≠ [] → text.data.head? = some '\x7b') ∧
      (actions = [] → text = "") := by
  refine ⟨commit_buffer actions, get_bytes_set_bytes_same _ _ _, commit_buffer_data actions,
    ?_, ?_, ?_⟩
  · rw [commit_buffer_data]
    cases actions with
    | nil => simp
    | cons a rest => simp [String.data_append]
  · intro hne
    rw [commit_buffer_data]
    cases actions with
    | nil => exact absurd rfl hne
    | cons a rest => simp [String.data_append]
  · intro h
    rw [h]
    rfl

/-- Witness of C20: the commit of `create`, as in the test `create`: the first commit
file of `_meta` holds the objects with the keys `protocol`, `metadata` and `branch`,
one after the other, and does not start with `[`. -/
theorem commit_writes_object_stream_witness :
    ∃ text, (commit storage.empty "_meta" 0 (initial_actions "ds" "br" 7)).get_bytes
        (commit_path "_meta" 1) = some (.json_objects text (initial_actions "ds" "br" 7)) ∧
      text = "\x7b\x22protocol\x22:\x7b\x22min_reader_version\x22:4,\x22min_writer_version\x22:4\x7d\x7d" ++
        "\x7b\x22metadata\x22:\x7b\x22created_time\x22:7,\x22description\x22:null," ++
        "\x22id\x22:\x22ds\x22,\x22name\x22:null\x7d\x7d" ++
        "\x7b\x22branch\x22:\x7b\x22from_branch\x22:null,\x22from_version\x22:null," ++
        "\x22id\x22:\x22br\x22,\x22name\x22:\x22main\x22\x7d\x7d" ∧
      text.data.head? ≠ some '[' := by
  obtain ⟨text, h1, h2, h3, _, _⟩ :=
    commit_writes_object_stream storage.empty "_meta" 0 (initial_actions "ds" "br" 7)
  refine ⟨text, h1, ?_, h3⟩
  apply String.ext
  rw [h2]
  decide

/-- C22: for every log format below 3 and every storage, `create` throws "Log version
... is not supported" and leaves the storage as it was: no file is written, removed
or changed. -/
theorem create_rejects_old_format (s : storage) (log_version : Int)
    (metadata_id branch_id : String) (now : Int) (h : log_version < 3) :
    create s log_version metadata_id branch_id now =
      (.error ("Log version " ++ toString log_version ++ " is not supported"), s) := by
  unfold create
  rw [if_pos h]

/-- Witness of C22: log format 2 on the storage after a `create` with format 4. -/
theorem create_rejects_old_format_witness :
    create created_storage 2 "ds" "br" 7 =
      (.error "Log version 2 is not supported", created_storage) :=
  create_rejects_old_format created_storage 2 "ds" "br" 7 (by decide)

/-- C23, as the code behaves: on the storage after `create` and `checkpoint("_meta")`,
which holds commit 1 and a checkpoint at version 1, `action_data("_meta", 0, none)`
loads the checkpoint, still selects the commit file of version 1, and returns the rows
of the checkpoint table followed by the rows of commit 1 and the version row.  The
lower bound of the selection stays at `from`. -/
theorem checkpointed_commit_is_read_again :
    load_checkpoint checkpointed_storage "_meta" =
      .ok ([(initial_actions "ds" "br" 7).map action_row ++ [version_row 1]], 1) ∧
    scan_files none (some 0) (1, []) (checkpointed_storage.list_files "/_deeplake_log/_meta") =
      .ok (1, [commit_path "_meta" 1]) ∧
    action_data checkpointed_storage "_meta" 0 none =
      .ok (((initial_actions "ds" "br" 7).map action_row ++ [version_row 1]) ++
        (initial_actions "ds" "br" 7).map action_row ++ [version_row 1]) := by
  decide

/-- C24: the paths the listing loop of `action_data` selects are in ascending order of
the path strings, in which the parsing loop goes through them; for versions `a` and
`b` below `2 ^ 64` the name `zero_pad(a) + ".json"` is smaller than
`zero_pad(b) + ".json"` exactly when `a < b`, and so are the paths of the two commit
files of a branch; hence on a branch whose commit files are those of a list of commits
the table holds the rows of the selected commits in ascending version order. -/
theorem parse_order_is_version_order (s : storage) (branch_id : String)
    (to_version : Option Nat) (k highest : Nat) (paths : List String) (st : branch_state)
    (a b : Nat)
    (hscan : scan_files to_version (some 0) (k, [])
      (s.list_files ("/_deeplake_log/" ++ branch_id)) = .ok (highest, paths))
    (hrep : represents s branch_id st) (ha : a < 2 ^ 64) (hb : b < 2 ^ 64) :
    paths.Pairwise strings_lt ∧
    (path_lt ((zero_pad a).data ++ ".json".data) ((zero_pad b).data ++ ".json".data) = true ↔
      a < b) ∧
    (strings_lt (commit_path branch_id a) (commit_path branch_id b) ↔ a < b) ∧
    (selected_commits to_version st.commits).Pairwise (fun c d => c.1 < d.1) ∧
    action_data s branch_id 0 to_version = .ok
      (st.checkpoint_rows ++ commit_rows (selected_commits to_version st.commits) ++
        [version_row (max_version st.checkpoint_version
          (selected_commits to_version st.commits))]) := by
  have h20a : a < 10 ^ 20 := lt_trans ha (by norm_num)
  have h20b : b < 10 ^ 20 := lt_trans hb (by norm_num)
  refine ⟨scan_files_sorted _ _ _ _ _ hscan List.Pairwise.nil, ?_,
    commit_path_lt branch_id a b h20a h20b, hrep.2.1.sublist (List.filter_sublist _),
    action_data_represents s branch_id st to_version hrep⟩
  rw [path_lt_append_right _ _ _ (by rw [zero_pad_length, zero_pad_length]),
    zero_pad_fixed a h20a, zero_pad_fixed b h20b]
  exact fixed_digits_lt 20 a b h20a h20b

/-- Witness of C24: the storage with the commits 1 and 2 on `_meta`, and the versions
9 and 10, whose names differ in order from the unpadded numerals. -/
theorem parse_order_is_version_order_witness :
    [commit_path "_meta" 1, commit_path "_meta" 2].Pairwise strings_lt ∧
    (path_lt ((zero_pad 9).data ++ ".json".data) ((zero_pad 10).data ++ ".json".data) = true ↔
      9 < 10) ∧
    (strings_lt (commit_path "_meta" 9) (commit_path "_meta" 10) ↔ 9 < 10) ∧
    (selected_commits none
      [(1, initial_actions "ds" "br" 7), (2, [branch1])]).Pairwise (fun c d => c.1 < d.1) ∧
    action_data two_commits_storage "_meta" 0 none = .ok
      ([] ++ commit_rows (selected_commits none
          [(1, initial_actions "ds" "br" 7), (2, [branch1])]) ++
        [version_row (max_version 0 (selected_commits none
          [(1, initial_actions "ds" "br" 7), (2, [branch1])]))]) :=
  parse_order_is_version_order two_commits_storage "_meta" none 0 2
    [commit_path "_meta" 1, commit_path "_meta" 2]
    { checkpoint := none, commits := [(1, initial_actions "ds" "br" 7), (2, [branch1])] }
    9 10 (by decide)
    (represents_commit created_storage "_meta" _ 1 [branch1] represents_created_storage
      (by simp) (by norm_num))
    (by norm_num) (by norm_num)

/-- C25: one step of the loop of `get_actions` with an action `x` that is a replace
action, on the list `L`: when no element of `L` satisfies `x.replaces`, the result is
`L` with `x` appended; when `a` is the first element that does, `L` being `pre`, `a`,
`post`, the result is `pre`, `x.replace(a)`, `post` when the replacement is present and
`pre`, `post` when it is absent, so every other element keeps its value and its
place among the others. -/
theorem replace_step (cast : action → Option replace_action) (l : List action) (x : action)
    (r : replace_action) (hx : cast x = some r) :
    ((∀ a ∈ l, r.replaces a = false) → apply_action cast l x = l ++ [x]) ∧
    (∀ pre a post, l = pre ++ a :: post → (∀ b ∈ pre, r.replaces b = false) →
      r.replaces a = true →
      apply_action cast l x =
        (match r.replace a with
         | some y => pre ++ y :: post
         | none => pre ++ post)) := by
  refine ⟨apply_action_no_match cast l x r hx, ?_⟩
  intro pre a post e hpre ha
  rw [e]
  exact apply_action_split cast pre a post x r hx hpre ha

/-- Witness of C25: the step of the test `commit_protocol`, `protocol(5, 6)` on the
three initial actions, with the replace interface of the model. -/
theorem replace_step_witness :
    apply_action as_replace_action (initial_actions "ds" "br" 7) protocol_5_6 =
      [protocol_5_6,
       .metadata { id := "ds", name := none, description := none, created_time := 7 },
       .branch { id := "br", name := "main", from_branch := none, from_version := none }] :=
  (replace_step as_replace_action (initial_actions "ds" "br" 7) protocol_5_6 _ rfl).2 []
    (.protocol { min_reader_version := 4, min_writer_version := 4 })
    [.metadata { id := "ds", name := none, description := none, created_time := 7 },
     .branch { id := "br", name := "main", from_branch := none, from_version := none }]
    rfl (by simp) rfl

/-- C26: the table `write_checkpoint` assembles for `n` actions at version `V` has
`n + 1` rows; in the row of an action the field named by the tag of the action is the
only one that is not null, and it holds the action; in the last row the field
`version` is the only one that is not null, and it holds `V`.  `write_checkpoint`
stores this table for the action list of `get_actions(B, V)`. -/
theorem checkpoint_table_shape (actions : List action) (v : Nat) (s : storage)
    (branch_id : String) :
    (checkpoint_table actions v).length = actions.length + 1 ∧
    (checkpoint_table actions v).map (fun r => schema_fields.map r.is_set) =
      actions.map (fun a => schema_fields.map (fun field => decide (field = a.action_name))) ++
        [[false, false, false, false, false, true]] ∧
    table_actions (checkpoint_table actions v) = actions ∧
    (checkpoint_table actions v).map Row.version = actions.map (fun _ => none) ++ [some v] ∧
    write_checkpoint s branch_id v =
      (match get_actions s branch_id (some v) with
       | .error e => .error e
       | .ok result =>
           .ok (s.set_bytes (checkpoint_path branch_id v)
             (.parquet (checkpoint_table result.1 v)))) := by
  refine ⟨by simp [checkpoint_table], ?_, ?_, ?_, ?_⟩
  · rw [checkpoint_table_eq, List.map_append, List.map_map]
    congr 1
    exact List.map_congr_left (fun a _ => is_set_action_row a)
  · rw [checkpoint_table_eq, table_actions_append, table_actions_action_rows,
      table_actions_version_row, List.append_nil]
  · rw [checkpoint_table_eq, List.map_append, List.map_map]
    congr 1
    exact List.map_congr_left (fun a _ => by cases a <;> rfl)
  · unfold write_checkpoint
    cases get_actions s branch_id (some v) with
    | error e => rfl
    | ok result =>
      simp only [checkpoint_table_eq]
      rfl

/-- C27 fails as stated: for the 64-bit version `2 ^ 63` the zero-padded name is
`09223372036854775808.json`, and `file_version` fails on it, `std::stol` being out of
the range of `long`. -/
theorem file_version_fails_from_two_pow_63 :
    zero_pad 9223372036854775808 = "09223372036854775808" ∧
    file_version ("/_deeplake_log/_meta" ++ "/" ++ zero_pad 9223372036854775808 ++ ".json") =
      .error "stol: out_of_range" :=
  ⟨by decide, file_version_padded_large "/_deeplake_log/_meta" 9223372036854775808
    (by norm_num) (by norm_num)⟩

/-- C27, amended: for every version `v` below `2 ^ 63`, the range of the result type
`long`, and every directory prefix, `file_version` of the prefix, a slash,
`zero_pad(v)` and `.json` is `v`. -/
theorem file_version_undoes_zero_pad (dir : String) (v : Nat) (hv : v < 2 ^ 63) :
    file_version (dir ++ "/" ++ zero_pad v ++ ".json") = .ok (v : Int) :=
  file_version_padded dir v hv

/-- Witness of C27, amended: the greatest version of the range of `long`. -/
theorem file_version_undoes_zero_pad_witness :
    file_version ("/_deeplake_log/_meta" ++ "/" ++ zero_pad 9223372036854775807 ++ ".json") =
      .ok 9223372036854775807 :=
  file_version_undoes_zero_pad "/_deeplake_log/_meta" 9223372036854775807 (by norm_num)

/-- C28: for every replace interface in which a protocol action replaces exactly the
prior protocol actions, a metadata action replaces exactly the prior metadata
actions, and a replacement has the tag of the action it replaces, the action list the
decoding loop of `get_actions` returns for any table holds at most one protocol action
and at most one metadata action. -/
theorem at_most_one_protocol_and_metadata (cast : action → Option replace_action)
    (table : Table)
    (hprotocol : ∀ x, x.action_name = "protocol" →
      ∃ r, cast x = some r ∧ ∀ a, r.replaces a = decide (a.action_name = "protocol"))
    (hmetadata : ∀ x, x.action_name = "metadata" →
      ∃ r, cast x = some r ∧ ∀ a, r.replaces a = decide (a.action_name = "metadata"))
    (hsame : ∀ x r a y, cast x = some r → r.replaces a = true → r.replace a = some y →
      y.action_name = a.action_name) :
    (protocols (decode_table cast table).1).length ≤ 1 ∧
    (metas (decode_table cast table).1).length ≤ 1 := by
  rw [decode_table_fst, protocols_length_eq, metas_length_eq]
  exact ⟨count_tag_fold cast "protocol" hprotocol hsame _ [] (by decide),
    count_tag_fold cast "metadata" hmetadata hsame _ [] (by decide)⟩

/-- Witness of C28: the replace interface of the model on the table `action_data`
returns after `create` and `checkpoint("_meta")`, which holds the rows of the
checkpoint and of commit 1. -/
theorem at_most_one_protocol_and_metadata_witness :
    (protocols (decode_table as_replace_action
      (((initial_actions "ds" "br" 7).map action_row ++ [version_row 1]) ++
        (initial_actions "ds" "br" 7).map action_row ++ [version_row 1])).1).length ≤ 1 ∧
    (metas (decode_table as_replace_action
      (((initial_actions "ds" "br" 7).map action_row ++ [version_row 1]) ++
        (initial_actions "ds" "br" 7).map action_row ++ [version_row 1])).1).length ≤ 1 :=
  at_most_one_protocol_and_metadata as_replace_action _ as_replace_action_protocol
    as_replace_action_metadata as_replace_action_same_tag

end deeplog
